import Mathlib

/-!
# Verification of the avsc-keyruler Avro library core

A shallow embedding of the library's buffer cursor (`src/tap.js`), validator
and binary codec (`src/io.js`), and the name/registry slice of the schema
model (`src/schema.js`), together with proofs and refutations of the
specification's claims about them.

Modelling conventions, fixed once for the whole file:

* Host numbers are modelled as exact integers (`Int`).  JavaScript numbers
  are IEEE-754 binary64 values; the embedding covers the integral ones and
  makes every place where the source's floating-point arithmetic can round
  explicit through `roundB64` (round to 53 significant bits, ties to even),
  which is the identity on every value a JavaScript number can actually hold.
* Host strings are modelled as lists of Unicode scalar values
  (`List Nat`).  The source's UTF-16 surrogate-pair branch in `writeString`
  corresponds to the single `≥ 0x10000` case on scalar values.
* Buffers are `List Nat` of bytes; an out-of-range `buf[i]` read yields the
  JavaScript `undefined`, which every bitwise operation in `tap.js` treats
  exactly like the byte `0`, so the embedding reads `0` there.
* JavaScript objects (used both for map values and record values) are
  association lists `List (List Nat × Value)` in insertion order; real
  objects cannot carry duplicate keys, which the theorems assume where it
  matters.
* Fallible operations return `Except String`; a thrown JavaScript error is
  `Except.error`.
-/

/-- Decidable equality of fallible results, so concrete codec runs can be
checked by evaluation. -/
instance {ε α : Type} [DecidableEq ε] [DecidableEq α] : DecidableEq (Except ε α) := fun a b =>
  match a, b with
  | .ok x, .ok y =>
    if h : x = y then .isTrue (by rw [h]) else .isFalse (fun he => h (Except.ok.inj he))
  | .error x, .error y =>
    if h : x = y then .isTrue (by rw [h]) else .isFalse (fun he => h (Except.error.inj he))
  | .ok _, .error _ => .isFalse (fun he => Except.noConfusion he)
  | .error _, .ok _ => .isFalse (fun he => Except.noConfusion he)

/-- Unicode scalar string, the model of a JavaScript string. -/
abbrev Str := List Nat

/-- Convert a Lean string literal to the scalar-list string model. -/
def strLit (s : String) : Str := s.toList.map Char.toNat

/-- Number of bits in the binary representation of a natural number
(0 for 0). -/
def bitLen (a : Nat) : Nat := if a = 0 then 0 else Nat.log2 a + 1

/-- `n` is exactly representable with `p` significant bits: its magnitude is
`c * 2^e` with `c < 2^p`.  `reprP 53` characterises the integers an IEEE-754
binary64 value (a JavaScript number) can hold exactly. -/
def reprP (p : Nat) (n : Int) : Prop := ∃ c e : Nat, n.natAbs = c * 2 ^ e ∧ c < 2 ^ p

/-- Round an integer to `p` significant bits, ties to even — the rounding an
IEEE-754 operation at precision `p` performs on an integral result. -/
def roundPrec (p : Nat) (n : Int) : Int :=
  let a := n.natAbs
  if bitLen a ≤ p then n
  else
    let k := bitLen a - p
    let q := a / 2 ^ k
    let r := a % 2 ^ k
    let half := 2 ^ (k - 1)
    let q2 := if half < r ∨ (r = half ∧ q % 2 = 1) then q + 1 else q
    (if n < 0 then -1 else 1) * (q2 * 2 ^ k : Nat)

/-- Round to binary64 precision (53 significant bits). -/
def roundB64 (n : Int) : Int := roundPrec 53 n

/-- Round to binary32 precision (24 significant bits). -/
def roundB32 (n : Int) : Int := roundPrec 24 n

/-- Avro zig-zag of a signed integer: `2n` for `n ≥ 0`, `-2n-1` otherwise
(source: `m = n >= 0 ? n << 1 : (~n << 1) | 1` in `Tap.prototype.writeLong`). -/
def zig (n : Int) : Nat := (if 0 ≤ n then 2 * n else -2 * n - 1).toNat

/-- Inverse zig-zag (source: `(n >> 1) ^ -(n & 1)` in `Tap.prototype.readLong`:
even `m` gives `m/2`, odd `m` gives `-(m>>1)-1 = -(m+1)/2`). -/
def unzig (m : Nat) : Int := if m % 2 = 1 then -((m : Int) + 1) / 2 else (m : Int) / 2

/-- Little-endian base-128 digits with a continuation bit on every digit but
the last (source: the `do { buf[pos] = m & 0x7f; m >>= 7 } while (m && …)`
loop of `Tap.prototype.writeLong`). -/
def lebAux : Nat → Nat → List Nat
  | 0, m => [m]
  | fuel + 1, m => if m < 128 then [m] else (m % 128 + 128) :: lebAux fuel (m / 128)

/-- The digit list of `m`; the structural budget `m` always suffices since
each digit divides the remainder by 128 (see `lebBytes_unfold`). -/
def lebBytes (m : Nat) : List Nat := lebAux m m

/-- Little-endian bytes of `v`, `k` bytes wide. -/
def toBytesLE (k v : Nat) : List Nat :=
  match k with
  | 0 => []
  | k + 1 => v % 256 :: toBytesLE k (v / 256)

/-- Recompose a little-endian byte list into a natural number. -/
def fromBytesLE (bs : List Nat) : Nat :=
  match bs with
  | [] => 0
  | b :: rest => b % 256 + 256 * fromBytesLE rest

/-- Pack an integral value into IEEE-754 bits with `mb` mantissa bits, `eb`
exponent bits and exponent bias `bias`.  The argument is assumed already
rounded to `mb + 1` significant bits (the callers round first); magnitudes
whose exponent field would saturate encode as the corresponding infinity. -/
def encFloatBits (mb eb bias : Nat) (n : Int) : Nat :=
  if n = 0 then 0 else
  let a := n.natAbs
  let s : Nat := if n < 0 then 1 else 0
  let L := bitLen a
  if 2 ^ eb - 1 ≤ bias + L - 1 then
    -- overflow: infinity bit pattern
    s * 2 ^ (mb + eb) + (2 ^ eb - 1) * 2 ^ mb
  else
    let E := bias + L - 1
    let frac := if L ≤ mb + 1 then a * 2 ^ (mb + 1 - L) - 2 ^ mb
                else a / 2 ^ (L - (mb + 1)) - 2 ^ mb
    s * 2 ^ (mb + eb) + E * 2 ^ mb + frac

/-- Decode IEEE-754 bits back to an integer where the value is integral and
finite; `none` marks NaN, infinities and fractional values, which lie outside
the integral number domain this embedding models. -/
def decFloatBits (mb eb bias : Nat) (bits : Nat) : Option Int :=
  let frac := bits % 2 ^ mb
  let E := bits / 2 ^ mb % 2 ^ eb
  let s := bits / 2 ^ (mb + eb) % 2
  let sign : Int := if s = 1 then -1 else 1
  if E = 2 ^ eb - 1 then none
  else if E = 0 then (if frac = 0 then some 0 else none)
  else
    let v : Nat := 2 ^ mb + frac
    if bias + mb ≤ E then some (sign * (v * 2 ^ (E - bias - mb) : Nat))
    else if v % 2 ^ (bias + mb - E) = 0 then some (sign * (v / 2 ^ (bias + mb - E) : Nat))
    else none

/-- The 8 bytes `writeDoubleLE` stores for an integral value (binary64,
little-endian). -/
def encF64 (n : Int) : List Nat := toBytesLE 8 (encFloatBits 52 11 1023 n)

/-- Decode 8 little-endian binary64 bytes to an integer when integral. -/
def decF64 (bs : List Nat) : Option Int := decFloatBits 52 11 1023 (fromBytesLE bs)

/-- The 4 bytes `writeFloatLE` stores for an integral value (binary32,
little-endian). -/
def encF32 (n : Int) : List Nat := toBytesLE 4 (encFloatBits 23 8 127 n)

/-- Decode 4 little-endian binary32 bytes to an integer when integral. -/
def decF32 (bs : List Nat) : Option Int := decFloatBits 23 8 127 (fromBytesLE bs)

/-- UTF-8 bytes of one Unicode scalar value (source: the character loop of
`Tap.prototype.writeString`; on scalar values its surrogate-pair branch is
the `≥ 0x10000` case). -/
def utf8Char (c : Nat) : List Nat :=
  if c < 0x80 then [c]
  else if c < 0x800 then [c / 64 + 0xc0, c % 64 + 0x80]
  else if c < 0x10000 then [c / 4096 + 0xe0, c / 64 % 64 + 0x80, c % 64 + 0x80]
  else [c / 262144 + 0xf0, c / 4096 % 64 + 0x80, c / 64 % 64 + 0x80, c % 64 + 0x80]

/-- UTF-8 encoding of a scalar string. -/
def utf8Enc (s : Str) : List Nat := s.flatMap utf8Char

/-- `Buffer.byteLength` of a scalar string. -/
def utf8Len (s : Str) : Nat := (utf8Enc s).length

mutual
/-- Strict UTF-8 decoding (`buf.utf8Slice`).  `none` on malformed input; the
Node decoder substitutes U+FFFD there, a behaviour outside the valid-data
domain the claims exercise.  The continuation-byte cases live in helper
functions so that each has clean top-level patterns. -/
def utf8Dec : List Nat → Option Str
  | [] => some []
  | b :: rest =>
    if b < 0x80 then
      match utf8Dec rest with
      | some s => some (b :: s)
      | none => none
    else if b < 0xc0 then none
    else if b < 0xe0 then utf8Dec2 b rest
    else if b < 0xf0 then utf8Dec3 b rest
    else if b < 0xf8 then utf8Dec4 b rest
    else none

/-- Continuation of `utf8Dec` for a 2-byte leading byte. -/
def utf8Dec2 (b : Nat) : List Nat → Option Str
  | b1 :: rest1 =>
    if 0x80 ≤ b1 ∧ b1 < 0xc0 then
      let c := (b - 0xc0) * 64 + (b1 - 0x80)
      if c < 0x80 then none else
      match utf8Dec rest1 with
      | some s => some (c :: s)
      | none => none
    else none
  | _ => none

/-- Continuation of `utf8Dec` for a 3-byte leading byte. -/
def utf8Dec3 (b : Nat) : List Nat → Option Str
  | b1 :: b2 :: rest2 =>
    if (0x80 ≤ b1 ∧ b1 < 0xc0) ∧ (0x80 ≤ b2 ∧ b2 < 0xc0) then
      let c := (b - 0xe0) * 4096 + (b1 - 0x80) * 64 + (b2 - 0x80)
      if c < 0x800 ∨ (0xd800 ≤ c ∧ c < 0xe000) then none else
      match utf8Dec rest2 with
      | some s => some (c :: s)
      | none => none
    else none
  | _ => none

/-- Continuation of `utf8Dec` for a 4-byte leading byte. -/
def utf8Dec4 (b : Nat) : List Nat → Option Str
  | b1 :: b2 :: b3 :: rest3 =>
    if (0x80 ≤ b1 ∧ b1 < 0xc0) ∧ (0x80 ≤ b2 ∧ b2 < 0xc0) ∧ (0x80 ≤ b3 ∧ b3 < 0xc0) then
      let c := (b - 0xf0) * 262144 + (b1 - 0x80) * 4096 + (b2 - 0x80) * 64 + (b3 - 0x80)
      if c < 0x10000 ∨ 0x110000 ≤ c then none else
      match utf8Dec rest3 with
      | some s => some (c :: s)
      | none => none
    else none
  | _ => none
end

/-- A scalar value is a valid Unicode code point outside the surrogate range
(Lean `Char`s and well-formed JavaScript strings satisfy this). -/
def scalarOk (c : Nat) : Prop := c < 0x110000 ∧ ¬(0xd800 ≤ c ∧ c < 0xe000)

/-- Every code unit of the string is a valid Unicode scalar. -/
def strOk (s : Str) : Prop := ∀ c ∈ s, scalarOk c

instance (c : Nat) : Decidable (scalarOk c) := by
  unfold scalarOk
  infer_instance

/-- `buf.slice(pos, pos+len)`-style read of `len` bytes at `pos`. -/
def listSlice (buf : List Nat) (pos : Int) (len : Nat) : List Nat :=
  if 0 ≤ pos then (buf.drop pos.toNat).take len else []

/-- Overwrite `buf` with `bs` starting at `pos` (callers guard that the
write fits, mirroring the whole-or-nothing overflow guards in `tap.js`). -/
def spliceAt (pos : Int) (bs : List Nat) (buf : List Nat) : List Nat :=
  if 0 ≤ pos then buf.take pos.toNat ++ bs ++ buf.drop (pos.toNat + bs.length) else buf

/-- The buffer cursor of `src/tap.js`: a byte buffer and a position.  The
position is an `Int` because a bad varint length can drive it negative
(see the comment block above `readBoolean` in the source). -/
structure Tap where
  buf : List Nat
  pos : Int
deriving DecidableEq, Repr

/-- `Tap.prototype.isValid`: `pos <= buf.length`. -/
def Tap.isValid (t : Tap) : Bool := t.pos ≤ (t.buf.length : Int)

/-- `buf[pos]` as the bitwise operations of `tap.js` see it: an out-of-range
read yields `undefined`, which `& 0x7f`, `& 0x80` and `!!` treat exactly as
the byte `0`. -/
def Tap.getByte (t : Tap) : Nat :=
  if 0 ≤ t.pos ∧ t.pos < (t.buf.length : Int) then t.buf.getD t.pos.toNat 0 else 0

/-- Advance the position by one. -/
def Tap.bump (t : Tap) : Tap := { t with pos := t.pos + 1 }

/-- `buf[pos] = b` followed by `pos++`; an out-of-range store is silently
dropped (JavaScript buffer semantics), and stored bytes are truncated mod
256 as a `Uint8Array` does. -/
def Tap.writeByteAdv (t : Tap) (b : Nat) : Tap :=
  { buf := if 0 ≤ t.pos then t.buf.set t.pos.toNat (b % 256) else t.buf
    pos := t.pos + 1 }

/-- Emit a byte list one byte at a time (the varint write loop). -/
def Tap.writeBytesAdv (t : Tap) (bs : List Nat) : Tap := bs.foldl Tap.writeByteAdv t

/-- `Tap.prototype.readBoolean`: `!!buf[pos++]`. -/
def Tap.readBoolean (t : Tap) : Bool × Tap := (t.getByte ≠ 0, t.bump)

/-- `Tap.prototype.skipBoolean`: `pos++`. -/
def Tap.skipBoolean (t : Tap) : Tap := t.bump

/-- `Tap.prototype.writeBoolean`: `buf[pos++] = !!b` (a buffer store coerces
`true`/`false` to `1`/`0`). -/
def Tap.writeBoolean (t : Tap) (b : Bool) : Tap := t.writeByteAdv (if b then 1 else 0)

/-- First phase of `Tap.prototype.readLong`: the 32-bit integer loop
`do { b = buf[pos++]; n |= (b & 0x7f) << k; k += 7 } while (h && k < 28)`.
Since the accumulated bits are disjoint, `n |= (b & 0x7f) << k` is
`n + b % 128 * 2^k`.  Returns the accumulator, whether the continuation bit
was still set at `k = 28`, and the advanced tap. -/
def readLongAux1 : Nat → Tap → Nat → Nat → Nat × Bool × Tap
  | 0, t, n, k => (n + t.getByte % 128 * 2 ^ k, decide (128 ≤ t.getByte), t.bump)
  | iters + 1, t, n, k =>
    if t.getByte < 128 then (n + t.getByte % 128 * 2 ^ k, false, t.bump)
    else readLongAux1 iters t.bump (n + t.getByte % 128 * 2 ^ k) (k + 7)

/-- Second phase of `Tap.prototype.readLong`: the floating accumulation
`do { b = buf[pos++]; f += (b & 0x7f) * fk; fk *= 128 } while (b & 0x80)`.
Each `f += x` is a binary64 addition and may round (`roundB64`); the term
`(b & 0x7f) * fk` and `fk *= 128` are exact because `b & 0x7f < 2^7` and
`fk` is a power of two.  The loop terminates because an out-of-range read
yields byte `0`, which has no continuation bit. -/
def readLongAux2 : Nat → Tap → Int → Int → Int × Tap
  | 0, t, f, fk => (roundB64 (f + t.getByte % 128 * fk), t.bump)
  | fuel + 1, t, f, fk =>
    if t.getByte < 128 then (roundB64 (f + t.getByte % 128 * fk), t.bump)
    else readLongAux2 fuel t.bump (roundB64 (f + t.getByte % 128 * fk)) (fk * 128)

/-- A structural budget that outlasts the loop: one byte is consumed per
iteration, and once the position passes the end of the buffer the read
byte is 0, which has no continuation bit. -/
def contFuel (t : Tap) : Nat := ((t.buf.length : Int) + 1 - t.pos).toNat

/-- `(f % 2 ? -(f + 1) : f) / 2`, the zig-zag decode tail of the floating
path; `f + 1` is a binary64 addition (`roundB64`), the negation and the
division by two are exact. -/
def unzigF (f : Int) : Int := if f % 2 = 1 then -(roundB64 (f + 1)) / 2 else f / 2

/-- `Tap.prototype.readLong` (also `readInt`): varint read with the 28-bit
integer fast path and the floating continuation. -/
def Tap.readLong (t : Tap) : Int × Tap :=
  match readLongAux1 3 t 0 0 with
  | (n, false, t1) => (unzig n, t1)
  | (n, true, t1) =>
    let r := readLongAux2 (contFuel t1) t1 (n : Int) (2 ^ 28)
    (unzigF r.1, r.2)

def skipLongAux : Nat → Tap → Tap
  | 0, t => t.bump
  | fuel + 1, t => if t.getByte < 128 then t.bump else skipLongAux fuel t.bump

/-- `Tap.prototype.skipLong` (also `skipInt`):
`while (buf[this.pos++] & 0x80) { }`. -/
def Tap.skipLong (t : Tap) : Tap := skipLongAux (contFuel t) t

/-- The value whose base-128 digits `Tap.prototype.writeLong` emits.  The
integer path (`-2^30 ≤ n < 2^30`) computes `m = zig n` exactly with 32-bit
arithmetic.  The floating path computes `f = n * 2` (exact on any host
number) or `f = -n * 2 - 1` (one binary64 rounding), i.e. `roundB64 (zig n)`;
the subsequent `f & 0x7f` / `f /= 128` loop extracts `floor(f / 128^k) mod
128` — exactly the base-128 digits — because dividing a binary64 value by
128 is exact and `ToInt32` truncation preserves the low 7 bits. -/
def zigJs (n : Int) : Nat :=
  if -1073741824 ≤ n ∧ n < 1073741824 then zig n else (roundB64 (zig n)).toNat

/-- `Tap.prototype.writeLong` (also `writeInt`): emit the varint bytes one
at a time. -/
def Tap.writeLong (t : Tap) (n : Int) : Tap := t.writeBytesAdv (lebBytes (zigJs n))

/-- `Tap.prototype.readDouble`: advance by 8; if that overflows the buffer
return `undefined` (`none`); otherwise decode the 8 little-endian bytes.
NaN, infinities and fractional values decode to `none` as well: they lie
outside the integral number domain this embedding models (Node additionally
rejects a negative offset, also outside the claims' reach). -/
def Tap.readDouble (t : Tap) : Option Int × Tap :=
  let t1 : Tap := { t with pos := t.pos + 8 }
  if (t.buf.length : Int) < t1.pos then (none, t1)
  else if t.pos < 0 then (none, t1)
  else (decF64 (listSlice t.buf t.pos 8), t1)

/-- `Tap.prototype.skipDouble`: `pos += 8`. -/
def Tap.skipDouble (t : Tap) : Tap := { t with pos := t.pos + 8 }

/-- `Tap.prototype.writeDouble`: advance by 8; on overflow write nothing;
otherwise store the binary64 bytes (`writeDoubleLE` stores the host number
exactly; `roundB64` is the identity there). -/
def Tap.writeDouble (t : Tap) (n : Int) : Tap :=
  let t1 : Tap := { t with pos := t.pos + 8 }
  if (t.buf.length : Int) < t1.pos then t1
  else { buf := spliceAt t.pos (encF64 (roundB64 n)) t.buf, pos := t1.pos }

/-- `Tap.prototype.readFloat`: as `readDouble` with 4 binary32 bytes. -/
def Tap.readFloat (t : Tap) : Option Int × Tap :=
  let t1 : Tap := { t with pos := t.pos + 4 }
  if (t.buf.length : Int) < t1.pos then (none, t1)
  else if t.pos < 0 then (none, t1)
  else (decF32 (listSlice t.buf t.pos 4), t1)

/-- `Tap.prototype.skipFloat`: `pos += 4`. -/
def Tap.skipFloat (t : Tap) : Tap := { t with pos := t.pos + 4 }

/-- `Tap.prototype.writeFloat`: `writeFloatLE` narrows the host number to
binary32 (`roundB32`) before storing 4 bytes. -/
def Tap.writeFloat (t : Tap) (n : Int) : Tap :=
  let t1 : Tap := { t with pos := t.pos + 4 }
  if (t.buf.length : Int) < t1.pos then t1
  else { buf := spliceAt t.pos (encF32 (roundB32 n)) t.buf, pos := t1.pos }

/-- `Tap.prototype.readFixed`: advance by `len`; if past the end return
`undefined` silently; otherwise `Buffer.alloc(len)` (throws on a negative
length) and copy (`copy` rejects a negative source offset). -/
def Tap.readFixed (t : Tap) (len : Int) : Except String (Option (List Nat) × Tap) :=
  let t1 : Tap := { t with pos := t.pos + len }
  if (t.buf.length : Int) < t1.pos then .ok (none, t1)
  else if len < 0 then .error "RangeError: Buffer.alloc size is out of range"
  else if t.pos < 0 then .error "RangeError: copy source offset out of range"
  else .ok (some (listSlice t.buf t.pos len.toNat), t1)

/-- `Tap.prototype.skipFixed`: `pos += len`. -/
def Tap.skipFixed (t : Tap) (len : Int) : Tap := { t with pos := t.pos + len }

/-- `Tap.prototype.writeFixed`: `len = len || buf.length` (a zero length
argument falls back to the source length), advance, whole-or-nothing
overflow guard, then copy at most `src.length` bytes. -/
def Tap.writeFixed (t : Tap) (src : List Nat) (lenArg : Nat) : Tap :=
  let len := if lenArg = 0 then src.length else lenArg
  let t1 : Tap := { t with pos := t.pos + len }
  if (t.buf.length : Int) < t1.pos then t1
  else if t.pos < 0 then t1
  else { buf := spliceAt t.pos (src.take len) t.buf, pos := t1.pos }

/-- `Tap.prototype.readBytes`: `readFixed(readLong())`. -/
def Tap.readBytes (t : Tap) : Except String (Option (List Nat) × Tap) :=
  let r := t.readLong
  r.2.readFixed r.1

/-- `Tap.prototype.skipBytes`: read the length, then `pos += len`. -/
def Tap.skipBytes (t : Tap) : Tap :=
  let r := t.readLong
  { r.2 with pos := r.2.pos + r.1 }

/-- `Tap.prototype.writeBytes`: length varint then raw bytes. -/
def Tap.writeBytes (t : Tap) (bs : List Nat) : Tap :=
  (t.writeLong bs.length).writeFixed bs bs.length

/-- `Tap.prototype.readString`: length varint, advance, overflow returns
`undefined`; otherwise UTF-8-decode the slice (a non-positive length or
negative offset yields the empty slice, as `utf8Slice` clamps).  Malformed
UTF-8 is an error in the embedding (Node substitutes U+FFFD there, outside
the valid-data domain the claims exercise). -/
def Tap.readString (t : Tap) : Except String (Option Str × Tap) :=
  let r := t.readLong
  let len := r.1
  let t1 : Tap := { r.2 with pos := r.2.pos + len }
  if (t1.buf.length : Int) < t1.pos then .ok (none, t1)
  else
    let bytes := if 0 ≤ r.2.pos ∧ 0 ≤ len then listSlice t1.buf r.2.pos len.toNat else []
    match utf8Dec bytes with
    | some s => .ok (some s, t1)
    | none => .error "malformed utf8 outside modelled domain"

/-- `Tap.prototype.skipString`: read the length, then `pos += len`. -/
def Tap.skipString (t : Tap) : Tap :=
  let r := t.readLong
  { r.2 with pos := r.2.pos + r.1 }

/-- `Tap.prototype.writeString`: byte length varint, advance past the
payload, whole-or-nothing overflow guard, then the UTF-8 bytes (the `> 64`
library path and the inline character loop encode identically). -/
def Tap.writeString (t : Tap) (s : Str) : Tap :=
  let len := utf8Len s
  let t1 := t.writeLong (len : Int)
  let t2 : Tap := { t1 with pos := t1.pos + len }
  if (t2.buf.length : Int) < t2.pos then t2
  else if t1.pos < 0 then t2
  else { buf := spliceAt t1.pos (utf8Enc s) t1.buf, pos := t2.pos }

/-- JSON values, used for schema JSON and field default literals. -/
inductive Json where
  | jnull
  | jbool (b : Bool)
  | jnum (n : Int)
  | jstr (s : Str)
  | jarr (xs : List Json)
  | jobj (kvs : List (Str × Json))
deriving Repr

/-- A host value, the domain `io.js` validates, encodes and decodes.
JavaScript maps and records are both plain objects (`vobj`), buffers are
`vbytes`, numbers are modelled by their exact integral values. -/
inductive Value where
  | vnull
  | vbool (b : Bool)
  | vnum (n : Int)
  | vstr (s : Str)
  | vbytes (bs : List Nat)
  | varr (xs : List Value)
  | vobj (kvs : List (Str × Value))
deriving Repr

mutual
/-- A parsed schema node (`schema.js`).  String references to registered
named types — which in the source are pointers to the registered objects —
are `sRef` nodes resolved through the registry environment. -/
inductive Schema where
  | sNull
  | sBoolean
  | sInt
  | sLong
  | sFloat
  | sDouble
  | sBytes
  | sString
  | sFixed (fullname : Str) (size : Nat)
  | sEnum (fullname : Str) (symbols : List Str)
  | sRecord (isError : Bool) (fullname : Str) (fields : List SField)
  | sArray (items : Schema)
  | sMap (values : Schema)
  | sUnion (isErrorUnion : Bool) (branches : List Schema)
  | sRef (name : Str)
deriving Repr

/-- A record field: name, type, and the `default` JSON literal when the
field declared one. -/
inductive SField where
  | mk (fname : Str) (ftype : Schema) (hasDefault : Bool) (dflt : Json)
deriving Repr
end

/-- Field name accessor. -/
def SField.fname : SField → Str
  | .mk n _ _ _ => n

/-- Field type accessor. -/
def SField.ftype : SField → Schema
  | .mk _ t _ _ => t

/-- Whether the field carries a default. -/
def SField.hasDefault : SField → Bool
  | .mk _ _ h _ => h

/-- The field's default JSON literal. -/
def SField.dflt : SField → Json
  | .mk _ _ _ d => d

/-- What the `Names` registry can hold: only named types are ever
registered (`addName` is called from the `NamedSchema` constructor alone). -/
inductive NamedDef where
  | ndFixed (size : Nat)
  | ndEnum (symbols : List Str)
  | ndRecord (isError : Bool) (fields : List SField)
deriving Repr

/-- The registry environment: fullname to named definition. -/
abbrev SEnv := List (Str × NamedDef)

/-- First-match association-list lookup; JavaScript objects cannot hold
duplicate keys, so insertion order is irrelevant for lookups on them. -/
def kvLookup (k : Str) : List (Str × α) → Option α
  | [] => none
  | (k1, v) :: rest => if k1 = k then some v else kvLookup k rest

/-- Resolve a reference node to the registered named schema it points to;
in the source a reference is simply the registered object itself.  Other
nodes are returned unchanged. -/
def resolveS (env : SEnv) (s : Schema) : Schema :=
  match s with
  | .sRef n =>
    match kvLookup n env with
    | some (.ndFixed sz) => .sFixed n sz
    | some (.ndEnum syms) => .sEnum n syms
    | some (.ndRecord e fs) => .sRecord e n fs
    | none => .sRef n
  | s => s

/-- The `type` property string of a schema node. -/
def typeName (s : Schema) : Str :=
  match s with
  | .sNull => strLit "null"
  | .sBoolean => strLit "boolean"
  | .sInt => strLit "int"
  | .sLong => strLit "long"
  | .sFloat => strLit "float"
  | .sDouble => strLit "double"
  | .sBytes => strLit "bytes"
  | .sString => strLit "string"
  | .sFixed _ _ => strLit "fixed"
  | .sEnum _ _ => strLit "enum"
  | .sRecord e _ _ => if e then strLit "error" else strLit "record"
  | .sArray _ => strLit "array"
  | .sMap _ => strLit "map"
  | .sUnion eu _ => if eu then strLit "error_union" else strLit "union"
  | .sRef _ => strLit "unresolved"

/-- Membership in `PRIMITIVE_TYPES`. -/
def isPrim (s : Schema) : Bool :=
  match s with
  | .sNull | .sBoolean | .sInt | .sLong | .sFloat | .sDouble | .sBytes | .sString => true
  | _ => false

/-- `union` or `error_union`. -/
def isUnionKind (s : Schema) : Bool :=
  match s with
  | .sUnion _ _ => true
  | _ => false

/-- `DatumReader.matchSchemas`.  References resolve to their registered
objects before any property is consulted, as in the source where they are
those objects.  The `request` case cannot arise: the `RecordSchema`
constructor rejects `request` outright. -/
def matchSchemas (env : SEnv) (w0 r0 : Schema) : Bool :=
  let w := resolveS env w0
  let r := resolveS env r0
  if isUnionKind w ∨ isUnionKind r then true
  else if isPrim w ∧ isPrim r ∧ typeName w = typeName r then true
  else
    match w, r with
    | .sRecord ew nw _, .sRecord er nr _ => ew = er ∧ nw = nr
    | .sFixed nw szw, .sFixed nr szr => nw = nr ∧ szw = szr
    | .sEnum nw _, .sEnum nr _ => nw = nr
    | .sMap vw, .sMap vr => typeName (resolveS env vw) = typeName (resolveS env vr)
    | .sArray iw, .sArray ir => typeName (resolveS env iw) = typeName (resolveS env ir)
    | .sInt, .sLong | .sInt, .sFloat | .sInt, .sDouble => true
    | .sLong, .sFloat | .sLong, .sDouble => true
    | .sFloat, .sDouble => true
    | _, _ => false

mutual
/-- The validator (`validate` and the `_valid` table in `io.js`),
specialised to a call without registered logical types, where the
logical-type guard in the source is statically false.  Notes kept from the
source: `INT_MAX_VALUE` is `2^31 - 1`, but the `LONG_MAX_VALUE` literal
`9223372036854775807` is itself a double and rounds up to `2^63`, so the
long bound really is `-2^63 ≤ d ≤ 2^63`; a record key absent from the value
reads as `undefined`, which no branch of `_valid` accepts; map keys are
`Object.keys` results and therefore always strings.  Recursion is bounded
by an explicit depth budget; an exhausted budget yields `false`. -/
def validate (env : SEnv) (fuel : Nat) (s : Schema) (v : Value) : Bool :=
  match fuel with
  | 0 => false
  | fuel + 1 =>
    match resolveS env s with
    | .sNull => match v with | .vnull => true | _ => false
    | .sBoolean => match v with | .vbool _ => true | _ => false
    | .sString => match v with | .vstr _ => true | _ => false
    | .sBytes => match v with | .vbytes _ => true | _ => false
    | .sInt => match v with
      | .vnum n => decide (-(2 ^ 31) ≤ n ∧ n ≤ 2 ^ 31 - 1)
      | _ => false
    | .sLong => match v with
      | .vnum n => decide (-(2 ^ 63) ≤ n ∧ n ≤ 2 ^ 63)
      | _ => false
    | .sFloat => match v with | .vnum _ => true | _ => false
    | .sDouble => match v with | .vnum _ => true | _ => false
    | .sFixed _ size => match v with
      | .vbytes bs => bs.length = size
      | _ => false
    | .sEnum _ symbols => match v with
      | .vstr x => symbols.contains x
      | _ => false
    | .sArray items => match v with
      | .varr xs => validList env fuel items xs
      | _ => false
    | .sMap values => match v with
      | .vobj kvs => validEntries env fuel values kvs
      | _ => false
    | .sUnion _ bs => validAny env fuel bs v
    | .sRecord _ _ fields => match v with
      | .vobj kvs =>
        validFields env fuel fields kvs
        && (kvs.all fun kv => fields.any fun f => f.fname = kv.1)
      | _ => false
    | .sRef _ => false

/-- The `datum.every(...)` element loop of the array branch of `_valid`. -/
def validList (env : SEnv) (fuel : Nat) (items : Schema) (xs : List Value) : Bool :=
  match fuel with
  | 0 => false
  | fuel + 1 =>
    match xs with
    | [] => true
    | x :: rest => validate env fuel items x && validList env fuel items rest

/-- The `Object.entries(datum).every(...)` loop of the map branch. -/
def validEntries (env : SEnv) (fuel : Nat) (values : Schema) (kvs : List (Str × Value)) : Bool :=
  match fuel with
  | 0 => false
  | fuel + 1 =>
    match kvs with
    | [] => true
    | (_, x) :: rest => validate env fuel values x && validEntries env fuel values rest

/-- The `schema.schemas.some(...)` loop of the union branch. -/
def validAny (env : SEnv) (fuel : Nat) (bs : List Schema) (v : Value) : Bool :=
  match fuel with
  | 0 => false
  | fuel + 1 =>
    match bs with
    | [] => false
    | b :: rest => validate env fuel b v || validAny env fuel rest v

/-- The `schema.fields.every(...)` loop of the record branch: each declared
field's name is looked up in the value (`undefined`, hence `false`, when
absent) and validated against the field type. -/
def validFields (env : SEnv) (fuel : Nat) (fields : List SField) (kvs : List (Str × Value)) : Bool :=
  match fuel with
  | 0 => false
  | fuel + 1 =>
    match fields with
    | [] => true
    | f :: rest =>
      (match kvLookup f.fname kvs with
       | some w => validate env fuel f.ftype w
       | none => false) && validFields env fuel rest kvs
end

/-- JavaScript truthiness of a host value (`!!datum`); objects, buffers and
arrays are always truthy. -/
def jsTruthy (v : Value) : Bool :=
  match v with
  | .vnull => false
  | .vbool b => b
  | .vnum n => n ≠ 0
  | .vstr s => s ≠ []
  | .vbytes _ => true
  | .varr _ => true
  | .vobj _ => true

/-- `Array.prototype.indexOf`: index of the first occurrence, or `-1`. -/
def jsIndexOf (x : Str) (l : List Str) : Int :=
  match List.findIdx? (fun s => s = x) l with
  | some i => (i : Nat)
  | none => -1

/-- The branch-selection loop of `DatumWriter.writeUnion`: the loop body
overwrites `indexOfSchema` on every validating branch without breaking, so
the LAST validating branch wins.  Returns that index with the branch. -/
def lastValidPick (env : SEnv) (fuel : Nat) (v : Value) : (bs : List Schema) → Option (Nat × Schema)
  | [] => none
  | b :: rest =>
    match lastValidPick env fuel v rest with
    | some (j, b1) => some (j + 1, b1)
    | none =>
      if validate env fuel b v then some (0, b)
      else none

mutual
/-- `DatumWriter.writeData`, specialised to no registered logical types
(the hook guard in the source is then statically false).  The source does
not re-validate per node: `writeBoolean` coerces by truthiness and
`writeEnum` writes the `indexOf` result even when it is `-1`.  Host values
outside the modelled domain (for example a non-number under an `int`
schema, whose JavaScript behaviour routes through `NaN` arithmetic) map to
explicit errors; they are unreachable from the validated `write` entry
point.  Recursion is bounded by an explicit depth budget; an exhausted
budget yields the artificial error `"fuel"`, which no source path emits. -/
def writeData (env : SEnv) (fuel : Nat) (s : Schema) (v : Value) (t : Tap) : Except String Tap :=
  match fuel with
  | 0 => .error "fuel"
  | fuel + 1 =>
    match resolveS env s with
    | .sNull => .ok t
    | .sBoolean => .ok (t.writeBoolean (jsTruthy v))
    | .sString => match v with
      | .vstr x => .ok (t.writeString x)
      | _ => .error "Buffer.byteLength of a non-string"
    | .sInt => match v with
      | .vnum n => .ok (t.writeLong n)
      | _ => .error "non-number NaN arithmetic outside modelled domain"
    | .sLong => match v with
      | .vnum n => .ok (t.writeLong n)
      | _ => .error "non-number NaN arithmetic outside modelled domain"
    | .sFloat => match v with
      | .vnum n => .ok (t.writeFloat n)
      | _ => .error "non-number NaN arithmetic outside modelled domain"
    | .sDouble => match v with
      | .vnum n => .ok (t.writeDouble n)
      | _ => .error "non-number NaN arithmetic outside modelled domain"
    | .sBytes => match v with
      | .vbytes bs => .ok (t.writeBytes bs)
      | _ => .error "non-buffer write outside modelled domain"
    | .sFixed _ size => match v with
      | .vbytes bs => .ok (t.writeFixed bs size)
      | _ => .error "non-buffer write outside modelled domain"
    | .sEnum _ symbols =>
      .ok (t.writeLong (match v with | .vstr x => jsIndexOf x symbols | _ => -1))
    | .sArray items => match v with
      | .varr xs =>
        if xs.length > 0 then
          match writeArrItems env fuel items xs (t.writeLong (xs.length : Int)) with
          | .ok t2 => .ok (t2.writeLong 0)
          | .error e => .error e
        else .ok (t.writeLong 0)
      | _ => .error "non-array write outside modelled domain"
    | .sMap values => match v with
      | .vobj kvs =>
        if kvs.length > 0 then
          match writeMapEntries env fuel values kvs (t.writeLong (kvs.length : Int)) with
          | .ok t2 => .ok (t2.writeLong 0)
          | .error e => .error e
        else .ok (t.writeLong 0)
      | _ => .error "non-object write outside modelled domain"
    | .sUnion _ bs =>
      match lastValidPick env fuel v bs with
      | some (i, b) => writeData env fuel b v (t.writeLong (i : Int))
      | none => .error "AvroTypeError: datum matches no union branch"
    | .sRecord _ _ fields => match v with
      | .vobj kvs => writeRecFields env fuel fields kvs t
      | _ => .error "non-object write outside modelled domain"
    | .sRef _ => .error "unresolved reference"

/-- The element loop of `DatumWriter.writeArray`. -/
def writeArrItems (env : SEnv) (fuel : Nat) (items : Schema) (xs : List Value) (t : Tap) :
    Except String Tap :=
  match fuel with
  | 0 => .error "fuel"
  | fuel + 1 =>
    match xs with
    | [] => .ok t
    | x :: rest =>
      match writeData env fuel items x t with
      | .ok t1 => writeArrItems env fuel items rest t1
      | .error e => .error e

/-- The entry loop of `DatumWriter.writeMap`: `writeString(key)` then the
value. -/
def writeMapEntries (env : SEnv) (fuel : Nat) (values : Schema) (kvs : List (Str × Value))
    (t : Tap) : Except String Tap :=
  match fuel with
  | 0 => .error "fuel"
  | fuel + 1 =>
    match kvs with
    | [] => .ok t
    | (k, x) :: rest =>
      match writeData env fuel values x (t.writeString k) with
      | .ok t1 => writeMapEntries env fuel values rest t1
      | .error e => .error e

/-- The field loop of `DatumWriter.writeRecord`: `datum[field.name]` per
declared field order.  A missing key reads as `undefined` in the source
(unreachable from the validated entry point); the embedding reports it. -/
def writeRecFields (env : SEnv) (fuel : Nat) (fields : List SField) (kvs : List (Str × Value))
    (t : Tap) : Except String Tap :=
  match fuel with
  | 0 => .error "fuel"
  | fuel + 1 =>
    match fields with
    | [] => .ok t
    | f :: rest =>
      match kvLookup f.fname kvs with
      | some w =>
        match writeData env fuel f.ftype w t with
        | .ok t1 => writeRecFields env fuel rest kvs t1
        | .error e => .error e
      | none => .error "undefined field value outside modelled domain"
end

mutual
/-- Pure byte-level description of `writeData`: the bytes the encoder emits
for a value, structured exactly like `writeData` (same dispatch, same
branch selection, same error cases, same depth budget).
`encBytes_writeData` below proves that `writeData` splices exactly these
bytes into the cursor's buffer. -/
def encBytes (env : SEnv) (fuel : Nat) (s : Schema) (v : Value) : Except String (List Nat) :=
  match fuel with
  | 0 => .error "fuel"
  | fuel + 1 =>
    match resolveS env s with
    | .sNull => .ok []
    | .sBoolean => .ok [if jsTruthy v then 1 else 0]
    | .sString => match v with
      | .vstr x => .ok (lebBytes (zigJs (utf8Len x)) ++ utf8Enc x)
      | _ => .error "Buffer.byteLength of a non-string"
    | .sInt => match v with
      | .vnum n => .ok (lebBytes (zigJs n))
      | _ => .error "non-number NaN arithmetic outside modelled domain"
    | .sLong => match v with
      | .vnum n => .ok (lebBytes (zigJs n))
      | _ => .error "non-number NaN arithmetic outside modelled domain"
    | .sFloat => match v with
      | .vnum n => .ok (encF32 (roundB32 n))
      | _ => .error "non-number NaN arithmetic outside modelled domain"
    | .sDouble => match v with
      | .vnum n => .ok (encF64 (roundB64 n))
      | _ => .error "non-number NaN arithmetic outside modelled domain"
    | .sBytes => match v with
      | .vbytes bs => .ok (lebBytes (zigJs (bs.length : Int)) ++ bs)
      | _ => .error "non-buffer write outside modelled domain"
    | .sFixed _ size => match v with
      | .vbytes bs => .ok (bs.take (if size = 0 then bs.length else size))
      | _ => .error "non-buffer write outside modelled domain"
    | .sEnum _ symbols =>
      .ok (lebBytes (zigJs (match v with | .vstr x => jsIndexOf x symbols | _ => -1)))
    | .sArray items => match v with
      | .varr xs =>
        if xs.length > 0 then
          match encArrItems env fuel items xs with
          | .ok mid => .ok (lebBytes (zigJs (xs.length : Int)) ++ mid ++ lebBytes (zigJs 0))
          | .error e => .error e
        else .ok (lebBytes (zigJs 0))
      | _ => .error "non-array write outside modelled domain"
    | .sMap values => match v with
      | .vobj kvs =>
        if kvs.length > 0 then
          match encMapEntries env fuel values kvs with
          | .ok mid => .ok (lebBytes (zigJs (kvs.length : Int)) ++ mid ++ lebBytes (zigJs 0))
          | .error e => .error e
        else .ok (lebBytes (zigJs 0))
      | _ => .error "non-object write outside modelled domain"
    | .sUnion _ bs =>
      match lastValidPick env fuel v bs with
      | some (i, b) =>
        match encBytes env fuel b v with
        | .ok body => .ok (lebBytes (zigJs (i : Int)) ++ body)
        | .error e => .error e
      | none => .error "AvroTypeError: datum matches no union branch"
    | .sRecord _ _ fields => match v with
      | .vobj kvs => encRecFields env fuel fields kvs
      | _ => .error "non-object write outside modelled domain"
    | .sRef _ => .error "unresolved reference"

/-- Bytes of the array element loop. -/
def encArrItems (env : SEnv) (fuel : Nat) (items : Schema) (xs : List Value) :
    Except String (List Nat) :=
  match fuel with
  | 0 => .error "fuel"
  | fuel + 1 =>
    match xs with
    | [] => .ok []
    | x :: rest =>
      match encBytes env fuel items x with
      | .ok b1 =>
        match encArrItems env fuel items rest with
        | .ok b2 => .ok (b1 ++ b2)
        | .error e => .error e
      | .error e => .error e

/-- Bytes of the map entry loop: encoded key string, then the value. -/
def encMapEntries (env : SEnv) (fuel : Nat) (values : Schema) (kvs : List (Str × Value)) :
    Except String (List Nat) :=
  match fuel with
  | 0 => .error "fuel"
  | fuel + 1 =>
    match kvs with
    | [] => .ok []
    | (k, x) :: rest =>
      match encBytes env fuel values x with
      | .ok b1 =>
        match encMapEntries env fuel values rest with
        | .ok b2 => .ok (lebBytes (zigJs (utf8Len k)) ++ utf8Enc k ++ b1 ++ b2)
        | .error e => .error e
      | .error e => .error e

/-- Bytes of the record field loop. -/
def encRecFields (env : SEnv) (fuel : Nat) (fields : List SField) (kvs : List (Str × Value)) :
    Except String (List Nat) :=
  match fuel with
  | 0 => .error "fuel"
  | fuel + 1 =>
    match fields with
    | [] => .ok []
    | f :: rest =>
      match kvLookup f.fname kvs with
      | some w =>
        match encBytes env fuel f.ftype w with
        | .ok b1 =>
          match encRecFields env fuel rest kvs with
          | .ok b2 => .ok (b1 ++ b2)
          | .error e => .error e
        | .error e => .error e
      | none => .error "undefined field value outside modelled domain"
end

/-- First reader-union branch accepted by `matchSchemas` (the schema
resolution loop at the top of `DatumReader.readData`). -/
def pickFirstMatch (env : SEnv) (w : Schema) : List Schema → Option Schema
  | [] => none
  | b :: rest => if matchSchemas env w b then some b else pickFirstMatch env w rest

/-- `readersFieldsDict[name]`: the source builds the dictionary by iterating
the field list, so a duplicated name keeps the last field; parsed schemas
cannot carry duplicates (`makeFieldObjects` throws). -/
def lookupFieldDict (n : Str) : List SField → Option SField
  | [] => none
  | f :: rest =>
    match lookupFieldDict n rest with
    | some g => some g
    | none => if f.fname = n then some f else none

/-- The canonical injection of a JSON literal into the host-value domain:
for the scalar schema kinds `readDefaultValue` returns the parsed JSON
default itself as the host value. -/
def jsonToValue (j : Json) : Value :=
  match j with
  | .jnull => .vnull
  | .jbool b => .vbool b
  | .jnum n => .vnum n
  | .jstr s => .vstr s
  | .jarr xs => .varr (xs.attach.map fun x => jsonToValue x.1)
  | .jobj kvs => .vobj (kvs.attach.map fun kv => (kv.1.1, jsonToValue kv.1.2))
termination_by sizeOf j
decreasing_by
  all_goals simp_wf
  · have := List.sizeOf_lt_of_mem x.2
    omega
  · obtain ⟨⟨k1, j1⟩, hmem⟩ := kv
    have := List.sizeOf_lt_of_mem hmem
    simp only [Prod.mk.sizeOf_spec] at this
    show sizeOf j1 < _
    omega

/-- `Buffer.from` applied to a JSON default literal: a string is encoded as
UTF-8 (Node's default), an array of numbers is truncated byte-wise, other
inputs throw. -/
def bufferFrom (j : Json) : Except String (List Nat) :=
  match j with
  | .jstr s => .ok (utf8Enc s)
  | .jarr xs => .ok (xs.map fun x => match x with
      | .jnum n => (n.emod 256).toNat
      | _ => 0)
  | _ => .error "TypeError: Buffer.from on invalid input"

/-- JavaScript object store `obj[k] = v`: update in place when the key
exists (keeping its position), append otherwise. -/
def kvInsert (k : Str) (v : α) : List (Str × α) → List (Str × α)
  | [] => [(k, v)]
  | (k1, v1) :: rest => if k1 = k then (k1, v) :: rest else (k1, v1) :: kvInsert k v rest

mutual
/-- `DatumReader.readDefaultValue`: synthesise a host value from a field's
JSON default literal. -/
def readDefaultValue (env : SEnv) (fuel : Nat) (s : Schema) (j : Json) : Except String Value :=
  match fuel with
  | 0 => .error "fuel exhausted: diverging default synthesis outside modelled domain"
  | fuel + 1 =>
    match resolveS env s with
    | .sNull => .ok .vnull
    | .sBoolean | .sInt | .sLong | .sFloat | .sDouble | .sEnum _ _ | .sString =>
      .ok (jsonToValue j)
    | .sFixed _ _ | .sBytes =>
      match bufferFrom j with
      | .ok bs => .ok (.vbytes bs)
      | .error e => .error e
    | .sArray items =>
      match j with
      | .jarr xs =>
        match rdvList env fuel items xs with
        | .ok vs => .ok (.varr vs)
        | .error e => .error e
      | _ => .error "TypeError: default for array schema is not iterable"
    | .sMap values =>
      match j with
      | .jobj kvs =>
        match rdvEntries env fuel values kvs with
        | .ok vs => .ok (.vobj vs)
        | .error e => .error e
      | _ => .error "TypeError: default for map schema has no entries"
    | .sUnion _ bs =>
      match bs with
      | b :: _ => readDefaultValue env fuel b j
      | [] => .error "TypeError: union has no first branch"
    | .sRecord _ _ fields =>
      match rdvFields env fuel fields j with
      | .ok vs => .ok (.vobj vs)
      | .error e => .error e
    | .sRef _ => .error "Unknown type: unresolved reference"

/-- Array items of a default literal. -/
def rdvList (env : SEnv) (fuel : Nat) (items : Schema) (xs : List Json) :
    Except String (List Value) :=
  match xs with
  | [] => .ok []
  | x :: rest =>
    match fuel with
    | 0 => .error "fuel exhausted outside modelled domain"
    | fuel + 1 =>
      match readDefaultValue env fuel items x with
      | .ok v =>
        match rdvList env fuel items rest with
        | .ok vs => .ok (v :: vs)
        | .error e => .error e
      | .error e => .error e

/-- Map entries of a default literal. -/
def rdvEntries (env : SEnv) (fuel : Nat) (values : Schema) (kvs : List (Str × Json)) :
    Except String (List (Str × Value)) :=
  match kvs with
  | [] => .ok []
  | (k, x) :: rest =>
    match fuel with
    | 0 => .error "fuel exhausted outside modelled domain"
    | fuel + 1 =>
      match readDefaultValue env fuel values x with
      | .ok v =>
        match rdvEntries env fuel values rest with
        | .ok vs => .ok ((k, v) :: vs)
        | .error e => .error e
      | .error e => .error e

/-- Record fields of a default literal: `defaultValue[field.name]`,
substituting the field's own `default` when the object omits the key.  When
neither exists the source recurses on the JavaScript `undefined`; that path
is outside the modelled domain. -/
def rdvFields (env : SEnv) (fuel : Nat) (fields : List SField) (j : Json) :
    Except String (List (Str × Value)) :=
  match fields with
  | [] => .ok []
  | f :: rest =>
    let jv : Option Json :=
      match j with
      | .jobj kvs => kvLookup f.fname kvs
      | _ => none
    match fuel with
    | 0 => .error "fuel exhausted outside modelled domain"
    | fuel + 1 =>
      match jv.or (if f.hasDefault then some f.dflt else none) with
      | some jval =>
        match readDefaultValue env fuel f.ftype jval with
        | .ok v =>
          match rdvFields env fuel rest j with
          | .ok vs => .ok ((f.fname, v) :: vs)
          | .error e => .error e
        | .error e => .error e
      | none => .error "undefined default outside modelled domain"
end

mutual
/-- `DatumReader.readData`, specialised to no registered logical types (the
reader-side hook guard in the source is then statically false).  Matches
the schemas, applies the reader-union resolution step, then dispatches on
the writer's type.  `fuel` bounds the recursion depth and the number of
blocks; it models the source's unbounded loops and recursion, which can
diverge only outside the valid-data domain. -/
def readData (env : SEnv) (fuel : Nat) (w r : Schema) (t : Tap) :
    Except String (Value × Tap) :=
  match fuel with
  | 0 => .error "fuel exhausted outside modelled domain"
  | fuel + 1 =>
    let w1 := resolveS env w
    let r1 := resolveS env r
    if matchSchemas env w1 r1 = false then
      .error "SchemaResolutionError: Schemas do not match."
    else if isUnionKind w1 = false ∧ isUnionKind r1 = true then
      match r1 with
      | .sUnion _ rbs =>
        match pickFirstMatch env w1 rbs with
        | some rb => readData env fuel w1 rb t
        | none => .error "SchemaResolutionError: Schemas do not match."
      | _ => .error "unreachable: union kind is a union"
    else
      match w1 with
      | .sNull => .ok (.vnull, t)
      | .sBoolean =>
        let b := t.readBoolean
        .ok (.vbool b.1, b.2)
      | .sString =>
        match t.readString with
        | .ok (some x, t1) => .ok (.vstr x, t1)
        | .ok (none, t1) => .error (cond t1.isValid "" "undefined datum from overflowing read")
        | .error e => .error e
      | .sInt =>
        let n := t.readLong
        .ok (.vnum n.1, n.2)
      | .sLong =>
        let n := t.readLong
        .ok (.vnum n.1, n.2)
      | .sFloat =>
        match t.readFloat with
        | (some n, t1) => .ok (.vnum n, t1)
        | (none, t1) => .error (cond t1.isValid "non-integral float outside modelled domain"
            "undefined datum from overflowing read")
      | .sDouble =>
        match t.readDouble with
        | (some n, t1) => .ok (.vnum n, t1)
        | (none, t1) => .error (cond t1.isValid "non-integral double outside modelled domain"
            "undefined datum from overflowing read")
      | .sBytes =>
        match t.readBytes with
        | .ok (some bs, t1) => .ok (.vbytes bs, t1)
        | .ok (none, t1) => .error (cond t1.isValid "" "undefined datum from overflowing read")
        | .error e => .error e
      | .sFixed _ size =>
        match t.readFixed (size : Int) with
        | .ok (some bs, t1) => .ok (.vbytes bs, t1)
        | .ok (none, t1) => .error (cond t1.isValid "" "undefined datum from overflowing read")
        | .error e => .error e
      | .sEnum _ wsymbols =>
        -- DatumReader.readEnum
        let rd := t.readLong
        let idx := rd.1
        if (wsymbols.length : Int) ≤ idx then
          .error "SchemaResolutionError: enum index out of range"
        else if idx < 0 then
          -- writersSchema.symbols[idx] is undefined, which the reader-side
          -- membership test then rejects
          .error "SchemaResolutionError: symbol not present in readers schema"
        else
          match r1 with
          | .sEnum _ rsymbols =>
            match wsymbols.get? idx.toNat with
            | some sym =>
              if rsymbols.contains sym then .ok (.vstr sym, rd.2)
              else .error "SchemaResolutionError: symbol not present in readers schema"
            | none => .error "unreachable: index bounds already checked"
          | _ => .error "TypeError: readersSchema.symbols is undefined"
      | .sArray witems =>
        match r1 with
        | .sArray ritems =>
          match readArrBlocks env fuel witems ritems t [] with
          | .ok (xs, t1) => .ok (.varr xs, t1)
          | .error e => .error e
        | _ => .error "TypeError: readersSchema.items is undefined"
      | .sMap wvalues =>
        match r1 with
        | .sMap rvalues =>
          match readMapBlocks env fuel wvalues rvalues t [] with
          | .ok (kvs, t1) => .ok (.vobj kvs, t1)
          | .error e => .error e
        | _ => .error "TypeError: readersSchema.values is undefined"
      | .sUnion _ wbs =>
        -- DatumReader.readUnion: branch index, then recurse with the
        -- selected writer branch and the original reader schema
        let rd := t.readLong
        let idx := rd.1
        if (wbs.length : Int) ≤ idx then
          .error "SchemaResolutionError: union branch index out of range"
        else if idx < 0 then
          .error "TypeError: cannot read properties of undefined"
        else
          match wbs.get? idx.toNat with
          | some wb => readData env fuel wb r1 rd.2
          | none => .error "unreachable: index bounds already checked"
      | .sRecord _ _ wfields =>
        match r1 with
        | .sRecord _ _ rfields =>
          match readRecFieldsR env fuel wfields rfields t [] with
          | .ok (acc, t1) =>
            -- fill in default values, guarded by the entry-count comparison
            if rfields.length > (acc.map Prod.fst).dedup.length then
              match readRecDefaults env fuel wfields rfields acc with
              | .ok acc2 => .ok (.vobj acc2, t1)
              | .error e => .error e
            else .ok (.vobj acc, t1)
          | .error e => .error e
        | _ => .error "TypeError: readersSchema.fieldsDict is undefined"
      | .sRef _ => .error "Cannot read unknown schema type"

/-- The block loop of `DatumReader.readArray`: read a count; zero ends the
sequence; a negative count is negated and the following block-size long is
read and discarded; then that many items are read. -/
def readArrBlocks (env : SEnv) (fuel : Nat) (witems ritems : Schema) (t : Tap)
    (acc : List Value) : Except String (List Value × Tap) :=
  match fuel with
  | 0 => .error "fuel exhausted outside modelled domain"
  | fuel + 1 =>
    let rd := t.readLong
    if rd.1 = 0 then .ok (acc, rd.2)
    else
      let ct : Int × Tap :=
        if rd.1 < 0 then (-rd.1, (rd.2.readLong).2) else (rd.1, rd.2)
      match readArrItemsR env fuel witems ritems ct.1.toNat ct.2 acc with
      | .ok (acc1, t1) => readArrBlocks env fuel witems ritems t1 acc1
      | .error e => .error e

/-- The item loop within one array block. -/
def readArrItemsR (env : SEnv) (fuel : Nat) (witems ritems : Schema) (count : Nat) (t : Tap)
    (acc : List Value) : Except String (List Value × Tap) :=
  match count with
  | 0 => .ok (acc, t)
  | count + 1 =>
    match fuel with
    | 0 => .error "fuel exhausted outside modelled domain"
    | fuel + 1 =>
      match readData env fuel witems ritems t with
      | .ok (v, t1) => readArrItemsR env fuel witems ritems count t1 (acc ++ [v])
      | .error e => .error e

/-- The block loop of `DatumReader.readMap`.  Faithful to the source bug:
on a negative count the block-size long is read into `blockCount` itself,
so the byte size is used as the number of entries to read. -/
def readMapBlocks (env : SEnv) (fuel : Nat) (wvalues rvalues : Schema) (t : Tap)
    (acc : List (Str × Value)) : Except String (List (Str × Value) × Tap) :=
  match fuel with
  | 0 => .error "fuel exhausted outside modelled domain"
  | fuel + 1 =>
    let rd := t.readLong
    if rd.1 = 0 then .ok (acc, rd.2)
    else
      let ct : Int × Tap :=
        if rd.1 < 0 then ((rd.2.readLong).1, (rd.2.readLong).2) else (rd.1, rd.2)
      match readMapItemsR env fuel wvalues rvalues ct.1.toNat ct.2 acc with
      | .ok (acc1, t1) => readMapBlocks env fuel wvalues rvalues t1 acc1
      | .error e => .error e

/-- The entry loop within one map block: key string, then value. -/
def readMapItemsR (env : SEnv) (fuel : Nat) (wvalues rvalues : Schema) (count : Nat) (t : Tap)
    (acc : List (Str × Value)) : Except String (List (Str × Value) × Tap) :=
  match count with
  | 0 => .ok (acc, t)
  | count + 1 =>
    match fuel with
    | 0 => .error "fuel exhausted outside modelled domain"
    | fuel + 1 =>
      match t.readString with
      | .ok (some k, t1) =>
        match readData env fuel wvalues rvalues t1 with
        | .ok (v, t2) => readMapItemsR env fuel wvalues rvalues count t2 (kvInsert k v acc)
        | .error e => .error e
      | .ok (none, _) => .error "undefined map key from overflowing read"
      | .error e => .error e

/-- The writer-field loop of `DatumReader.readRecord`: a writer field with a
same-named reader field is decoded (writer field type as writer, reader
field type as reader) and stored; otherwise the field is skipped with
`skipData`. -/
def readRecFieldsR (env : SEnv) (fuel : Nat) (wfields rfields : List SField) (t : Tap)
    (acc : List (Str × Value)) : Except String (List (Str × Value) × Tap) :=
  match wfields with
  | [] => .ok (acc, t)
  | f :: rest =>
    match fuel with
    | 0 => .error "fuel exhausted outside modelled domain"
    | fuel + 1 =>
      match lookupFieldDict f.fname rfields with
      | some rf =>
        match readData env fuel f.ftype rf.ftype t with
        | .ok (v, t1) => readRecFieldsR env fuel rest rfields t1 (kvInsert f.fname v acc)
        | .error e => .error e
      | none =>
        match skipData env fuel f.ftype t with
        | .ok t1 => readRecFieldsR env fuel rest rfields t1 acc
        | .error e => .error e

/-- The default-filling loop of `DatumReader.readRecord`: every reader
field whose name is not a writer field name is materialised from its
default, or the read fails when it has none. -/
def readRecDefaults (env : SEnv) (fuel : Nat) (wfields rfields : List SField)
    (acc : List (Str × Value)) : Except String (List (Str × Value)) :=
  match rfields with
  | [] => .ok acc
  | f :: rest =>
    match fuel with
    | 0 => .error "fuel exhausted outside modelled domain"
    | fuel + 1 =>
      if wfields.any (fun wf => wf.fname = f.fname) then
        readRecDefaults env fuel wfields rest acc
      else if f.hasDefault then
        match readDefaultValue env fuel f.ftype f.dflt with
        | .ok v => readRecDefaults env fuel wfields rest (kvInsert f.fname v acc)
        | .error e => .error e
      else .error "SchemaResolutionError: no default value for field"

/-- `DatumReader.skipData`: advance the cursor without materialising a
value.  Two latent source faults are modelled as the errors they raise:
`tap.skipUtf8` (strings) and `tap.skip` (negative-count blocks) do not
exist on `Tap`. -/
def skipData (env : SEnv) (fuel : Nat) (w : Schema) (t : Tap) : Except String Tap :=
  match fuel with
  | 0 => .error "fuel exhausted outside modelled domain"
  | fuel + 1 =>
    match resolveS env w with
    | .sNull => .ok t
    | .sBoolean => .ok t.skipBoolean
    | .sString => .error "TypeError: tap.skipUtf8 is not a function"
    | .sInt => .ok t.skipLong
    | .sLong => .ok t.skipLong
    | .sFloat => .ok t.skipFloat
    | .sDouble => .ok t.skipDouble
    | .sBytes => .ok t.skipBytes
    | .sFixed _ size => .ok (t.skipFixed (size : Int))
    | .sEnum _ _ => .ok t.skipLong
    | .sArray witems => skipArrBlocks env fuel witems t
    | .sMap wvalues => skipMapBlocks env fuel wvalues t
    | .sUnion _ wbs =>
      let rd := t.readLong
      let idx := rd.1
      if (wbs.length : Int) ≤ idx then
        .error "SchemaResolutionError: union branch index out of range"
      else if idx < 0 then
        .error "Unknown schema type: undefined"
      else
        match wbs.get? idx.toNat with
        | some wb => skipData env fuel wb rd.2
        | none => .error "unreachable: index bounds already checked"
    | .sRecord _ _ wfields => skipRecFields env fuel wfields t
    | .sRef _ => .error "Unknown schema type: unresolved reference"

/-- The block loop of `DatumReader.skipArray`; a negative count reaches the
non-existent `tap.skip`. -/
def skipArrBlocks (env : SEnv) (fuel : Nat) (witems : Schema) (t : Tap) :
    Except String Tap :=
  match fuel with
  | 0 => .error "fuel exhausted outside modelled domain"
  | fuel + 1 =>
    let rd := t.readLong
    if rd.1 = 0 then .ok rd.2
    else if rd.1 < 0 then .error "TypeError: tap.skip is not a function"
    else
      match skipArrItems env fuel witems rd.1.toNat rd.2 with
      | .ok t1 => skipArrBlocks env fuel witems t1
      | .error e => .error e

/-- The item loop within one skipped array block. -/
def skipArrItems (env : SEnv) (fuel : Nat) (witems : Schema) (count : Nat) (t : Tap) :
    Except String Tap :=
  match count with
  | 0 => .ok t
  | count + 1 =>
    match fuel with
    | 0 => .error "fuel exhausted outside modelled domain"
    | fuel + 1 =>
      match skipData env fuel witems t with
      | .ok t1 => skipArrItems env fuel witems count t1
      | .error e => .error e

/-- The block loop of `DatumReader.skipMap`; a negative count reaches the
non-existent `tap.skip`. -/
def skipMapBlocks (env : SEnv) (fuel : Nat) (wvalues : Schema) (t : Tap) :
    Except String Tap :=
  match fuel with
  | 0 => .error "fuel exhausted outside modelled domain"
  | fuel + 1 =>
    let rd := t.readLong
    if rd.1 = 0 then .ok rd.2
    else if rd.1 < 0 then .error "TypeError: tap.skip is not a function"
    else
      match skipMapItems env fuel wvalues rd.1.toNat rd.2 with
      | .ok t1 => skipMapBlocks env fuel wvalues t1
      | .error e => .error e

/-- The entry loop within one skipped map block. -/
def skipMapItems (env : SEnv) (fuel : Nat) (wvalues : Schema) (count : Nat) (t : Tap) :
    Except String Tap :=
  match count with
  | 0 => .ok t
  | count + 1 =>
    match fuel with
    | 0 => .error "fuel exhausted outside modelled domain"
    | fuel + 1 =>
      match skipData env fuel wvalues t.skipString with
      | .ok t1 => skipMapItems env fuel wvalues count t1
      | .error e => .error e

/-- `DatumReader.skipRecord`: skip each writer field in order. -/
def skipRecFields (env : SEnv) (fuel : Nat) (wfields : List SField) (t : Tap) :
    Except String Tap :=
  match wfields with
  | [] => .ok t
  | f :: rest =>
    match fuel with
    | 0 => .error "fuel exhausted outside modelled domain"
    | fuel + 1 =>
      match skipData env fuel f.ftype t with
      | .ok t1 => skipRecFields env fuel rest t1
      | .error e => .error e
end

/-- `DatumWriter.write`: validate the datum against the writer's schema
(`createAvroTypeError` on failure) and encode it. -/
def datumWriterWrite (env : SEnv) (fuel : Nat) (writersSchema : Schema) (v : Value) (t : Tap) :
    Except String Tap :=
  if validate env fuel writersSchema v then writeData env fuel writersSchema v t
  else .error "AvroTypeError: the datum is not an example of the schema"

/-- `DatumReader.read`: when the reader was constructed without a reader's
schema, the writer's schema is used in its place. -/
def datumReaderRead (env : SEnv) (fuel : Nat) (writersSchema : Schema)
    (readersSchema : Option Schema) (t : Tap) : Except String (Value × Tap) :=
  match readersSchema with
  | none => readData env fuel writersSchema writersSchema t
  | some r => readData env fuel writersSchema r t

mutual
/-- Structural equality of host values in the `deepStrictEqual` sense the
specification's round-trip invariant uses: object entries compare by key
set and pointwise value, irrespective of insertion order.  Recursion is
bounded by an explicit depth budget; an exhausted budget yields `false`. -/
def jsEquiv (fuel : Nat) (a b : Value) : Bool :=
  match fuel with
  | 0 => false
  | fuel + 1 =>
    match a, b with
    | .vnull, .vnull => true
    | .vbool x, .vbool y => x = y
    | .vnum x, .vnum y => x = y
    | .vstr x, .vstr y => x = y
    | .vbytes x, .vbytes y => x = y
    | .varr xs, .varr ys => jsEquivList fuel xs ys
    | .vobj xs, .vobj ys =>
      (xs.all fun kv => ys.any fun kv2 => kv2.1 = kv.1) &&
      (ys.all fun kv2 => xs.any fun kv => kv.1 = kv2.1) &&
      jsEquivEntries fuel xs ys
    | _, _ => false

/-- Pointwise `jsEquiv` of two arrays, including the length comparison. -/
def jsEquivList (fuel : Nat) (xs ys : List Value) : Bool :=
  match fuel with
  | 0 => false
  | fuel + 1 =>
    match xs, ys with
    | [], [] => true
    | x :: xr, y :: yr => jsEquiv fuel x y && jsEquivList fuel xr yr
    | _, _ => false

/-- `jsEquiv` of each left entry's value against the entry of the same key
on the right. -/
def jsEquivEntries (fuel : Nat) (xs ys : List (Str × Value)) : Bool :=
  match fuel with
  | 0 => false
  | fuel + 1 =>
    match xs with
    | [] => true
    | kv :: rest =>
      (match kvLookup kv.1 ys with
       | some w => jsEquiv fuel kv.2 w
       | none => false) && jsEquivEntries fuel rest ys
end

/-- The varint integer path is exact for this value: the zig-zag image is
binary64-representable, so neither `writeLong`'s floating path nor
`readLong`'s floating accumulation rounds. -/
def zigExact (n : Int) : Bool := roundB64 ((zig n : Nat) : Int) = ((zig n : Nat) : Int)

mutual
/-- Side conditions under which a validated value round-trips bit-exactly
through the codec.  Bundles (a) JavaScript-representability of the modelled
value (buffer entries are bytes, strings are valid scalars, object keys are
unique as in any real object) and (b) numeric exactness: `long` leaves have
binary64-exact zig-zag images, `float` leaves are binary32-exact, `double`
leaves binary64-exact, all within finite exponent range.  Recursion is
bounded by an explicit depth budget; an exhausted budget yields `false`. -/
def fitsValue (env : SEnv) (fuel : Nat) (s : Schema) (v : Value) : Bool :=
  match fuel with
  | 0 => false
  | fuel + 1 =>
    match resolveS env s with
    | .sNull => true
    | .sBoolean => true
    | .sString => match v with
      | .vstr x => (x.all fun c => decide (scalarOk c)) && zigExact (utf8Len x)
      | _ => false
    | .sInt => true
    | .sLong => match v with
      | .vnum n => zigExact n
      | _ => false
    | .sFloat => match v with
      | .vnum n => decide (roundB32 n = n) && decide (bitLen n.natAbs ≤ 128)
      | _ => false
    | .sDouble => match v with
      | .vnum n => decide (roundB64 n = n) && decide (bitLen n.natAbs ≤ 1024)
      | _ => false
    | .sBytes => match v with
      | .vbytes bs => (bs.all fun b => decide (b < 256)) && zigExact bs.length
      | _ => false
    | .sFixed _ _ => match v with
      | .vbytes bs => bs.all fun b => decide (b < 256)
      | _ => false
    | .sEnum _ symbols => match v with
      | .vstr x => zigExact (jsIndexOf x symbols)
      | _ => false
    | .sArray items => match v with
      | .varr xs => zigExact xs.length && fitsList env fuel items xs
      | _ => false
    | .sMap values => match v with
      | .vobj kvs =>
        zigExact kvs.length &&
        (kvs.map Prod.fst).Nodup &&
        (kvs.all fun kv => (kv.1.all fun c => decide (scalarOk c)) && zigExact (utf8Len kv.1)) &&
        fitsEntries env fuel values kvs
      | _ => false
    | .sUnion _ bs =>
      match lastValidPick env fuel v bs with
      | some (i, b) => zigExact (i : Int) && fitsValue env fuel b v
      | none => false
    | .sRecord _ _ fields => match v with
      | .vobj kvs => (kvs.map Prod.fst).Nodup && fitsFields env fuel fields kvs
      | _ => false
    | .sRef _ => false

/-- `fitsValue` over the elements of an array value. -/
def fitsList (env : SEnv) (fuel : Nat) (items : Schema) (xs : List Value) : Bool :=
  match fuel with
  | 0 => false
  | fuel + 1 =>
    match xs with
    | [] => true
    | x :: rest => fitsValue env fuel items x && fitsList env fuel items rest

/-- `fitsValue` over the entry values of a map value. -/
def fitsEntries (env : SEnv) (fuel : Nat) (values : Schema) (kvs : List (Str × Value)) : Bool :=
  match fuel with
  | 0 => false
  | fuel + 1 =>
    match kvs with
    | [] => true
    | (_, x) :: rest => fitsValue env fuel values x && fitsEntries env fuel values rest

/-- `fitsValue` for each declared record field against the looked-up entry. -/
def fitsFields (env : SEnv) (fuel : Nat) (fields : List SField) (kvs : List (Str × Value)) : Bool :=
  match fuel with
  | 0 => false
  | fuel + 1 =>
    match fields with
    | [] => true
    | f :: rest =>
      (match kvLookup f.fname kvs with
       | some w => fitsValue env fuel f.ftype w
       | none => false) && fitsFields env fuel rest kvs

end

/-- The `'.'` code point. -/
def dotChar : Nat := 46

/-- Registry state of `schema.js`: `Names` holds the bound fullnames and the
mutable default namespace. -/
structure NamesState where
  names : List (Str × NamedDef)
  defaultNamespace : Option Str
deriving Repr

/-- The `Name` constructor of `schema.js`: argument validation followed by
the fullname computation.  `undefined` name passes the type check but then
crashes on `nameAttr.indexOf` (modelled as the thrown TypeError). -/
def mkFullname (nameAttr spaceAttr defaultSpace : Option Str) : Except String Str :=
  if nameAttr = some [] then .error "Name must be non-empty string or None."
  else if spaceAttr = some [] then .error "Space must be non-empty string or None."
  else if defaultSpace = some [] then .error "Default must be non-empty string or None."
  else
    match nameAttr with
    | none => .error "TypeError: cannot read properties of undefined (reading indexOf)"
    | some nm =>
      if nm.contains dotChar then .ok nm
      else
        match spaceAttr with
        | some sp => .ok (sp ++ [dotChar] ++ nm)
        | none =>
          match defaultSpace with
          | some ds => .ok (ds ++ [dotChar] ++ nm)
          | none => .ok nm

/-- `Name.getSpace`: when the fullname has a dot at a positive index it
returns `split('.', 1).reverse()[0]`, which is the segment before the FIRST
dot (the source marks this logic with a doubting TODO); otherwise
`undefined`. -/
def nameGetSpace (full : Str) : Option Str :=
  match full.findIdx? (fun c => c = dotChar) with
  | some i => if 0 < i then some (full.take i) else none
  | none => none

/-- The reserved-name test of `Names.addName`: `toAdd.fullname in
constants.VALID_TYPES`.  On a JavaScript ARRAY the `in` operator tests
property keys, not values: the index strings `"0"`..`"16"` (VALID_TYPES has
17 elements) and `"length"` — never the type names themselves.  (Inherited
`Array.prototype` method names also answer true; they are irrelevant to the
claims' inputs and omitted.) -/
def jsInValidTypes (full : Str) : Bool :=
  [strLit "0", strLit "1", strLit "2", strLit "3", strLit "4", strLit "5", strLit "6",
   strLit "7", strLit "8", strLit "9", strLit "10", strLit "11", strLit "12", strLit "13",
   strLit "14", strLit "15", strLit "16", strLit "length"].contains full

/-- `Names.addName`: compute the fullname, apply the (broken) reserved-name
test and the already-bound test, then bind it. -/
def addName (nameAttr spaceAttr : Option Str) (d : NamedDef) (st : NamesState) :
    Except String (Str × NamesState) :=
  match mkFullname nameAttr spaceAttr st.defaultNamespace with
  | .error e => .error e
  | .ok full =>
    if jsInValidTypes full then .error "reserved type name"
    else if (kvLookup full st.names).isSome then .error "name already in use"
    else .ok (full, { st with names := st.names ++ [(full, d)] })

/-- `Names.hasName`. -/
def namesHasName (ty : Str) (st : NamesState) : Except String Bool :=
  match mkFullname (some ty) none st.defaultNamespace with
  | .error e => .error e
  | .ok full => .ok (kvLookup full st.names).isSome

/-- Replace the binding of an already-registered name (the source mutates
the registered object in place when a record's fields are attached after
registration). -/
def rebindName (full : Str) (d : NamedDef) : List (Str × NamedDef) → List (Str × NamedDef)
  | [] => []
  | (k, v) :: rest => if k = full then (k, d) :: rest else (k, v) :: rebindName full d rest

/-- Primitive schema for a primitive type name, if any. -/
def primOf (s : Str) : Option Schema :=
  if s = strLit "null" then some .sNull
  else if s = strLit "boolean" then some .sBoolean
  else if s = strLit "string" then some .sString
  else if s = strLit "bytes" then some .sBytes
  else if s = strLit "int" then some .sInt
  else if s = strLit "long" then some .sLong
  else if s = strLit "float" then some .sFloat
  else if s = strLit "double" then some .sDouble
  else none

/-- `VALID_FIELD_SORT_ORDERS`. -/
def validOrders : List Str := [strLit "ascending", strLit "descending", strLit "ignore"]

mutual
/-- `makeAvscObject` of `schema.js` (fuelled; the parser is evaluated only
on concrete inputs).  Kept faithful, including:
* the inverted namespace ternary
  `jsonData.namespace === undefined ? jsonData.namespace : names.defaultNamespace`,
  which discards an explicit namespace attribute and substitutes the
  registry's default namespace (or `undefined`);
* the `NamedSchema` constructor calling the non-existent
  `newName.get_space()` whenever its namespace argument is defined;
* `ErrorUnionSchema` keeping schema type `union`;
* `request` being rejected by the `RecordSchema` constructor. -/
def makeAvscObject (fuel : Nat) (j : Json) (st : NamesState) :
    Except String (Schema × NamesState) :=
  match fuel with
  | 0 => .error "fuel exhausted"
  | fuel + 1 =>
    match j with
    | .jarr xs =>
      match makeUnionItems fuel xs st [] with
      | .ok (bs, st1) => .ok (.sUnion false bs, st1)
      | .error e => .error e
    | .jobj kvs =>
      match kvLookup (strLit "type") kvs with
      | some (.jstr ty) =>
        match primOf ty with
        | some p => .ok (p, st)
        | none =>
          if ty = strLit "fixed" ∨ ty = strLit "enum" ∨ ty = strLit "record" ∨
             ty = strLit "error" then
            let nameAttr : Option Str :=
              match kvLookup (strLit "name") kvs with
              | some (.jstr n) => some n
              | _ => none
            let nsDeclared := (kvLookup (strLit "namespace") kvs).isSome
            -- the inverted ternary of makeAvscObject line 47
            let nsAttr : Option Str := if nsDeclared then st.defaultNamespace else none
            -- NamedSchema rejects a missing or non-string name; the
            -- non-string case also reaches `name undefined` here because a
            -- non-string attribute fails isString
            match kvLookup (strLit "name") kvs, nameAttr with
            | some (.jstr _), some nm =>
              if ty = strLit "fixed" then
                match kvLookup (strLit "size") kvs with
                | some (.jnum sz) =>
                  if sz < 0 then .error "Fixed Schema requires a valid positive integer."
                  else
                    match addName (some nm) nsAttr (.ndFixed sz.toNat) st with
                    | .ok (full, st1) =>
                      if nsAttr.isSome then
                        .error "TypeError: newName.get_space is not a function"
                      else .ok (.sFixed full sz.toNat, st1)
                    | .error e => .error e
                | _ => .error "Fixed Schema requires a valid positive integer for size."
              else if ty = strLit "enum" then
                match kvLookup (strLit "symbols") kvs with
                | some (.jarr symJs) =>
                  let syms? : Option (List Str) := symJs.mapM (fun x =>
                    match x with
                    | .jstr s => some s
                    | _ => none)
                  match syms? with
                  | none => .error "Enum Schema requires all symbols to be JSON strings."
                  | some syms =>
                    if syms.Nodup = false then .error "Duplicate symbol"
                    else
                      match addName (some nm) nsAttr (.ndEnum syms) st with
                      | .ok (full, st1) =>
                        if nsAttr.isSome then
                          .error "TypeError: newName.get_space is not a function"
                        else .ok (.sEnum full syms, st1)
                      | .error e => .error e
                | _ => .error "Enum Schema requires a JSON array for the symbols property."
              else
                -- record / error
                match kvLookup (strLit "fields") kvs with
                | some (.jarr fieldJs) =>
                  let isErr := ty = strLit "error"
                  match addName (some nm) nsAttr (.ndRecord isErr []) st with
                  | .ok (full, st1) =>
                    if nsAttr.isSome then
                      .error "TypeError: newName.get_space is not a function"
                    else
                      -- only schemaType 'record' pushes the default namespace
                      let oldDefault := st1.defaultNamespace
                      match
                        (if isErr then .ok st1 else
                          match mkFullname (some nm) nsAttr oldDefault with
                          | .ok f2 => .ok { st1 with defaultNamespace := nameGetSpace f2 }
                          | .error e => .error e : Except String NamesState) with
                      | .ok st2 =>
                        match makeFieldList fuel fieldJs st2 [] [] with
                        | .ok (fs, st3) =>
                          let st4 : NamesState :=
                            { names := rebindName full (.ndRecord isErr fs) st3.names
                              defaultNamespace :=
                                if isErr then st3.defaultNamespace else oldDefault }
                          .ok (.sRecord isErr full fs, st4)
                        | .error e => .error e
                      | .error e => .error e
                  | .error e => .error e
                | some _ => .error "Fields property must be a list of Avro schemas."
                | none => .error "Record schema requires a non-empty fields property."
            | _, _ => .error "Named Schemas must have a non-empty name."
          else if ty = strLit "array" then
            match kvLookup (strLit "items") kvs with
            | some (.jstr its) =>
              match namesHasName its st with
              | .ok true =>
                match mkFullname (some its) none st.defaultNamespace with
                | .ok full => .ok (.sArray (.sRef full), st)
                | .error e => .error e
              | .ok false =>
                match makeAvscObject fuel (.jstr its) st with
                | .ok (isch, st1) => .ok (.sArray isch, st1)
                | .error _ => .error "Items schema not a valid Avro schema"
              | .error e => .error e
            | some itemsJ =>
              match makeAvscObject fuel itemsJ st with
              | .ok (isch, st1) => .ok (.sArray isch, st1)
              | .error _ => .error "Items schema not a valid Avro schema"
            | none => .error "Items schema not a valid Avro schema"
          else if ty = strLit "map" then
            match kvLookup (strLit "values") kvs with
            | some (.jstr vls) =>
              match namesHasName vls st with
              | .ok true =>
                match mkFullname (some vls) none st.defaultNamespace with
                | .ok full => .ok (.sMap (.sRef full), st)
                | .error e => .error e
              | .ok false =>
                match makeAvscObject fuel (.jstr vls) st with
                | .ok (vsch, st1) => .ok (.sMap vsch, st1)
                | .error _ => .error "Values schema not a valid Avro schema."
              | .error e => .error e
            | some valuesJ =>
              match makeAvscObject fuel valuesJ st with
              | .ok (vsch, st1) => .ok (.sMap vsch, st1)
              | .error _ => .error "Values schema not a valid Avro schema."
            | none => .error "Values schema not a valid Avro schema."
          else if ty = strLit "error_union" then
            match kvLookup (strLit "declared_errors") kvs with
            | some (.jarr errs) =>
              match makeUnionItems fuel (.jstr (strLit "string") :: errs) st [] with
              | .ok (bs, st1) => .ok (.sUnion false bs, st1)
              | .error e => .error e
            | _ => .error "Union schema requires a list of schemas."
          else if ty = strLit "request" then
            .error "Schema type request in not implemented"
          else .error "Undefined type"
      | some _ => .error "Undefined type"
      | none => .error "No type property"
    | .jstr s =>
      match primOf s with
      | some p => .ok (p, st)
      | none => .error "Could not make an Avro Schema object"
    | _ => .error "Could not make an Avro Schema object"

/-- The branch loop of the `UnionSchema` constructor: resolve names to
references, reject nested unions and duplicated non-named branch types. -/
def makeUnionItems (fuel : Nat) (xs : List Json) (st : NamesState) (acc : List Schema) :
    Except String (List Schema × NamesState) :=
  match fuel with
  | 0 => .error "fuel exhausted"
  | fuel + 1 =>
    match xs with
    | [] => .ok (acc, st)
    | x :: rest =>
      let next : Except String (Schema × NamesState) :=
        match x with
        | .jstr s =>
          match namesHasName s st with
          | .ok true =>
            match mkFullname (some s) none st.defaultNamespace with
            | .ok full => .ok (.sRef full, st)
            | .error e => .error e
          | .ok false =>
            match makeAvscObject fuel x st with
            | .ok r => .ok r
            | .error _ => .error "Union item must be a valid Avro schema"
          | .error e => .error e
        | _ =>
          match makeAvscObject fuel x st with
          | .ok r => .ok r
          | .error _ => .error "Union item must be a valid Avro schema"
      match next with
      | .ok (newSchema, st1) =>
        let tn := typeName (resolveS st1.names newSchema)
        let isNamed := tn = strLit "fixed" ∨ tn = strLit "enum" ∨ tn = strLit "record" ∨
          tn = strLit "error"
        if ¬isNamed ∧ acc.any (fun b => typeName (resolveS st1.names b) = tn) then
          .error "type already in Union"
        else if isUnionKind newSchema then .error "Unions cannot contain other unions."
        else makeUnionItems fuel rest st1 (acc ++ [newSchema])
      | .error e => .error e

/-- `RecordSchema.makeFieldObjects` with the `Field` constructor: resolve
the field type (registry reference or recursive parse), validate the name
and order, reject duplicate field names. -/
def makeFieldList (fuel : Nat) (fields : List Json) (st : NamesState) (accF : List SField)
    (accNames : List Str) : Except String (List SField × NamesState) :=
  match fuel with
  | 0 => .error "fuel exhausted"
  | fuel + 1 =>
    match fields with
    | [] => .ok (accF, st)
    | .jobj fkvs :: rest =>
      let nameAttr : Option Str :=
        match kvLookup (strLit "name") fkvs with
        | some (.jstr n) => some n
        | _ => none
      match nameAttr with
      | none => .error "Fields must have a non-empty name."
      | some fn =>
        let ord := kvLookup (strLit "order") fkvs
        let ordBad : Bool :=
          match ord with
          | some (.jstr o) => !(validOrders.contains o)
          | some _ => true
          | none => false
        if ordBad then .error "The order property is not valid."
        else
          let tySchema : Except String (Schema × NamesState) :=
            match kvLookup (strLit "type") fkvs with
            | some (.jstr s) =>
              match namesHasName s st with
              | .ok true =>
                match mkFullname (some s) none st.defaultNamespace with
                | .ok full => .ok (.sRef full, st)
                | .error e => .error e
              | .ok false =>
                match makeAvscObject fuel (.jstr s) st with
                | .ok r => .ok r
                | .error _ => .error "Type property not a valid Avro schema"
              | .error e => .error e
            | some tj =>
              match makeAvscObject fuel tj st with
              | .ok r => .ok r
              | .error _ => .error "Type property not a valid Avro schema"
            | none => .error "Type property not a valid Avro schema"
          match tySchema with
          | .ok (ts, st1) =>
            if accNames.contains fn then .error "Field name already in use."
            else
              let hasDef := (kvLookup (strLit "default") fkvs).isSome
              let defJ := (kvLookup (strLit "default") fkvs).getD .jnull
              makeFieldList fuel rest st1 (accF ++ [.mk fn ts hasDef defJ]) (accNames ++ [fn])
          | .error e => .error e
    | _ :: _ => .error "Not a valid field"

end

/-- `parse` of `schema.js` for an already-JSON-parsed input: walk the tree
with a fresh registry. -/
def parseSchema (fuel : Nat) (j : Json) : Except String (Schema × NamesState) :=
  makeAvscObject fuel j { names := [], defaultNamespace := none }

/-- Named kinds (including references, which always denote named types). -/
def isNamedKind (s : Schema) : Bool :=
  match s with
  | .sFixed _ _ | .sEnum _ _ | .sRecord _ _ _ | .sRef _ => true
  | _ => false

/-- Two union branches that the `UnionSchema` constructor would reject as
duplicates: both non-named with the same `type` string. -/
def unionClash (a b : Schema) : Bool :=
  !(isNamedKind a) && !(isNamedKind b) && typeName a = typeName b

/-- The named definition as a schema node. -/
def ndToSchema (n : Str) (d : NamedDef) : Schema :=
  match d with
  | .ndFixed sz => .sFixed n sz
  | .ndEnum syms => .sEnum n syms
  | .ndRecord e fs => .sRecord e n fs

/-- Structural well-formedness the parser guarantees for a schema tree over
a registry: references resolve; named nodes agree with their registry
entry (in the source they ARE the registered objects); union branches are
not unions and do not repeat a non-named type; record field names are
unique. -/
def wfS (env : SEnv) : Schema → Prop
  | .sRef n => (kvLookup n env).isSome = true
  | .sFixed n sz => kvLookup n env = some (.ndFixed sz)
  | .sEnum n syms => kvLookup n env = some (.ndEnum syms)
  | .sRecord e n fs =>
    kvLookup n env = some (.ndRecord e fs) ∧
    (fs.map SField.fname).Nodup ∧
    ∀ f ∈ fs, wfS env f.ftype
  | .sArray i => wfS env i
  | .sMap v => wfS env v
  | .sUnion _ bs =>
    (∀ b ∈ bs, isUnionKind b = false ∧ wfS env b) ∧
    List.Pairwise (fun a b => unionClash a b = false) bs
  | _ => True
termination_by s => sizeOf s
decreasing_by
  all_goals simp_wf
  · obtain ⟨fn, ft, hd, df⟩ := f
    rename_i hmem
    have := List.sizeOf_lt_of_mem hmem
    simp only [SField.mk.sizeOf_spec] at this
    show sizeOf (SField.ftype (.mk fn ft hd df)) < _
    simp only [SField.ftype]
    omega
  all_goals first
    | omega
    | (rename_i hmem
       have := List.sizeOf_lt_of_mem hmem
       omega)

/-- Registry well-formedness: unique fullnames, every entry structurally
well-formed over the registry. -/
def wfEnv (env : SEnv) : Prop :=
  (env.map Prod.fst).Nodup ∧ ∀ e ∈ env, wfS env (ndToSchema e.1 e.2)

/-- The writer-reader schema pairs along which `readData` is exercised when
both top-level schemas are equal: either the two sides resolve to the same
node, or the writer is a primitive accepted by `matchSchemas` with a
non-union reader, or the reader is a union whose first matching branch is
again compatible. -/
inductive GoodR (env : SEnv) : Schema → Schema → Prop where
  | same : ∀ {w r}, resolveS env w = resolveS env r → GoodR env w r
  | prim : ∀ {w r}, isPrim (resolveS env w) = true → matchSchemas env w r = true →
      isUnionKind (resolveS env r) = false → GoodR env w r
  | runion : ∀ {w r eu rbs rb}, isUnionKind (resolveS env w) = false →
      resolveS env r = .sUnion eu rbs →
      pickFirstMatch env (resolveS env w) rbs = some rb →
      GoodR env w rb → GoodR env w r

/-- Modelled from the spec (claim C4's description of `readRecord`): the
same writer pass as the source, but the default-filling pass runs
unconditionally — the claim mentions no entry-count guard. -/
def readRecordSpec (env : SEnv) (fuel : Nat) (wfields rfields : List SField) (t : Tap) :
    Except String (List (Str × Value) × Tap) :=
  match readRecFieldsR env fuel wfields rfields t [] with
  | .ok (acc, t1) =>
    match readRecDefaults env fuel wfields rfields acc with
    | .ok acc2 => .ok (acc2, t1)
    | .error e => .error e
  | .error e => .error e

/-- Modelled from the spec (claim C7's record rule): every declared field
name validates against its field type under the corresponding key, a
missing key being validated as the null sentinel; no extra keys. -/
def validateRecordSpec (env : SEnv) (fuel : Nat) (fields : List SField) (v : Value) : Bool :=
  match v with
  | .vobj kvs =>
    (fields.all fun f =>
      validate env fuel f.ftype ((kvLookup f.fname kvs).getD .vnull)) &&
    (kvs.all fun kv => fields.any fun f => f.fname = kv.1)
  | _ => false

/-- A zero-filled fresh cursor of the given capacity. -/
def freshTap (n : Nat) : Tap := { buf := List.replicate n 0, pos := 0 }

/-! ## Helper lemmas -/

theorem readLongAux1_buf : ∀ it t n k, (readLongAux1 it t n k).2.2.buf = t.buf := by
  intro it
  induction it with
  | zero => intro t n k; rfl
  | succ it ih =>
    intro t n k
    simp only [readLongAux1]
    split
    · rfl
    · exact ih t.bump _ _

theorem readLongAux2_buf : ∀ f t a fk, (readLongAux2 f t a fk).2.buf = t.buf := by
  intro f
  induction f with
  | zero => intro t a fk; rfl
  | succ f ih =>
    intro t a fk
    simp only [readLongAux2]
    split
    · rfl
    · exact ih t.bump _ _

theorem readLong_buf (t : Tap) : t.readLong.2.buf = t.buf := by
  simp only [Tap.readLong]
  cases h : readLongAux1 3 t 0 0 with
  | mk n rest =>
    cases rest with
    | mk cont t1 =>
      have h1 : t1.buf = t.buf := by
        have := readLongAux1_buf 3 t 0 0
        rw [h] at this
        exact this
      cases cont with
      | false => exact h1
      | true =>
        simp only []
        rw [readLongAux2_buf, h1]

theorem lastValidPick_none_iff (env : SEnv) (fuel : Nat) (v : Value) :
    ∀ bs, lastValidPick env fuel v bs = none ↔ ∀ b ∈ bs, validate env fuel b v = false := by
  intro bs
  induction bs with
  | nil => simp [lastValidPick]
  | cons b0 rest ih =>
    constructor
    · intro h
      simp only [lastValidPick] at h
      cases hrest : lastValidPick env fuel v rest with
      | some p => rw [hrest] at h; exact Option.noConfusion h
      | none =>
        rw [hrest] at h
        intro b hb
        rcases List.mem_cons.mp hb with hb0 | hbr
        · subst hb0
          by_contra hv
          rw [if_pos (by revert hv; cases validate env fuel b v <;> simp)] at h
          exact Option.noConfusion h
        · exact ih.mp hrest b hbr
    · intro hall
      simp only [lastValidPick]
      rw [ih.mpr (fun b hb => hall b (List.mem_cons_of_mem b0 hb))]
      rw [hall b0 (List.mem_cons_self b0 rest)]
      simp

theorem lastValidPick_some_spec (env : SEnv) (fuel : Nat) (v : Value) :
    ∀ bs i b, lastValidPick env fuel v bs = some (i, b) →
      ∃ h : i < bs.length, bs.get ⟨i, h⟩ = b ∧ validate env fuel b v = true ∧
        ∀ j (hj : j < bs.length), i < j →
          validate env fuel (bs.get ⟨j, hj⟩) v = false := by
  intro bs
  induction bs with
  | nil => intro i b h; exact Option.noConfusion h
  | cons b0 rest ih =>
    intro i b hpick
    simp only [lastValidPick] at hpick
    cases hrest : lastValidPick env fuel v rest with
    | some p =>
      obtain ⟨j, b1⟩ := p
      rw [hrest] at hpick
      injection hpick with hp
      have hi : j + 1 = i := congrArg Prod.fst hp
      have hb : b1 = b := congrArg Prod.snd hp
      subst hi
      subst hb
      obtain ⟨hj, hget, hval, hlater⟩ := ih j b1 hrest
      refine ⟨Nat.succ_lt_succ hj, hget, hval, ?_⟩
      intro k hk hik
      cases k with
      | zero => exact absurd hik (by omega)
      | succ k =>
        exact hlater k (Nat.lt_of_succ_lt_succ hk) (Nat.lt_of_succ_lt_succ hik)
    | none =>
      rw [hrest] at hpick
      by_cases hv : validate env fuel b0 v = true
      · rw [if_pos hv] at hpick
        injection hpick with hp
        have hi : 0 = i := congrArg Prod.fst hp
        have hb : b0 = b := congrArg Prod.snd hp
        subst hi
        subst hb
        refine ⟨Nat.succ_pos _, rfl, hv, ?_⟩
        intro k hk _
        cases k with
        | zero => exact absurd hk (by omega)
        | succ k =>
          exact (lastValidPick_none_iff env fuel v rest).mp hrest _
            (rest.get_mem k (Nat.lt_of_succ_lt_succ hk))
      · rw [if_neg hv] at hpick
        exact Option.noConfusion hpick




set_option maxRecDepth 100000
set_option maxHeartbeats 4000000

/-- Monotonicity of the fueled validator: enlarging the depth budget
preserves acceptance (for the validator and each of its loops). -/
theorem validate_mono_all : ∀ fuel fuel', fuel ≤ fuel' →
    (∀ env s v, validate env fuel s v = true → validate env fuel' s v = true) ∧
    (∀ env items xs, validList env fuel items xs = true → validList env fuel' items xs = true) ∧
    (∀ env values kvs, validEntries env fuel values kvs = true →
      validEntries env fuel' values kvs = true) ∧
    (∀ env bs v, validAny env fuel bs v = true → validAny env fuel' bs v = true) ∧
    (∀ env fields kvs, validFields env fuel fields kvs = true →
      validFields env fuel' fields kvs = true) := by
  intro fuel
  induction fuel with
  | zero =>
    intro fuel' _
    refine ⟨?_, ?_, ?_, ?_, ?_⟩ <;> intro _ _ _ hfalse <;>
      simp [validate, validList, validEntries, validAny, validFields] at hfalse
  | succ fuel ih =>
    intro fuel' hle
    obtain ⟨f', rfl⟩ : ∃ f', fuel' = f' + 1 := ⟨fuel' - 1, by omega⟩
    obtain ⟨mv, ml, me, ma, mf⟩ := ih f' (by omega)
    refine ⟨?_, ?_, ?_, ?_, ?_⟩
    · intro env s v h
      simp only [validate] at h ⊢
      cases hs : resolveS env s <;> rw [hs] at h
      case sNull | sBoolean | sInt | sLong | sFloat | sDouble | sBytes | sString
        | sFixed | sEnum | sRef =>
        exact h
      case sArray items =>
        cases v <;> try exact h
        exact ml env items _ h
      case sMap values =>
        cases v <;> try exact h
        exact me env values _ h
      case sUnion eu bs =>
        exact ma env bs v h
      case sRecord e n fields =>
        cases v <;> try exact h
        rw [Bool.and_eq_true] at h
        obtain ⟨h1, h2⟩ := h
        rw [Bool.and_eq_true]
        exact ⟨mf env fields _ h1, h2⟩
    · intro env items xs h
      simp only [validList] at h ⊢
      cases xs with
      | nil => rfl
      | cons x rest =>
        rw [Bool.and_eq_true] at h
        obtain ⟨h1, h2⟩ := h
        rw [Bool.and_eq_true]
        exact ⟨mv env items x h1, ml env items rest h2⟩
    · intro env values kvs h
      simp only [validEntries] at h ⊢
      cases kvs with
      | nil => rfl
      | cons kv rest =>
        obtain ⟨k, x⟩ := kv
        rw [Bool.and_eq_true] at h
        obtain ⟨h1, h2⟩ := h
        rw [Bool.and_eq_true]
        exact ⟨mv env values x h1, me env values rest h2⟩
    · intro env bs v h
      simp only [validAny] at h ⊢
      cases bs with
      | nil => exact h
      | cons b rest =>
        rw [Bool.or_eq_true] at h
        rcases h with h1 | h2
        · rw [Bool.or_eq_true]
          exact Or.inl (mv env b v h1)
        · rw [Bool.or_eq_true]
          exact Or.inr (ma env rest v h2)
    · intro env fields kvs h
      simp only [validFields] at h ⊢
      cases fields with
      | nil => rfl
      | cons f rest =>
        rw [Bool.and_eq_true] at h
        obtain ⟨h1, h2⟩ := h
        rw [Bool.and_eq_true]
        refine ⟨?_, mf env rest kvs h2⟩
        cases hl : kvLookup f.fname kvs with
        | some w => rw [hl] at h1; exact mv env f.ftype w h1
        | none => rw [hl] at h1; exact absurd h1 (by simp)

/-- Shorthand for the monotonicity component used below. -/
theorem validate_mono {fuel fuel' : Nat} (hle : fuel ≤ fuel') (env : SEnv) (s : Schema)
    (v : Value) (h : validate env fuel s v = true) : validate env fuel' s v = true :=
  (validate_mono_all fuel fuel' hle).1 env s v h

theorem validFields_forall (env : SEnv) :
    ∀ fields fuel kvs, validFields env fuel fields kvs = true →
      ∀ f ∈ fields, ∃ w, kvLookup f.fname kvs = some w ∧
        ∃ g, validate env g f.ftype w = true := by
  intro fields
  induction fields with
  | nil => intro fuel kvs _ f hf; exact absurd hf (List.not_mem_nil f)
  | cons f0 rest ih =>
    intro fuel kvs h f hf
    cases fuel with
    | zero => simp [validFields] at h
    | succ fuel =>
      simp only [validFields] at h
      rw [Bool.and_eq_true] at h
      obtain ⟨h1, h2⟩ := h
      rcases List.mem_cons.mp hf with hf0 | hfr
      · subst hf0
        cases hl : kvLookup f.fname kvs with
        | some w => exact ⟨w, rfl, fuel, by rw [hl] at h1; exact h1⟩
        | none => rw [hl] at h1; exact absurd h1 (by simp)
      · exact ih fuel kvs h2 f hfr

theorem validFields_exists (env : SEnv) :
    ∀ fields kvs,
      (∀ f ∈ fields, ∃ w, kvLookup f.fname kvs = some w ∧
        ∃ g, validate env g f.ftype w = true) →
      ∃ fuel, validFields env fuel fields kvs = true := by
  intro fields
  induction fields with
  | nil => intro kvs _; exact ⟨1, rfl⟩
  | cons f0 rest ih =>
    intro kvs hall
    obtain ⟨w, hw, g, hg⟩ := hall f0 (List.mem_cons_self f0 rest)
    obtain ⟨fr, hfr⟩ := ih kvs (fun f hf => hall f (List.mem_cons_of_mem f0 hf))
    refine ⟨max g fr + 1, ?_⟩
    simp only [validFields]
    rw [Bool.and_eq_true]
    refine ⟨?_, ?_⟩
    · rw [hw]
      exact validate_mono (Nat.le_max_left g fr) env f0.ftype w hg
    · exact ((validate_mono_all fr (max g fr) (Nat.le_max_right g fr)).2.2.2.2) env rest kvs hfr

/-! Helper lemmas for the record-resolution claim. -/

theorem resolveS_record (env : SEnv) (e : Bool) (n : Str) (fs : List SField) :
    resolveS env (.sRecord e n fs) = .sRecord e n fs := rfl

theorem kvInsert_keys_mem {α : Type} (k : Str) (v : α) :
    ∀ (l : List (Str × α)) (x : Str),
      x ∈ (kvInsert k v l).map Prod.fst ↔ x = k ∨ x ∈ l.map Prod.fst := by
  intro l
  induction l with
  | nil => intro x; simp [kvInsert]
  | cons kv rest ih =>
    intro x
    obtain ⟨k1, v1⟩ := kv
    simp only [kvInsert]
    split
    · next hk =>
      subst hk
      simp only [List.map_cons, List.mem_cons]
      tauto
    · next hk =>
      simp only [List.map_cons, List.mem_cons, ih x]
      tauto

theorem kvInsert_keys_nodup {α : Type} (k : Str) (v : α) :
    ∀ (l : List (Str × α)), (l.map Prod.fst).Nodup → ((kvInsert k v l).map Prod.fst).Nodup := by
  intro l
  induction l with
  | nil => intro _; simp [kvInsert]
  | cons kv rest ih =>
    intro h
    obtain ⟨k1, v1⟩ := kv
    simp only [List.map_cons, List.nodup_cons] at h
    obtain ⟨hk1, hrest⟩ := h
    simp only [kvInsert]
    split
    · next heq => simp only [List.map_cons, List.nodup_cons]; exact ⟨heq ▸ hk1, hrest⟩
    · next hne =>
      simp only [List.map_cons, List.nodup_cons]
      refine ⟨?_, ih hrest⟩
      rw [kvInsert_keys_mem]
      rintro (h | h)
      · exact hne h
      · exact hk1 h

theorem lookupFieldDict_some_name :
    ∀ (l : List SField) (n : Str) (f : SField), lookupFieldDict n l = some f →
      ∃ g ∈ l, g.fname = n := by
  intro l
  induction l with
  | nil => intro n f h; exact Option.noConfusion h
  | cons f0 rest ih =>
    intro n f h
    simp only [lookupFieldDict] at h
    cases hr : lookupFieldDict n rest with
    | some g =>
      obtain ⟨g1, hg1, hn⟩ := ih n g hr
      exact ⟨g1, List.mem_cons_of_mem f0 hg1, hn⟩
    | none =>
      rw [hr] at h
      by_cases hname : f0.fname = n
      · exact ⟨f0, List.mem_cons_self f0 rest, hname⟩
      · rw [if_neg hname] at h
        exact Option.noConfusion h

theorem readRecFieldsR_keys (env : SEnv) :
    ∀ wfields fuel rfields t acc acc1 t1,
      readRecFieldsR env fuel wfields rfields t acc = .ok (acc1, t1) →
      ((acc.map Prod.fst).Nodup → (acc1.map Prod.fst).Nodup) ∧
      (∀ k ∈ acc1.map Prod.fst, k ∈ acc.map Prod.fst ∨
        ((∃ wf ∈ wfields, wf.fname = k) ∧ ∃ rf ∈ rfields, rf.fname = k)) := by
  intro wfields
  induction wfields with
  | nil =>
    intro fuel rfields t acc acc1 t1 h
    simp only [readRecFieldsR] at h
    injection h with hp
    have ha : acc = acc1 := congrArg Prod.fst hp
    subst ha
    exact ⟨id, fun k hk => Or.inl hk⟩
  | cons f rest ih =>
    intro fuel rfields t acc acc1 t1 h
    cases fuel with
    | zero => simp [readRecFieldsR] at h
    | succ fuel =>
      simp only [readRecFieldsR] at h
      cases hl : lookupFieldDict f.fname rfields with
      | some rf =>
        simp only [hl] at h
        cases hrd : readData env fuel f.ftype rf.ftype t with
        | error e => simp only [hrd] at h; exact Except.noConfusion h
        | ok p =>
          obtain ⟨v, t2⟩ := p
          simp only [hrd] at h
          obtain ⟨hnd, hmem⟩ := ih fuel rfields t2 (kvInsert f.fname v acc) acc1 t1 h
          refine ⟨fun hacc => hnd (kvInsert_keys_nodup _ _ _ hacc), ?_⟩
          intro k hk
          rcases hmem k hk with hin | hnew
          · rw [kvInsert_keys_mem] at hin
            rcases hin with hkf | hold
            · subst hkf
              exact Or.inr ⟨⟨f, List.mem_cons_self f rest, rfl⟩,
                lookupFieldDict_some_name rfields f.fname rf hl⟩
            · exact Or.inl hold
          · obtain ⟨⟨wf, hwf, hwfn⟩, hrf⟩ := hnew
            exact Or.inr ⟨⟨wf, List.mem_cons_of_mem f hwf, hwfn⟩, hrf⟩
      | none =>
        simp only [hl] at h
        cases hs : skipData env fuel f.ftype t with
        | error e => simp only [hs] at h; exact Except.noConfusion h
        | ok t2 =>
          simp only [hs] at h
          obtain ⟨hnd, hmem⟩ := ih fuel rfields t2 acc acc1 t1 h
          refine ⟨hnd, ?_⟩
          intro k hk
          rcases hmem k hk with hold | hnew
          · exact Or.inl hold
          · obtain ⟨⟨wf, hwf, hwfn⟩, hrf⟩ := hnew
            exact Or.inr ⟨⟨wf, List.mem_cons_of_mem f hwf, hwfn⟩, hrf⟩

theorem readRecDefaults_all_present (env : SEnv) :
    ∀ rfields fuel wfields acc,
      (∀ f ∈ rfields, ∃ wf ∈ wfields, wf.fname = f.fname) →
      rfields.length ≤ fuel →
      readRecDefaults env fuel wfields rfields acc = .ok acc := by
  intro rfields
  induction rfields with
  | nil => intro fuel wfields acc _ _; cases fuel <;> rfl
  | cons f rest ih =>
    intro fuel wfields acc hall hlen
    cases fuel with
    | zero => exact absurd hlen (by simp)
    | succ fuel =>
      simp only [readRecDefaults]
      obtain ⟨wf, hwf, hn⟩ := hall f (List.mem_cons_self f rest)
      rw [if_pos (List.any_eq_true.mpr ⟨wf, hwf, decide_eq_true hn⟩)]
      exact ih fuel wfields acc (fun g hg => hall g (List.mem_cons_of_mem f hg))
        (Nat.le_of_succ_le_succ hlen)

/-! Buffer algebra and base-128 digit lists. -/

theorem listSlice_at (pre bs post : List Nat) :
    listSlice (pre ++ bs ++ post) (pre.length : Int) bs.length = bs := by
  unfold listSlice
  rw [if_pos (Int.ofNat_nonneg _)]
  simp [List.drop_append, List.take_append]

theorem getD_at (pre : List Nat) (d : Nat) (tail : List Nat) :
    (pre ++ d :: tail).getD pre.length 0 = d := by
  induction pre with
  | nil => rfl
  | cons p rest ih => simpa using ih

theorem getByte_at (pre : List Nat) (d : Nat) (tail : List Nat) (q : Int) (hq : q = pre.length) :
    Tap.getByte ⟨pre ++ d :: tail, q⟩ = d := by
  subst hq
  have hlt : ((pre.length : Nat) : Int) < (((pre ++ d :: tail).length : Nat) : Int) := by
    simp
  rw [Tap.getByte, if_pos ⟨Int.ofNat_nonneg _, hlt⟩]
  simpa using getD_at pre d tail

theorem spliceAt_nil (p : Int) (buf : List Nat) : spliceAt p [] buf = buf := by
  unfold spliceAt
  split
  · simp
  · rfl

theorem spliceAt_append (p : Int) (a b buf : List Nat) (hp : 0 ≤ p)
    (hfit : p.toNat + a.length ≤ buf.length) :
    spliceAt p (a ++ b) buf = spliceAt (p + a.length) b (spliceAt p a buf) := by
  unfold spliceAt
  rw [if_pos hp, if_pos hp, if_pos (by omega)]
  have h1 : (p + (a.length : Int)).toNat = p.toNat + a.length := by omega
  rw [h1]
  have hlt : (buf.take p.toNat).length = p.toNat := List.length_take_of_le (by omega)
  have htake : (buf.take p.toNat ++ a ++ buf.drop (p.toNat + a.length)).take (p.toNat + a.length) =
      buf.take p.toNat ++ a := by
    rw [List.append_assoc, List.take_append_eq_append_take, hlt,
      List.take_of_length_le (by rw [hlt]; omega)]
    congr 1
    rw [List.take_append_eq_append_take, List.take_of_length_le (by omega)]
    simp
  have hdrop : (buf.take p.toNat ++ a ++ buf.drop (p.toNat + a.length)).drop
      (p.toNat + a.length + b.length) = buf.drop (p.toNat + (a ++ b).length) := by
    rw [List.append_assoc, List.drop_append_eq_append_drop, hlt,
      List.drop_of_length_le (by rw [hlt]; omega)]
    simp only [List.nil_append]
    rw [List.drop_append_eq_append_drop, List.drop_of_length_le (by omega)]
    simp only [List.nil_append, List.drop_drop]
    congr 1
    simp
    omega
  rw [htake, hdrop]
  simp [List.append_assoc]

theorem spliceAt_length (p : Int) (bs buf : List Nat) (hp : 0 ≤ p)
    (hfit : p.toNat + bs.length ≤ buf.length) :
    (spliceAt p bs buf).length = buf.length := by
  unfold spliceAt
  rw [if_pos hp]
  simp
  omega

theorem writeByteAdv_splice (t : Tap) (b : Nat) (hp : 0 ≤ t.pos)
    (hfit : t.pos.toNat + 1 ≤ t.buf.length) (hb : b < 256) :
    t.writeByteAdv b = ⟨spliceAt t.pos [b] t.buf, t.pos + 1⟩ := by
  unfold Tap.writeByteAdv spliceAt
  rw [if_pos hp, if_pos hp]
  congr 1
  rw [Nat.mod_eq_of_lt hb, List.set_eq_take_append_cons_drop]
  rw [if_pos (by omega)]
  simp

theorem writeBytesAdv_splice :
    ∀ (bs : List Nat) (t : Tap), 0 ≤ t.pos → t.pos.toNat + bs.length ≤ t.buf.length →
      (∀ b ∈ bs, b < 256) →
      t.writeBytesAdv bs = ⟨spliceAt t.pos bs t.buf, t.pos + bs.length⟩ := by
  intro bs
  induction bs with
  | nil =>
    intro t hp hfit _
    show t = _
    rw [spliceAt_nil]
    cases t
    simp
  | cons b rest ih =>
    intro t hp hfit hlt
    have hfit1 : t.pos.toNat + 1 ≤ t.buf.length := by
      simp only [List.length_cons] at hfit
      omega
    show Tap.writeBytesAdv (t.writeByteAdv b) rest = _
    rw [writeByteAdv_splice t b hp hfit1 (hlt b (List.mem_cons_self b rest))]
    have hlen1 : (spliceAt t.pos [b] t.buf).length = t.buf.length :=
      spliceAt_length t.pos [b] t.buf hp (by simp only [List.length_singleton]; omega)
    have hp1 : (0 : Int) ≤ t.pos + 1 := by omega
    have hfit2 : (t.pos + 1).toNat + rest.length ≤ (spliceAt t.pos [b] t.buf).length := by
      rw [hlen1]
      simp only [List.length_cons] at hfit
      omega
    rw [ih ⟨spliceAt t.pos [b] t.buf, t.pos + 1⟩ hp1 hfit2
      (fun x hx => hlt x (List.mem_cons_of_mem b hx))]
    have hsplice : spliceAt t.pos (b :: rest) t.buf =
        spliceAt (t.pos + 1) rest (spliceAt t.pos [b] t.buf) := by
      have := spliceAt_append t.pos [b] rest t.buf hp (by simp only [List.length_singleton]; omega)
      simpa using this
    rw [hsplice]
    have : (t.pos + 1) + (rest.length : Int) = t.pos + ((b :: rest).length : Int) := by
      simp only [List.length_cons]
      omega
    rw [this]

theorem lebAux_irrel : ∀ (m f f' : Nat), m ≤ f → m ≤ f' → lebAux f m = lebAux f' m := by
  intro m
  induction m using Nat.strong_induction_on with
  | _ m ih =>
    intro f f' hf hf'
    by_cases hm : m < 128
    · cases f <;> cases f' <;> simp [lebAux, hm]
    · obtain ⟨f0, rfl⟩ : ∃ f0, f = f0 + 1 := ⟨f - 1, by omega⟩
      obtain ⟨f1, rfl⟩ : ∃ f1, f' = f1 + 1 := ⟨f' - 1, by omega⟩
      simp only [lebAux]
      rw [if_neg hm, if_neg hm]
      have hlt : m / 128 < m := by omega
      have h1 : m / 128 ≤ f0 := by omega
      have h2 : m / 128 ≤ f1 := by omega
      rw [ih (m / 128) hlt f0 f1 h1 h2]

theorem lebBytes_unfold (m : Nat) :
    lebBytes m = if m < 128 then [m] else (m % 128 + 128) :: lebBytes (m / 128) := by
  unfold lebBytes
  by_cases hm : m < 128
  · rw [if_pos hm]
    cases m with
    | zero => rfl
    | succ m0 => simp only [lebAux]; rw [if_pos hm]
  · rw [if_neg hm]
    obtain ⟨f0, hf⟩ : ∃ f0, m = f0 + 1 := ⟨m - 1, by omega⟩
    conv_lhs => rw [hf]
    simp only [lebAux]
    rw [if_neg (hf ▸ hm)]
    rw [← hf]
    congr 1
    exact lebAux_irrel (m / 128) f0 (m / 128) (by omega) (by omega)

theorem lebBytes_lt_256 : ∀ m, ∀ b ∈ lebBytes m, b < 256 := by
  intro m
  induction m using Nat.strong_induction_on with
  | _ m ih =>
    intro b hb
    rw [lebBytes_unfold] at hb
    by_cases hm : m < 128
    · rw [if_pos hm] at hb
      simp at hb
      omega
    · rw [if_neg hm] at hb
      rcases List.mem_cons.mp hb with h0 | h1
      · have : m % 128 < 128 := Nat.mod_lt _ (by omega)
        omega
      · exact ih (m / 128) (by omega) b h1

theorem lebBytes_ne_nil (m : Nat) : lebBytes m ≠ [] := by
  rw [lebBytes_unfold]
  split <;> simp

/-! Exact-representability: integers a binary64 (or binary32) value holds
exactly, and the rounding function's behaviour on them. -/

theorem bitLen_le_iff (a p : Nat) : bitLen a ≤ p ↔ a < 2 ^ p := by
  unfold bitLen
  by_cases ha : a = 0
  · subst ha
    simp [pow_pos]
  · rw [if_neg ha]
    constructor
    · intro h
      have h1 : a < 2 ^ (Nat.log2 a + 1) := Nat.lt_log2_self
      exact Nat.lt_of_lt_of_le h1 (Nat.pow_le_pow_right (by omega) h)
    · intro h
      by_contra hc
      have h2 : p ≤ Nat.log2 a := by omega
      have h3 : 2 ^ Nat.log2 a ≤ a := Nat.log2_self_le ha
      have h4 : 2 ^ p ≤ 2 ^ Nat.log2 a := Nat.pow_le_pow_right (by omega) h2
      omega

theorem bitLen_pos (a : Nat) (ha : a ≠ 0) : 1 ≤ bitLen a := by
  by_contra hb
  have h0 : bitLen a ≤ 0 := by omega
  have := (bitLen_le_iff a 0).mp h0
  omega

theorem bitLen_lower (a : Nat) (ha : a ≠ 0) : 2 ^ (bitLen a - 1) ≤ a := by
  by_contra hlt
  have h1 : bitLen a ≤ bitLen a - 1 := (bitLen_le_iff a (bitLen a - 1)).mpr (by omega)
  have h2 := bitLen_pos a ha
  omega

theorem bitLen_upper (a : Nat) : a < 2 ^ bitLen a := (bitLen_le_iff a (bitLen a)).mp (le_refl _)

theorem bitLen_mul_pow2 (c e : Nat) (hc : c ≠ 0) : bitLen (c * 2 ^ e) = bitLen c + e := by
  have h1 := bitLen_lower c hc
  have h2 := bitLen_upper c
  have hb1 := bitLen_pos c hc
  have hlow : 2 ^ (bitLen c + e - 1) ≤ c * 2 ^ e := by
    have h3 : 2 ^ (bitLen c - 1) * 2 ^ e ≤ c * 2 ^ e := Nat.mul_le_mul_right _ h1
    rw [← Nat.pow_add] at h3
    have he : bitLen c - 1 + e = bitLen c + e - 1 := by omega
    rw [he] at h3
    exact h3
  have hhigh : c * 2 ^ e < 2 ^ (bitLen c + e) := by
    rw [Nat.pow_add]
    exact Nat.mul_lt_mul_of_lt_of_le h2 (Nat.le_refl _) (pow_pos (by omega) e)
  have hu : bitLen (c * 2 ^ e) ≤ bitLen c + e := (bitLen_le_iff _ _).mpr hhigh
  have hl : ¬(bitLen (c * 2 ^ e) ≤ bitLen c + e - 1) := by
    rw [bitLen_le_iff]
    omega
  omega

theorem reprP_of_lt (p : Nat) (n : Int) (h : n.natAbs < 2 ^ p) : reprP p n :=
  ⟨n.natAbs, 0, by simp, h⟩

theorem roundPrec_eq_of_reprP (p : Nat) (n : Int) (h : reprP p n) :
    roundPrec p n = n := by
  obtain ⟨c, e, habs, hc⟩ := h
  simp only [roundPrec]
  by_cases hb : bitLen n.natAbs ≤ p
  · rw [if_pos hb]
  · rw [if_neg hb]
    have hc0 : c ≠ 0 := by
      intro h0
      subst h0
      simp only [Nat.zero_mul] at habs
      rw [habs] at hb
      simp [bitLen] at hb
    have hbl : bitLen n.natAbs = bitLen c + e := by
      rw [habs]
      exact bitLen_mul_pow2 c e hc0
    have hke : bitLen n.natAbs - p ≤ e := by
      have : bitLen c ≤ p := (bitLen_le_iff c p).mpr hc
      omega
    have hdvd : 2 ^ (bitLen n.natAbs - p) ∣ n.natAbs := by
      refine dvd_trans (pow_dvd_pow 2 hke) ?_
      conv_rhs => rw [habs]
      exact Dvd.intro_left c rfl
    have hr : n.natAbs % 2 ^ (bitLen n.natAbs - p) = 0 := Nat.mod_eq_zero_of_dvd hdvd
    have hq : n.natAbs / 2 ^ (bitLen n.natAbs - p) * 2 ^ (bitLen n.natAbs - p) = n.natAbs :=
      Nat.div_mul_cancel hdvd
    have hhalf : 0 < 2 ^ (bitLen n.natAbs - p - 1) := pow_pos (by omega) _
    rw [hr]
    have hcond : ¬(2 ^ (bitLen n.natAbs - p - 1) < 0 ∨
        (0 = 2 ^ (bitLen n.natAbs - p - 1) ∧ n.natAbs / 2 ^ (bitLen n.natAbs - p) % 2 = 1)) := by
      rintro (hlt | ⟨heq, _⟩)
      · omega
      · omega
    rw [if_neg hcond, hq]
    by_cases hn : n < 0
    · rw [if_pos hn]
      omega
    · rw [if_neg hn]
      omega

theorem reprP_of_roundPrec_eq (p : Nat) (n : Int) (h : roundPrec p n = n) :
    reprP p n := by
  by_cases hb : bitLen n.natAbs ≤ p
  · exact reprP_of_lt p n ((bitLen_le_iff _ _).mp hb)
  · simp only [roundPrec] at h
    rw [if_neg hb] at h
    set a := n.natAbs with ha
    set k := bitLen a - p with hk
    set q2 := if 2 ^ (k - 1) < a % 2 ^ k ∨ (a % 2 ^ k = 2 ^ (k - 1) ∧ a / 2 ^ k % 2 = 1)
      then a / 2 ^ k + 1 else a / 2 ^ k with hq2
    have habs : a = q2 * 2 ^ k := by
      have := congrArg Int.natAbs h
      rw [Int.natAbs_mul] at this
      have h1 : ((q2 * 2 ^ k : Nat) : Int).natAbs = q2 * 2 ^ k := Int.natAbs_ofNat _
      rcases Classical.em (n < 0) with hn | hn
      · rw [if_pos hn] at this
        simp only [Int.natAbs_neg, Int.natAbs_one, Nat.one_mul, h1] at this
        omega
      · rw [if_neg hn] at this
        simp only [Int.natAbs_one, Nat.one_mul, h1] at this
        omega
    have hbound : a < 2 ^ (p + k) := by
      have h1 := bitLen_upper a
      have h2 : bitLen a = p + k := by
        have := bitLen_pos a (by
          intro h0
          rw [h0] at hb
          simp [bitLen] at hb)
        omega
      rw [h2] at h1
      exact h1
    have hq2lt : q2 < 2 ^ p := by
      by_contra hge
      have : 2 ^ p * 2 ^ k ≤ q2 * 2 ^ k := Nat.mul_le_mul_right _ (by omega)
      rw [← Nat.pow_add] at this
      omega
    exact ⟨q2, k, habs, hq2lt⟩

theorem unzig_zig (n : Int) : unzig (zig n) = n := by
  unfold unzig zig
  by_cases hn : 0 ≤ n
  · rw [if_pos hn]
    have h2 : ((2 * n).toNat : Int) = 2 * n := Int.toNat_of_nonneg (by omega)
    have hmod : (2 * n).toNat % 2 = 0 := by omega
    rw [hmod]
    rw [if_neg (by omega : ¬(0 : Nat) = 1)]
    rw [h2]
    omega
  · rw [if_neg hn]
    have h2 : ((-2 * n - 1).toNat : Int) = -2 * n - 1 := Int.toNat_of_nonneg (by omega)
    have hmod : (-2 * n - 1).toNat % 2 = 1 := by omega
    rw [hmod, if_pos rfl, h2]
    omega

/-! The varint reader on exactly-representable digit strings. -/

theorem reprP_mod_pow2 (p mm a : Nat) (h : reprP p ((a : Nat) : Int)) :
    reprP p ((a % 2 ^ mm : Nat) : Int) := by
  obtain ⟨c, e, habs, hc⟩ := h
  have ha : a = c * 2 ^ e := by simpa using habs
  by_cases hme : mm ≤ e
  · have hz : a % 2 ^ mm = 0 := by
      refine Nat.mod_eq_zero_of_dvd ?_
      rw [ha]
      exact dvd_mul_of_dvd_right (pow_dvd_pow 2 hme) c
    rw [hz]
    exact ⟨0, 0, by simp, pow_pos (by omega) p⟩
  · have hsplit : a % 2 ^ mm = c % 2 ^ (mm - e) * 2 ^ e := by
      rw [ha]
      have h2 : (2 : Nat) ^ mm = 2 ^ (mm - e) * 2 ^ e := by
        rw [← pow_add]
        congr 1
        omega
      rw [h2, Nat.mul_mod_mul_right]
    refine ⟨c % 2 ^ (mm - e), e, ?_, lt_of_le_of_lt (Nat.mod_le _ _) hc⟩
    rw [Int.natAbs_ofNat]
    exact hsplit

theorem zigExact_spec (n : Int) (h : zigExact n = true) : reprP 53 ((zig n : Nat) : Int) := by
  unfold zigExact at h
  exact reprP_of_roundPrec_eq 53 _ (of_decide_eq_true h)

theorem zigJs_eq_zig (n : Int) (h : reprP 53 ((zig n : Nat) : Int)) : zigJs n = zig n := by
  unfold zigJs
  split
  · rfl
  · rw [show roundB64 ((zig n : Nat) : Int) = ((zig n : Nat) : Int) from
      roundPrec_eq_of_reprP 53 _ h]
    simp

theorem unzigF_eq_unzig (m : Nat) (hrep : reprP 53 ((m : Nat) : Int)) :
    unzigF (m : Int) = unzig m := by
  unfold unzigF unzig
  by_cases hodd : m % 2 = 1
  · rw [if_pos (by omega), if_pos hodd]
    have hrep1 : reprP 53 ((m : Int) + 1) := by
      obtain ⟨c, e, habs, hc⟩ := hrep
      have ha : m = c * 2 ^ e := by simpa using habs
      have he : e = 0 := by
        by_contra hne
        have hdvd : 2 ∣ m := by
          rw [ha]
          exact dvd_mul_of_dvd_right (dvd_pow_self 2 hne) c
        omega
      subst he
      simp only [pow_zero, Nat.mul_one] at ha
      subst ha
      by_cases hlt : m + 1 < 2 ^ 53
      · exact reprP_of_lt _ _ (by simpa using hlt)
      · have hm1 : m + 1 = 2 ^ 53 := by omega
        refine ⟨1, 53, ?_, by norm_num⟩
        have : ((m : Int) + 1).natAbs = m + 1 := by omega
        rw [this, hm1]
        omega
    rw [show roundB64 ((m : Int) + 1) = (m : Int) + 1 from roundPrec_eq_of_reprP 53 _ hrep1]
  · rw [if_neg (by omega), if_neg hodd]

theorem readLongAux1_leb :
    ∀ (iters m : Nat) (pre post : List Nat) (acc k : Nat),
      readLongAux1 iters ⟨pre ++ lebBytes m ++ post, (pre.length : Int)⟩ acc k =
        if m < 128 ^ (iters + 1) then
          (acc + m * 2 ^ k, false,
            ⟨pre ++ lebBytes m ++ post, (pre.length : Int) + (lebBytes m).length⟩)
        else
          (acc + m % 128 ^ (iters + 1) * 2 ^ k, true,
            ⟨pre ++ lebBytes m ++ post, (pre.length : Int) + (iters + 1)⟩) := by
  intro iters
  induction iters with
  | zero =>
    intro m pre post acc k
    by_cases hm : m < 128
    · have hleb : lebBytes m = [m] := by rw [lebBytes_unfold, if_pos hm]
      rw [hleb, if_pos (by simpa using hm)]
      have hb : Tap.getByte ⟨pre ++ [m] ++ post, (pre.length : Int)⟩ = m := by
        have hre : pre ++ [m] ++ post = pre ++ m :: post := by simp
        rw [hre]
        exact getByte_at pre m post _ rfl
      simp only [readLongAux1]
      rw [hb, Nat.mod_eq_of_lt hm, decide_eq_false (by omega)]
      unfold Tap.bump
      simp
    · have hleb : lebBytes m = (m % 128 + 128) :: lebBytes (m / 128) := by
        rw [lebBytes_unfold, if_neg hm]
      rw [hleb, if_neg (by simpa using hm)]
      have hb : Tap.getByte ⟨pre ++ ((m % 128 + 128) :: lebBytes (m / 128)) ++ post,
          (pre.length : Int)⟩ = m % 128 + 128 := by
        have h1 : pre ++ ((m % 128 + 128) :: lebBytes (m / 128)) ++ post =
            pre ++ (m % 128 + 128) :: (lebBytes (m / 128) ++ post) := by simp
        rw [h1]
        exact getByte_at pre _ _ _ rfl
      simp only [readLongAux1]
      rw [hb]
      have hmod : (m % 128 + 128) % 128 = m % 128 := by omega
      rw [hmod, decide_eq_true (by omega)]
      have hmod1 : m % 128 ^ (0 + 1) = m % 128 := by norm_num
      rw [hmod1]
      unfold Tap.bump
      simp
  | succ iters ih =>
    intro m pre post acc k
    by_cases hm : m < 128
    · have hleb : lebBytes m = [m] := by rw [lebBytes_unfold, if_pos hm]
      rw [hleb, if_pos (lt_of_lt_of_le hm (by
        calc (128 : Nat) = 128 ^ 1 := by norm_num
        _ ≤ 128 ^ (iters + 1 + 1) := Nat.pow_le_pow_right (by omega) (by omega)))]
      have hb : Tap.getByte ⟨pre ++ [m] ++ post, (pre.length : Int)⟩ = m := by
        have h1 : pre ++ [m] ++ post = pre ++ m :: post := by simp
        rw [h1]
        exact getByte_at pre m post _ rfl
      simp only [readLongAux1]
      rw [hb, if_pos hm, Nat.mod_eq_of_lt hm]
      unfold Tap.bump
      simp
    · have hleb : lebBytes m = (m % 128 + 128) :: lebBytes (m / 128) := by
        rw [lebBytes_unfold, if_neg hm]
      rw [hleb]
      have hb : Tap.getByte ⟨pre ++ ((m % 128 + 128) :: lebBytes (m / 128)) ++ post,
          (pre.length : Int)⟩ = m % 128 + 128 := by
        have h1 : pre ++ ((m % 128 + 128) :: lebBytes (m / 128)) ++ post =
            pre ++ (m % 128 + 128) :: (lebBytes (m / 128) ++ post) := by simp
        rw [h1]
        exact getByte_at pre _ _ _ rfl
      simp only [readLongAux1]
      rw [hb, if_neg (by omega)]
      have hbump : Tap.bump ⟨pre ++ ((m % 128 + 128) :: lebBytes (m / 128)) ++ post,
          (pre.length : Int)⟩ =
          ⟨(pre ++ [m % 128 + 128]) ++ lebBytes (m / 128) ++ post,
            (((pre ++ [m % 128 + 128]).length : Nat) : Int)⟩ := by
        unfold Tap.bump
        simp
      rw [hbump]
      have hmod : (m % 128 + 128) % 128 = m % 128 := by omega
      rw [hmod]
      rw [ih (m / 128) (pre ++ [m % 128 + 128]) post (acc + m % 128 * 2 ^ k) (k + 7)]
      have hiff : m / 128 < 128 ^ (iters + 1) ↔ m < 128 ^ (iters + 1 + 1) := by
        rw [Nat.div_lt_iff_lt_mul (by omega)]
        rw [show (128 : Nat) ^ (iters + 1 + 1) = 128 ^ (iters + 1) * 128 from pow_succ 128 (iters + 1)]
      have hpow7 : (2 : Nat) ^ (k + 7) = 2 ^ k * 128 := by
        rw [pow_add]
        norm_num
      by_cases hdiv : m / 128 < 128 ^ (iters + 1)
      · rw [if_pos hdiv, if_pos (hiff.mp hdiv)]
        have hval : acc + m % 128 * 2 ^ k + m / 128 * 2 ^ (k + 7) = acc + m * 2 ^ k := by
          rw [hpow7]
          have : m % 128 * 2 ^ k + m / 128 * (2 ^ k * 128) = m * 2 ^ k := by
            rw [show m / 128 * (2 ^ k * 128) = 128 * (m / 128) * 2 ^ k by ring]
            rw [← Nat.add_mul]
            congr 1
            omega
          omega
        rw [hval]
        have hlen : ((pre ++ [m % 128 + 128]).length : Int) + ((lebBytes (m / 128)).length : Int) =
            (pre.length : Int) + (((m % 128 + 128) :: lebBytes (m / 128)).length : Int) := by
          simp
          omega
        simp only [List.append_assoc, List.singleton_append]
        rw [show (pre ++ [m % 128 + 128]).length = pre.length + 1 by simp]
        simp
        omega
      · rw [if_neg hdiv, if_neg (fun hlt => hdiv (hiff.mpr hlt))]
        have hval : acc + m % 128 * 2 ^ k + m / 128 % 128 ^ (iters + 1) * 2 ^ (k + 7) =
            acc + m % 128 ^ (iters + 1 + 1) * 2 ^ k := by
          rw [hpow7]
          have hmm : m % 128 ^ (iters + 1 + 1) = m % 128 + 128 * (m / 128 % 128 ^ (iters + 1)) := by
            rw [show (128 : Nat) ^ (iters + 1 + 1) = 128 * 128 ^ (iters + 1) by rw [pow_succ]; ring]
            exact Nat.mod_mul
          rw [hmm]
          ring
        rw [hval]
        simp only [List.append_assoc, List.singleton_append]
        rw [show (pre ++ [m % 128 + 128]).length = pre.length + 1 by simp]
        simp
        omega

theorem readLongAux2_leb :
    ∀ (m fuel : Nat) (pre post : List Nat) (f0 kk : Nat),
      (lebBytes m).length ≤ fuel + 1 →
      f0 < 2 ^ kk →
      reprP 53 ((f0 + m * 2 ^ kk : Nat) : Int) →
      readLongAux2 fuel ⟨pre ++ lebBytes m ++ post, (pre.length : Int)⟩ (f0 : Int)
          ((2 : Int) ^ kk) =
        (((f0 + m * 2 ^ kk : Nat) : Int),
          ⟨pre ++ lebBytes m ++ post, (pre.length : Int) + (lebBytes m).length⟩) := by
  intro m
  induction m using Nat.strong_induction_on with
  | _ m ih =>
    intro fuel pre post f0 kk hfuel hf0 hrep
    by_cases hm : m < 128
    · have hleb : lebBytes m = [m] := by rw [lebBytes_unfold, if_pos hm]
      rw [hleb] at hfuel ⊢
      have hb : Tap.getByte ⟨pre ++ [m] ++ post, (pre.length : Int)⟩ = m := by
        have h1 : pre ++ [m] ++ post = pre ++ m :: post := by simp
        rw [h1]
        exact getByte_at pre m post _ rfl
      have hround : roundB64 ((f0 : Int) + ((m : Nat) : Int) % 128 * (2 : Int) ^ kk) =
          ((f0 + m * 2 ^ kk : Nat) : Int) := by
        have hmodInt : ((m : Nat) : Int) % 128 = ((m : Nat) : Int) := by omega
        rw [hmodInt]
        have hcast : (f0 : Int) + (m : Nat) * (2 : Int) ^ kk = ((f0 + m * 2 ^ kk : Nat) : Int) := by
          push_cast
          ring
        rw [hcast]
        exact roundPrec_eq_of_reprP 53 _ hrep
      cases fuel with
      | zero =>
        simp only [readLongAux2]
        rw [hb, hround]
        unfold Tap.bump
        simp
      | succ fuel =>
        simp only [readLongAux2]
        rw [hb, if_pos hm, hround]
        unfold Tap.bump
        simp
    · have hleb : lebBytes m = (m % 128 + 128) :: lebBytes (m / 128) := by
        rw [lebBytes_unfold, if_neg hm]
      obtain ⟨fu, rfl⟩ : ∃ fu, fuel = fu + 1 := by
        refine ⟨fuel - 1, ?_⟩
        rw [hleb] at hfuel
        have hne := lebBytes_ne_nil (m / 128)
        have : 1 ≤ (lebBytes (m / 128)).length := List.length_pos.mpr hne
        simp only [List.length_cons] at hfuel
        omega
      rw [hleb]
      have hb : Tap.getByte ⟨pre ++ ((m % 128 + 128) :: lebBytes (m / 128)) ++ post,
          (pre.length : Int)⟩ = m % 128 + 128 := by
        have h1 : pre ++ ((m % 128 + 128) :: lebBytes (m / 128)) ++ post =
            pre ++ (m % 128 + 128) :: (lebBytes (m / 128) ++ post) := by simp
        rw [h1]
        exact getByte_at pre _ _ _ rfl
      simp only [readLongAux2]
      rw [hb, if_neg (by omega)]
      have hmod : ((m % 128 + 128 : Nat) : Int) % 128 = ((m % 128 : Nat) : Int) := by omega
      rw [hmod]
      have hbump : Tap.bump ⟨pre ++ ((m % 128 + 128) :: lebBytes (m / 128)) ++ post,
          (pre.length : Int)⟩ =
          ⟨(pre ++ [m % 128 + 128]) ++ lebBytes (m / 128) ++ post,
            (((pre ++ [m % 128 + 128]).length : Nat) : Int)⟩ := by
        unfold Tap.bump
        simp
      rw [hbump]
      -- the partial sum is the low bits of the total and hence rounds to itself
      have hpow7 : (2 : Nat) ^ (kk + 7) = 2 ^ kk * 128 := by
        rw [pow_add]
        norm_num
      have hf1lt : f0 + m % 128 * 2 ^ kk < 2 ^ (kk + 7) := by
        have h1 : m % 128 < 128 := Nat.mod_lt _ (by omega)
        have h2 : m % 128 * 2 ^ kk ≤ 127 * 2 ^ kk := Nat.mul_le_mul_right _ (by omega)
        rw [hpow7]
        have : (0 : Nat) < 2 ^ kk := pow_pos (by omega) kk
        nlinarith
      have htotal : f0 + m * 2 ^ kk =
          (f0 + m % 128 * 2 ^ kk) + (m / 128) * 2 ^ (kk + 7) := by
        rw [hpow7]
        have : m * 2 ^ kk = (m % 128) * 2 ^ kk + (m / 128) * (2 ^ kk * 128) := by
          rw [show m / 128 * (2 ^ kk * 128) = 128 * (m / 128) * 2 ^ kk by ring]
          rw [← Nat.add_mul]
          congr 1
          omega
        omega
      have hlow : (f0 + m * 2 ^ kk) % 2 ^ (kk + 7) = f0 + m % 128 * 2 ^ kk := by
        rw [htotal, Nat.add_mul_mod_self_right]
        exact Nat.mod_eq_of_lt hf1lt
      have hrep1 : reprP 53 ((f0 + m % 128 * 2 ^ kk : Nat) : Int) := by
        rw [← hlow]
        exact reprP_mod_pow2 53 (kk + 7) _ hrep
      have hround : roundB64 ((f0 : Int) + ((m % 128 : Nat) : Int) * (2 : Int) ^ kk) =
          ((f0 + m % 128 * 2 ^ kk : Nat) : Int) := by
        have hcast : (f0 : Int) + ((m % 128 : Nat) : Int) * (2 : Int) ^ kk =
            ((f0 + m % 128 * 2 ^ kk : Nat) : Int) := by
          push_cast
          ring
        rw [hcast]
        exact roundPrec_eq_of_reprP 53 _ hrep1
      rw [hround]
      have hfk : (2 : Int) ^ kk * 128 = (2 : Int) ^ (kk + 7) := by
        rw [pow_add]
        norm_num
      rw [hfk]
      have hcast2 : ((f0 + m % 128 * 2 ^ kk : Nat) : Int) =
          (((f0 + m % 128 * 2 ^ kk : Nat) : Nat) : Int) := rfl
      rw [ih (m / 128) (by omega) fu (pre ++ [m % 128 + 128]) post
        (f0 + m % 128 * 2 ^ kk) (kk + 7)
        (by rw [hleb] at hfuel; simp only [List.length_cons] at hfuel; omega)
        hf1lt
        (by rw [← htotal]; exact hrep)]
      rw [← htotal]
      simp only [List.append_assoc, List.singleton_append]
      rw [show (pre ++ [m % 128 + 128]).length = pre.length + 1 by simp]
      have hposeq : (((pre.length + 1 : Nat) : Int)) + ((lebBytes (m / 128)).length : Int) =
          (pre.length : Int) + ((((m % 128 + 128) :: lebBytes (m / 128)).length : Nat) : Int) := by
        simp only [List.length_cons]
        push_cast
        ring
      rw [hposeq]

theorem readLong_leb (m : Nat) (pre post : List Nat) (hrep : reprP 53 ((m : Nat) : Int)) :
    Tap.readLong ⟨pre ++ lebBytes m ++ post, (pre.length : Int)⟩ =
      (unzig m, ⟨pre ++ lebBytes m ++ post, (pre.length : Int) + (lebBytes m).length⟩) := by
  unfold Tap.readLong
  rw [readLongAux1_leb 3 m pre post 0 0]
  by_cases hm : m < 128 ^ 4
  · rw [if_pos hm]
    simp
  · rw [if_neg hm]
    have h0 : ¬m < 128 := by
      have : (128 : Nat) ≤ 128 ^ 4 := by norm_num
      omega
    have h1 : ¬m / 128 < 128 := by
      rw [Nat.div_lt_iff_lt_mul (by omega)]
      have : (128 : Nat) * 128 ≤ 128 ^ 4 := by norm_num
      omega
    have h2 : ¬m / 128 / 128 < 128 := by
      rw [Nat.div_lt_iff_lt_mul (by omega), Nat.div_lt_iff_lt_mul (by omega)]
      have : (128 : Nat) * 128 * 128 ≤ 128 ^ 4 := by norm_num
      omega
    have h3 : ¬m / 128 / 128 / 128 < 128 := by
      rw [Nat.div_lt_iff_lt_mul (by omega), Nat.div_lt_iff_lt_mul (by omega),
        Nat.div_lt_iff_lt_mul (by omega)]
      have heq : (128 : Nat) * 128 * 128 * 128 = 128 ^ 4 := by norm_num
      omega
    have hd : lebBytes m = (m % 128 + 128) :: (m / 128 % 128 + 128) ::
        (m / 128 / 128 % 128 + 128) :: (m / 128 / 128 / 128 % 128 + 128) ::
        lebBytes (m / 128 / 128 / 128 / 128) := by
      rw [lebBytes_unfold, if_neg h0]
      congr 1
      rw [lebBytes_unfold, if_neg h1]
      congr 1
      rw [lebBytes_unfold, if_neg h2]
      congr 1
      rw [lebBytes_unfold, if_neg h3]
    have hm4 : m / 128 / 128 / 128 / 128 = m / 2 ^ 28 := by
      rw [Nat.div_div_eq_div_mul, Nat.div_div_eq_div_mul, Nat.div_div_eq_div_mul]
      norm_num
    have h1284 : (128 : Nat) ^ 4 = 2 ^ 28 := by norm_num
    set pre4 := pre ++ [m % 128 + 128, m / 128 % 128 + 128, m / 128 / 128 % 128 + 128,
      m / 128 / 128 / 128 % 128 + 128] with hpre4
    have hbuf : pre ++ lebBytes m ++ post = pre4 ++ lebBytes (m / 2 ^ 28) ++ post := by
      rw [hd, hm4, hpre4]
      simp
    simp only []
    rw [hbuf]
    have hlen4 : (pre.length : Int) + (((3 : Nat) : Int) + 1) = (pre4.length : Int) := by
      rw [hpre4]
      simp only [List.length_append, List.length_cons, List.length_nil]
      push_cast
      ring
    rw [hlen4]
    have hval0 : (0 + m % 128 ^ (3 + 1) * 2 ^ 0 : Nat) = m % 2 ^ 28 := by
      rw [← h1284]
      norm_num
    rw [hval0]
    have hfuel : (lebBytes (m / 2 ^ 28)).length ≤
        contFuel ⟨pre4 ++ lebBytes (m / 2 ^ 28) ++ post, (pre4.length : Int)⟩ + 1 := by
      unfold contFuel
      simp only []
      have hlena : ((pre4 ++ lebBytes (m / 2 ^ 28) ++ post).length : Int) =
          (pre4.length : Int) + (lebBytes (m / 2 ^ 28)).length + post.length := by
        simp
        ring
      omega
    have hrep28 : reprP 53 ((m % 2 ^ 28 + m / 2 ^ 28 * 2 ^ 28 : Nat) : Int) := by
      rw [Nat.mod_add_div']
      exact hrep
    rw [show ((2 : Int) ^ 28) = (2 : Int) ^ (28 : Nat) from rfl]
    rw [readLongAux2_leb (m / 2 ^ 28)
      (contFuel ⟨pre4 ++ lebBytes (m / 2 ^ 28) ++ post, (pre4.length : Int)⟩)
      pre4 post (m % 2 ^ 28) 28 hfuel (Nat.mod_lt _ (by norm_num)) hrep28]
    have hsum : m % 2 ^ 28 + m / 2 ^ 28 * 2 ^ 28 = m := Nat.mod_add_div' m (2 ^ 28)
    rw [hsum, unzigF_eq_unzig m hrep]
    have hlentot : (pre4.length : Int) + ((lebBytes (m / 2 ^ 28)).length : Int) =
        (pre.length : Int) + ((lebBytes m).length : Int) := by
      rw [hd, hm4, hpre4]
      simp only [List.length_cons, List.length_append, List.length_nil]
      push_cast
      ring
    rw [hlentot, ← hbuf]

theorem readLong_zig (n : Int) (pre post : List Nat) (hex : zigExact n = true) :
    Tap.readLong ⟨pre ++ lebBytes (zig n) ++ post, (pre.length : Int)⟩ =
      (n, ⟨pre ++ lebBytes (zig n) ++ post,
        (pre.length : Int) + (lebBytes (zig n)).length⟩) := by
  rw [readLong_leb (zig n) pre post (zigExact_spec n hex), unzig_zig]

/-! UTF-8 round trip on scalar strings. -/

theorem utf8Dec_enc : ∀ (s : Str), strOk s → utf8Dec (utf8Enc s) = some s := by
  intro s
  induction s with
  | nil => intro _; rfl
  | cons c rest ih =>
    intro hok
    have hc : scalarOk c := hok c (List.mem_cons_self c rest)
    obtain ⟨hlt, hsurr⟩ := hc
    have hrest : utf8Dec (utf8Enc rest) = some rest :=
      ih (fun x hx => hok x (List.mem_cons_of_mem c hx))
    show utf8Dec (utf8Char c ++ utf8Enc rest) = some (c :: rest)
    unfold utf8Char
    by_cases h1 : c < 0x80
    · rw [if_pos h1]
      simp only [List.cons_append, List.nil_append]
      simp only [utf8Dec]
      rw [if_pos h1, hrest]
    · rw [if_neg h1]
      by_cases h2 : c < 0x800
      · rw [if_pos h2]
        simp only [List.cons_append, List.nil_append]
        simp only [utf8Dec]
        rw [if_neg (by omega), if_neg (by omega), if_pos (by omega)]
        simp only [utf8Dec2]
        rw [if_pos (by constructor <;> omega)]
        have hcval : (c / 64 + 0xc0 - 0xc0) * 64 + (c % 64 + 0x80 - 0x80) = c := by omega
        rw [hcval, if_neg (by omega), hrest]
      · by_cases h3 : c < 0x10000
        · rw [if_neg h2, if_pos h3]
          simp only [List.cons_append, List.nil_append]
          simp only [utf8Dec]
          rw [if_neg (by omega), if_neg (by omega), if_neg (by omega), if_pos (by omega)]
          simp only [utf8Dec3]
          rw [if_pos (by refine ⟨⟨?_, ?_⟩, ?_, ?_⟩ <;> omega)]
          have hcval : (c / 4096 + 0xe0 - 0xe0) * 4096 + (c / 64 % 64 + 0x80 - 0x80) * 64 +
              (c % 64 + 0x80 - 0x80) = c := by omega
          rw [hcval, if_neg (by omega), hrest]
        · rw [if_neg h2, if_neg h3]
          simp only [List.cons_append, List.nil_append]
          simp only [utf8Dec]
          rw [if_neg (by omega), if_neg (by omega), if_neg (by omega), if_neg (by omega),
            if_pos (by omega)]
          simp only [utf8Dec4]
          rw [if_pos (by refine ⟨⟨?_, ?_⟩, ⟨?_, ?_⟩, ?_, ?_⟩ <;> omega)]
          have hcval : (c / 262144 + 0xf0 - 0xf0) * 262144 + (c / 4096 % 64 + 0x80 - 0x80) * 4096 +
              (c / 64 % 64 + 0x80 - 0x80) * 64 + (c % 64 + 0x80 - 0x80) = c := by omega
          rw [hcval, if_neg (by omega), hrest]

theorem utf8Enc_lt_256 : ∀ (s : Str), strOk s → ∀ b ∈ utf8Enc s, b < 256 := by
  intro s
  induction s with
  | nil => intro _ b hb; simp [utf8Enc] at hb
  | cons c rest ih =>
    intro hok b hb
    obtain ⟨hlt, _⟩ := hok c (List.mem_cons_self c rest)
    have hsplit : utf8Enc (c :: rest) = utf8Char c ++ utf8Enc rest := rfl
    rw [hsplit, List.mem_append] at hb
    rcases hb with hb | hb
    · unfold utf8Char at hb
      split at hb
      · simp at hb; omega
      · split at hb
        · simp at hb
          rcases hb with h | h <;> omega
        · split at hb
          · simp at hb
            rcases hb with h | h | h <;> omega
          · simp at hb
            rcases hb with h | h | h | h <;> omega
    · exact ih (fun x hx => hok x (List.mem_cons_of_mem c hx)) b hb

/-! IEEE-754 bit-pattern round trip for exactly representable integers. -/

theorem decFloatBits_enc (mb eb bias : Nat) (n : Int)
    (hmb : 1 ≤ mb) (heb : 1 ≤ eb) (hbias : 1 ≤ bias)
    (hrep : reprP (mb + 1) n)
    (hrange : bitLen n.natAbs ≤ 2 ^ eb - 1 - bias) :
    decFloatBits mb eb bias (encFloatBits mb eb bias n) = some n := by
  have heb2 : (2 : Nat) ≤ 2 ^ eb := by
    calc (2 : Nat) = 2 ^ 1 := by norm_num
    _ ≤ 2 ^ eb := Nat.pow_le_pow_right (by omega) heb
  by_cases hn0 : n = 0
  · subst hn0
    have h1 : encFloatBits mb eb bias 0 = 0 := by simp [encFloatBits]
    rw [h1]
    simp only [decFloatBits, Nat.zero_mod, Nat.zero_div]
    have hne : ¬((0 : Nat) = 2 ^ eb - 1) := by omega
    simp [hne]
  · have ha0 : n.natAbs ≠ 0 := by omega
    have hL1 : 1 ≤ bitLen n.natAbs := bitLen_pos _ ha0
    have hLa := bitLen_upper n.natAbs
    have hLl := bitLen_lower n.natAbs ha0
    simp only [encFloatBits, if_neg hn0]
    have hnosat : ¬(2 ^ eb - 1 ≤ bias + bitLen n.natAbs - 1) := by omega
    rw [if_neg hnosat]
    -- name the three fields and isolate them from the packed word
    have main : ∀ frac : Nat, frac < 2 ^ mb →
        (mb + 1 ≤ bitLen n.natAbs → 2 ^ mb + frac = n.natAbs / 2 ^ (bitLen n.natAbs - (mb + 1))) →
        (bitLen n.natAbs ≤ mb + 1 → 2 ^ mb + frac = n.natAbs * 2 ^ (mb + 1 - bitLen n.natAbs)) →
        decFloatBits mb eb bias
          ((if n < 0 then 1 else 0) * 2 ^ (mb + eb) + (bias + bitLen n.natAbs - 1) * 2 ^ mb +
            frac) = some n := by
      intro frac hfrac hvhigh hvlow
      set a := n.natAbs with hadef
      set L := bitLen a with hLdef
      set s : Nat := if n < 0 then 1 else 0 with hsdef
      set E := bias + L - 1 with hEdef
      have hs1 : s ≤ 1 := by
        rw [hsdef]
        split <;> omega
      have hE1 : 1 ≤ E := by omega
      have hElt : E < 2 ^ eb - 1 := by omega
      simp only [decFloatBits]
      have hsplit : s * 2 ^ (mb + eb) + E * 2 ^ mb + frac =
          (s * 2 ^ eb + E) * 2 ^ mb + frac := by
        rw [Nat.pow_add]
        ring
      rw [hsplit]
      have hfield1 : ((s * 2 ^ eb + E) * 2 ^ mb + frac) % 2 ^ mb = frac := by
        rw [Nat.mul_comm (s * 2 ^ eb + E) (2 ^ mb), Nat.mul_add_mod]
        exact Nat.mod_eq_of_lt hfrac
      have hfield2 : ((s * 2 ^ eb + E) * 2 ^ mb + frac) / 2 ^ mb = s * 2 ^ eb + E := by
        rw [Nat.mul_comm (s * 2 ^ eb + E) (2 ^ mb), Nat.mul_add_div (pow_pos (by omega) mb)]
        rw [Nat.div_eq_of_lt hfrac, Nat.add_zero]
      have hfield3 : (s * 2 ^ eb + E) % 2 ^ eb = E := by
        rw [Nat.mul_comm s (2 ^ eb), Nat.mul_add_mod]
        exact Nat.mod_eq_of_lt (by omega)
      have hfield4 : ((s * 2 ^ eb + E) * 2 ^ mb + frac) / 2 ^ (mb + eb) % 2 = s := by
        have h1 : (s * 2 ^ eb + E) * 2 ^ mb + frac = s * 2 ^ (mb + eb) + (E * 2 ^ mb + frac) := by
          rw [Nat.pow_add]
          ring
        rw [h1]
        have h2 : E * 2 ^ mb + frac < 2 ^ (mb + eb) := by
          have h3 : E * 2 ^ mb ≤ (2 ^ eb - 2) * 2 ^ mb := Nat.mul_le_mul_right _ (by omega)
          have h4 : (2 ^ eb - 2) * 2 ^ mb + 2 ^ mb ≤ 2 ^ (mb + eb) := by
            have : (2 ^ eb - 2) * 2 ^ mb + 2 ^ mb = (2 ^ eb - 1) * 2 ^ mb := by
              have h5 : 2 * 2 ^ mb ≤ 2 ^ eb * 2 ^ mb := Nat.mul_le_mul_right _ heb2
              rw [Nat.sub_mul, Nat.sub_mul]
              omega
            rw [this, Nat.pow_add]
            calc (2 ^ eb - 1) * 2 ^ mb ≤ 2 ^ eb * 2 ^ mb := Nat.mul_le_mul_right _ (by omega)
            _ = 2 ^ mb * 2 ^ eb := by ring
          omega
        rw [Nat.mul_comm s (2 ^ (mb + eb)), Nat.mul_add_div (pow_pos (by omega) _),
          Nat.div_eq_of_lt h2, Nat.add_zero]
        exact Nat.mod_eq_of_lt (by omega)
      rw [hfield1, hfield2, hfield3, hfield4]
      rw [if_neg (by omega), if_neg (by omega)]
      have hsign : (if s = 1 then (-1 : Int) else 1) = (if n < 0 then (-1 : Int) else 1) := by
        rw [hsdef]
        by_cases hn : n < 0
        · rw [if_pos hn, if_pos rfl, if_pos hn]
        · rw [if_neg hn, if_neg (by omega), if_neg hn]
      rw [hsign]
      by_cases hEd : bias + mb ≤ E
      · rw [if_pos hEd]
        -- normal high case: L ≥ mb + 1
        have hLge : mb + 1 ≤ L := by omega
        have hEexp : E - bias - mb = L - (mb + 1) := by omega
        have hvh := hvhigh hLge
        rw [hEexp, hvh]
        -- (2^mb + frac) * 2^(L - (mb+1)) = a
        obtain ⟨c, e, habs, hc⟩ := hrep
        have hceq : a = c * 2 ^ e := habs
        have hc0 : c ≠ 0 := by
          intro h0
          rw [h0, Nat.zero_mul] at hceq
          exact ha0 hceq
        have hbl : L = bitLen c + e := by
          rw [hLdef, hadef, habs]
          exact bitLen_mul_pow2 c e hc0
        have hde : L - (mb + 1) ≤ e := by
          have : bitLen c ≤ mb + 1 := (bitLen_le_iff c (mb + 1)).mpr hc
          omega
        have hdvd : 2 ^ (L - (mb + 1)) ∣ a := by
          rw [hceq]
          exact dvd_mul_of_dvd_right (pow_dvd_pow 2 hde) c
        have hback : a / 2 ^ (L - (mb + 1)) * 2 ^ (L - (mb + 1)) = a := Nat.div_mul_cancel hdvd
        rw [hback]
        simp only [Option.some.injEq]
        by_cases hn : n < 0
        · rw [if_pos hn]
          omega
        · rw [if_neg hn]
          omega
      · rw [if_neg hEd]
        -- low case: L ≤ mb, pure left shift, divides exactly
        have hLlt : L < mb + 1 := by omega
        have hEexp : bias + mb - E = mb + 1 - L := by omega
        have hlow := hvlow (by omega)
        rw [hEexp, hlow]
        have hmodz : a * 2 ^ (mb + 1 - L) % 2 ^ (mb + 1 - L) = 0 := Nat.mul_mod_left _ _
        rw [if_pos hmodz]
        rw [Nat.mul_div_cancel _ (pow_pos (by omega) _)]
        simp only [Option.some.injEq]
        by_cases hn : n < 0
        · rw [if_pos hn]
          omega
        · rw [if_neg hn]
          omega
    by_cases hLmb : bitLen n.natAbs ≤ mb + 1
    · rw [if_pos hLmb]
      have hflow : 2 ^ mb ≤ n.natAbs * 2 ^ (mb + 1 - bitLen n.natAbs) := by
        calc (2 : Nat) ^ mb = 2 ^ (bitLen n.natAbs - 1) * 2 ^ (mb + 1 - bitLen n.natAbs) := by
              rw [← Nat.pow_add]
              congr 1
              omega
        _ ≤ n.natAbs * 2 ^ (mb + 1 - bitLen n.natAbs) := Nat.mul_le_mul_right _ hLl
      have hfhigh : n.natAbs * 2 ^ (mb + 1 - bitLen n.natAbs) < 2 ^ (mb + 1) := by
        calc n.natAbs * 2 ^ (mb + 1 - bitLen n.natAbs) <
              2 ^ bitLen n.natAbs * 2 ^ (mb + 1 - bitLen n.natAbs) :=
              Nat.mul_lt_mul_of_lt_of_le hLa (Nat.le_refl _) (pow_pos (by omega) _)
        _ = 2 ^ (mb + 1) := by
              rw [← Nat.pow_add]
              congr 1
              omega
      refine main _ (by
        have h2m : (2 : Nat) ^ (mb + 1) = 2 ^ mb + 2 ^ mb := by ring
        omega) (fun hge => ?_) (fun _ => by omega)
      · have hLeq : bitLen n.natAbs = mb + 1 := by omega
        have hge2 : 2 ^ mb ≤ n.natAbs := by
          have h3 := hLl
          rw [hLeq] at h3
          have h4 : mb + 1 - 1 = mb := by omega
          rw [h4] at h3
          exact h3
        rw [hLeq]
        simp only [Nat.sub_self, pow_zero, Nat.mul_one, Nat.div_one]
        omega
    · rw [if_neg hLmb]
      obtain ⟨c, e, habs, hc⟩ := hrep
      have hc0 : c ≠ 0 := by
        intro h0
        rw [h0, Nat.zero_mul] at habs
        exact ha0 habs
      have hbl : bitLen n.natAbs = bitLen c + e := by
        rw [habs]
        exact bitLen_mul_pow2 c e hc0
      have hde : bitLen n.natAbs - (mb + 1) ≤ e := by
        have : bitLen c ≤ mb + 1 := (bitLen_le_iff c (mb + 1)).mpr hc
        omega
      have hdvd : 2 ^ (bitLen n.natAbs - (mb + 1)) ∣ n.natAbs := by
        have h1 : (2 : Nat) ^ (bitLen n.natAbs - (mb + 1)) ∣ c * 2 ^ e :=
          dvd_trans (pow_dvd_pow 2 hde) (dvd_mul_left _ _)
        rw [← habs] at h1
        exact h1
      have hqlow : 2 ^ mb ≤ n.natAbs / 2 ^ (bitLen n.natAbs - (mb + 1)) := by
        have h1 : 2 ^ mb * 2 ^ (bitLen n.natAbs - (mb + 1)) ≤ n.natAbs := by
          rw [← Nat.pow_add]
          have : mb + (bitLen n.natAbs - (mb + 1)) = bitLen n.natAbs - 1 := by omega
          rw [this]
          exact hLl
        exact Nat.le_div_iff_mul_le (pow_pos (by omega) _) |>.mpr h1
      have hqhigh : n.natAbs / 2 ^ (bitLen n.natAbs - (mb + 1)) < 2 ^ (mb + 1) := by
        rw [Nat.div_lt_iff_lt_mul (pow_pos (by omega) _), ← Nat.pow_add]
        have : mb + 1 + (bitLen n.natAbs - (mb + 1)) = bitLen n.natAbs := by omega
        rw [this]
        exact hLa
      refine main _ (by
        have h2m : (2 : Nat) ^ (mb + 1) = 2 ^ mb + 2 ^ mb := by ring
        omega) (fun _ => by omega) (fun hcontra => absurd hcontra hLmb)

/-! Helpers toward the round-trip theorem: resolution algebra, lookup
algebra, monotone value equivalence, and numeric side conditions. -/

theorem resolveS_idem (env : SEnv) (s : Schema) :
    resolveS env (resolveS env s) = resolveS env s := by
  cases s with
  | sRef n =>
    simp only [resolveS]
    cases h : kvLookup n env with
    | none => simp only [resolveS, h]
    | some d => cases d <;> simp only [resolveS]
  | _ => rfl

theorem kvLookup_mem {α : Type} (k : Str) (v : α) :
    ∀ l : List (Str × α), kvLookup k l = some v → (k, v) ∈ l := by
  intro l
  induction l with
  | nil => intro h; exact Option.noConfusion h
  | cons p rest ih =>
    obtain ⟨k1, v1⟩ := p
    intro h
    simp only [kvLookup] at h
    by_cases hk : k1 = k
    · rw [if_pos hk] at h
      injection h with hv
      subst hk
      subst hv
      exact List.mem_cons_self _ _
    · rw [if_neg hk] at h
      exact List.mem_cons_of_mem _ (ih h)

theorem kvLookup_of_mem_nodup {α : Type} :
    ∀ (l : List (Str × α)) (k : Str) (v : α), (l.map Prod.fst).Nodup → (k, v) ∈ l →
      kvLookup k l = some v := by
  intro l
  induction l with
  | nil => intro k v _ h; exact absurd h (List.not_mem_nil _)
  | cons p rest ih =>
    intro k v hnd hmem
    obtain ⟨k1, v1⟩ := p
    simp only [List.map_cons, List.nodup_cons] at hnd
    obtain ⟨hk1, hnd1⟩ := hnd
    rcases List.mem_cons.mp hmem with heq | hmem1
    · rw [Prod.mk.injEq] at heq
      obtain ⟨h1, h2⟩ := heq
      subst h1
      subst h2
      simp [kvLookup]
    · have hne : k1 ≠ k := by
        intro hkk
        subst hkk
        exact hk1 (List.mem_map_of_mem Prod.fst hmem1)
      simp only [kvLookup, if_neg hne]
      exact ih k v hnd1 hmem1

theorem wfS_resolve (env : SEnv) (s : Schema) (hwf : wfEnv env) (hs : wfS env s) :
    wfS env (resolveS env s) := by
  cases s with
  | sRef n =>
    simp only [wfS] at hs
    simp only [resolveS]
    cases h : kvLookup n env with
    | none => rw [h] at hs; exact absurd hs (by simp)
    | some d =>
      have hmem := kvLookup_mem n d env h
      have := hwf.2 (n, d) hmem
      cases d <;> simpa [ndToSchema] using this
  | _ => simpa [resolveS] using hs

theorem resolveS_nonref (env : SEnv) (s : Schema) (hs : wfS env s) :
    ∀ m, resolveS env s ≠ .sRef m := by
  intro m
  cases s with
  | sRef n =>
    simp only [wfS] at hs
    simp only [resolveS]
    cases h : kvLookup n env with
    | none => rw [h] at hs; exact absurd hs (by simp)
    | some d => cases d <;> simp
  | _ => simp [resolveS]

theorem matchSchemas_resolve (env : SEnv) (w r : Schema) :
    matchSchemas env (resolveS env w) (resolveS env r) = matchSchemas env w r := by
  simp only [matchSchemas, resolveS_idem]

theorem matchSchemas_refl (env : SEnv) (s : Schema) (h : ∀ m, resolveS env s ≠ .sRef m) :
    matchSchemas env s s = true := by
  simp only [matchSchemas]
  cases hs : resolveS env s <;>
    first
      | exact absurd hs (h _)
      | simp [isUnionKind, isPrim, typeName]

/-! Fuel monotonicity of the value-equivalence test. -/

theorem jsEquiv_mono_all : ∀ fuel fuel', fuel ≤ fuel' →
    (∀ a b, jsEquiv fuel a b = true → jsEquiv fuel' a b = true) ∧
    (∀ xs ys, jsEquivList fuel xs ys = true → jsEquivList fuel' xs ys = true) ∧
    (∀ xs ys, jsEquivEntries fuel xs ys = true → jsEquivEntries fuel' xs ys = true) := by
  intro fuel
  induction fuel with
  | zero =>
    intro fuel' _
    refine ⟨?_, ?_, ?_⟩ <;> intro a b h <;> exact Bool.noConfusion h
  | succ fuel ih =>
    intro fuel' hle
    obtain ⟨fuel2, rfl⟩ : ∃ k, fuel' = k + 1 := ⟨fuel' - 1, by omega⟩
    have hle2 : fuel ≤ fuel2 := by omega
    obtain ⟨ihv, ihl, ihe⟩ := ih fuel2 hle2
    refine ⟨?_, ?_, ?_⟩
    · intro a b h
      cases a <;> cases b <;> simp only [jsEquiv] at h ⊢ <;>
        first
          | exact Bool.noConfusion h
          | exact h
          | exact ihl _ _ h
          | (rw [Bool.and_eq_true, Bool.and_eq_true] at h
             rw [Bool.and_eq_true, Bool.and_eq_true]
             exact ⟨⟨h.1.1, h.1.2⟩, ihe _ _ h.2⟩)
    · intro xs ys h
      cases xs <;> cases ys <;> simp only [jsEquivList] at h ⊢ <;>
        first
          | exact Bool.noConfusion h
          | exact h
          | (rw [Bool.and_eq_true] at h
             rw [Bool.and_eq_true]
             exact ⟨ihv _ _ h.1, ihl _ _ h.2⟩)
    · intro xs ys h
      cases xs with
      | nil => simp only [jsEquivEntries]
      | cons kv rest =>
        obtain ⟨k0, v0⟩ := kv
        simp only [jsEquivEntries] at h ⊢
        rw [Bool.and_eq_true] at h
        obtain ⟨h1, h2⟩ := h
        rw [Bool.and_eq_true]
        refine ⟨?_, ihe _ _ h2⟩
        cases hkl : kvLookup k0 ys with
        | some w =>
          rw [hkl] at h1
          exact ihv _ _ h1
        | none =>
          rw [hkl] at h1
          exact Bool.noConfusion h1

theorem jsEquiv_mono {g g' : Nat} (h : g ≤ g') (a b : Value)
    (he : jsEquiv g a b = true) : jsEquiv g' a b = true :=
  (jsEquiv_mono_all g g' h).1 a b he

theorem jsEquivList_mono {g g' : Nat} (h : g ≤ g') (xs ys : List Value)
    (he : jsEquivList g xs ys = true) : jsEquivList g' xs ys = true :=
  (jsEquiv_mono_all g g' h).2.1 xs ys he

theorem jsEquivEntries_mono {g g' : Nat} (h : g ≤ g') (xs ys : List (Str × Value))
    (he : jsEquivEntries g xs ys = true) : jsEquivEntries g' xs ys = true :=
  (jsEquiv_mono_all g g' h).2.2 xs ys he

theorem jsEquivEntries_fresh (k : Str) (w : Value) :
    ∀ (xs : List (Str × Value)) (g : Nat) (ys : List (Str × Value)),
      (∀ kv ∈ xs, kv.1 ≠ k) →
      jsEquivEntries g xs ((k, w) :: ys) = jsEquivEntries g xs ys := by
  intro xs
  induction xs with
  | nil => intro g ys _; cases g <;> rfl
  | cons kv rest ih =>
    intro g ys hfresh
    cases g with
    | zero => rfl
    | succ g =>
      simp only [jsEquivEntries]
      have hk : kvLookup kv.1 ((k, w) :: ys) = kvLookup kv.1 ys := by
        simp only [kvLookup]
        rw [if_neg (fun hh => (hfresh kv (List.mem_cons_self kv rest)) hh.symm)]
      rw [hk, ih g ys (fun kv2 h2 => hfresh kv2 (List.mem_cons_of_mem kv h2))]

theorem kvInsert_fresh {α : Type} (k : Str) (v : α) :
    ∀ l : List (Str × α), kvLookup k l = none → kvInsert k v l = l ++ [(k, v)] := by
  intro l
  induction l with
  | nil => intro _; rfl
  | cons p rest ih =>
    obtain ⟨k1, v1⟩ := p
    intro h
    simp only [kvLookup] at h
    by_cases hk : k1 = k
    · rw [if_pos hk] at h
      exact Option.noConfusion h
    · rw [if_neg hk] at h
      simp only [kvInsert, if_neg hk]
      rw [ih h]
      rfl

theorem kvLookup_none_iff {α : Type} :
    ∀ (l : List (Str × α)) (k : Str), kvLookup k l = none ↔ ∀ p ∈ l, p.1 ≠ k := by
  intro l
  induction l with
  | nil => intro k; simp [kvLookup]
  | cons p rest ih =>
    intro k
    obtain ⟨k1, v1⟩ := p
    simp only [kvLookup]
    by_cases hk : k1 = k
    · rw [if_pos hk]
      simp only [List.mem_cons]
      constructor
      · intro h; exact Option.noConfusion h
      · intro h; exact absurd hk (h (k1, v1) (Or.inl rfl))
    · rw [if_neg hk]
      rw [ih k]
      simp only [List.mem_cons]
      constructor
      · intro h p hp
        rcases hp with heq | hmem
        · subst heq; exact hk
        · exact h p hmem
      · intro h p hp
        exact h p (Or.inr hp)

theorem lookupFieldDict_none :
    ∀ (l : List SField) (n : Str), (∀ g ∈ l, g.fname ≠ n) → lookupFieldDict n l = none := by
  intro l
  induction l with
  | nil => intro n _; rfl
  | cons f rest ih =>
    intro n hall
    simp only [lookupFieldDict]
    rw [ih n (fun g hg => hall g (List.mem_cons_of_mem f hg))]
    rw [if_neg (hall f (List.mem_cons_self f rest))]

theorem lookupFieldDict_self :
    ∀ (l : List SField) (f : SField), (l.map SField.fname).Nodup → f ∈ l →
      lookupFieldDict f.fname l = some f := by
  intro l
  induction l with
  | nil => intro f _ h; exact absurd h (List.not_mem_nil _)
  | cons g rest ih =>
    intro f hnd hmem
    simp only [List.map_cons, List.nodup_cons] at hnd
    obtain ⟨hg, hnd1⟩ := hnd
    simp only [lookupFieldDict]
    rcases List.mem_cons.mp hmem with heq | hmem1
    · subst heq
      rw [lookupFieldDict_none rest f.fname
        (fun g2 hg2 hne => hg (hne ▸ List.mem_map_of_mem SField.fname hg2))]
      rw [if_pos rfl]
    · rw [ih f hnd1 hmem1]

/-! Numeric side conditions of the varint path. -/

theorem zig_le (n : Int) : zig n ≤ 2 * n.natAbs := by
  unfold zig
  by_cases h : 0 ≤ n
  · rw [if_pos h]; omega
  · rw [if_neg h]; omega

theorem zigExact_of_small (n : Int) (h : n.natAbs ≤ 2 ^ 51) : zigExact n = true := by
  have h1 : zig n ≤ 2 * n.natAbs := zig_le n
  have h2 : ((zig n : Nat) : Int).natAbs < 2 ^ 53 := by
    simp only [Int.natAbs_ofNat]
    have h3 : (2 : Nat) * 2 ^ 51 < 2 ^ 53 := by norm_num
    omega
  have hrep : reprP 53 ((zig n : Nat) : Int) := reprP_of_lt 53 _ h2
  simp only [zigExact, roundB64, decide_eq_true_eq]
  exact roundPrec_eq_of_reprP 53 _ hrep

theorem readLong_zigJs (n : Int) (pre post : List Nat) (hex : zigExact n = true) :
    Tap.readLong ⟨pre ++ lebBytes (zigJs n) ++ post, (pre.length : Int)⟩ =
      (n, ⟨pre ++ lebBytes (zigJs n) ++ post,
        (pre.length : Int) + ((lebBytes (zigJs n)).length : Int)⟩) := by
  rw [zigJs_eq_zig n (zigExact_spec n hex)]
  exact readLong_zig n pre post hex

theorem toBytesLE_length : ∀ k v, (toBytesLE k v).length = k := by
  intro k
  induction k with
  | zero => intro v; rfl
  | succ k ih => intro v; simp only [toBytesLE, List.length_cons, ih]

theorem fromBytesLE_toBytesLE : ∀ k v, v < 2 ^ (8 * k) → fromBytesLE (toBytesLE k v) = v := by
  intro k
  induction k with
  | zero =>
    intro v hv
    have hz : v = 0 := by
      have : v < 1 := by simpa using hv
      omega
    subst hz
    rfl
  | succ k ih =>
    intro v hv
    simp only [toBytesLE, fromBytesLE]
    have hdiv : v / 256 < 2 ^ (8 * k) := by
      rw [Nat.div_lt_iff_lt_mul (by norm_num)]
      have hp : 2 ^ (8 * (k + 1)) = 2 ^ (8 * k) * 256 := by
        have h8 : 8 * (k + 1) = 8 * k + 8 := by ring
        rw [h8, Nat.pow_add]
      omega
    rw [ih _ hdiv]
    omega

theorem encFloatBits_lt (mb eb bias : Nat) (n : Int) (heb : 1 ≤ eb) :
    encFloatBits mb eb bias n < 2 ^ (mb + eb + 1) := by
  have heb2 : (2 : Nat) ≤ 2 ^ eb := by
    calc (2 : Nat) = 2 ^ 1 := by norm_num
    _ ≤ 2 ^ eb := Nat.pow_le_pow_right (by omega) heb
  have hp1 : (2 : Nat) ^ (mb + eb + 1) = 2 ^ (mb + eb) * 2 := pow_succ 2 (mb + eb)
  have heq : (2 : Nat) ^ (mb + eb) = 2 ^ mb * 2 ^ eb := pow_add 2 mb eb
  unfold encFloatBits
  by_cases h0 : n = 0
  · rw [if_pos h0]
    exact pow_pos (by omega) _
  · rw [if_neg h0]
    have ha0 : n.natAbs ≠ 0 := by omega
    have ha : n.natAbs < 2 ^ bitLen n.natAbs := bitLen_upper n.natAbs
    have hs1 : (if n < 0 then 1 else 0) ≤ 1 := by split <;> omega
    have hsA : (if n < 0 then 1 else 0) * 2 ^ (mb + eb) ≤ 2 ^ (mb + eb) := by
      calc (if n < 0 then 1 else 0) * 2 ^ (mb + eb) ≤ 1 * 2 ^ (mb + eb) :=
            Nat.mul_le_mul_right _ hs1
      _ = 2 ^ (mb + eb) := one_mul _
    by_cases hsat : 2 ^ eb - 1 ≤ bias + bitLen n.natAbs - 1
    · rw [if_pos hsat]
      have h1 : (2 ^ eb - 1) * 2 ^ mb < 2 ^ eb * 2 ^ mb :=
        Nat.mul_lt_mul_of_lt_of_le (by omega) (le_refl _) (pow_pos (by omega) _)
      have hcm : 2 ^ eb * 2 ^ mb = 2 ^ mb * 2 ^ eb := Nat.mul_comm _ _
      omega
    · rw [if_neg hsat]
      simp only []
      have hmpos : 0 < 2 ^ mb := pow_pos (by omega) mb
      have hE2 : bias + bitLen n.natAbs - 1 ≤ 2 ^ eb - 2 := by omega
      have hfrac :
          (if bitLen n.natAbs ≤ mb + 1
            then n.natAbs * 2 ^ (mb + 1 - bitLen n.natAbs) - 2 ^ mb
            else n.natAbs / 2 ^ (bitLen n.natAbs - (mb + 1)) - 2 ^ mb) < 2 ^ mb := by
        have h2m : (2 : Nat) ^ (mb + 1) = 2 ^ mb * 2 := pow_succ 2 mb
        have hmpos2 : 0 < 2 ^ mb := pow_pos (by omega) mb
        by_cases hc : bitLen n.natAbs ≤ mb + 1
        · rw [if_pos hc]
          have hlt : n.natAbs * 2 ^ (mb + 1 - bitLen n.natAbs) < 2 ^ (mb + 1) := by
            calc n.natAbs * 2 ^ (mb + 1 - bitLen n.natAbs)
                < 2 ^ bitLen n.natAbs * 2 ^ (mb + 1 - bitLen n.natAbs) :=
                  Nat.mul_lt_mul_of_lt_of_le ha (le_refl _) (pow_pos (by omega) _)
            _ = 2 ^ (mb + 1) := by
                  rw [← Nat.pow_add]
                  congr 1
                  omega
          omega
        · rw [if_neg hc]
          have hlt : n.natAbs / 2 ^ (bitLen n.natAbs - (mb + 1)) < 2 ^ (mb + 1) := by
            rw [Nat.div_lt_iff_lt_mul (pow_pos (by omega) _), ← Nat.pow_add]
            have hle : mb + 1 + (bitLen n.natAbs - (mb + 1)) = bitLen n.natAbs := by omega
            rw [hle]
            exact ha
          omega
      have hEm : (bias + bitLen n.natAbs - 1) * 2 ^ mb ≤ (2 ^ eb - 2) * 2 ^ mb :=
        Nat.mul_le_mul_right _ hE2
      have h22 : (2 ^ eb - 2) * 2 ^ mb + 2 ^ mb + 2 ^ mb ≤ 2 ^ mb * 2 ^ eb := by
        have h5 : 2 * 2 ^ mb ≤ 2 ^ eb * 2 ^ mb := Nat.mul_le_mul_right _ heb2
        have hcm : 2 ^ eb * 2 ^ mb = 2 ^ mb * 2 ^ eb := Nat.mul_comm _ _
        rw [Nat.sub_mul]
        omega
      omega

/-! Cursor-level read lemmas: each primitive reader recovers the bytes the
corresponding writer emits, at any position of a larger buffer. -/

theorem readBoolean_at (b : Nat) (pre post B : List Nat) (q : Int)
    (hB : B = pre ++ [b] ++ post) (hq : q = (pre.length : Int)) :
    Tap.readBoolean ⟨B, q⟩ = (decide (¬b = 0), ⟨B, q + 1⟩) := by
  subst hB
  subst hq
  have hb : pre ++ [b] ++ post = pre ++ b :: post := by simp
  simp only [Tap.readBoolean, Tap.bump]
  rw [hb, getByte_at pre b post _ rfl]

theorem readFixed_enc (bs pre post B : List Nat) (q len : Int)
    (hB : B = pre ++ bs ++ post) (hq : q = (pre.length : Int))
    (hlen : len = (bs.length : Int)) :
    Tap.readFixed ⟨B, q⟩ len = .ok (some bs, ⟨B, q + (bs.length : Int)⟩) := by
  subst hB
  subst hq
  subst hlen
  unfold Tap.readFixed
  simp only []
  have hl : ((pre ++ bs ++ post).length : Int) =
      (pre.length : Int) + bs.length + post.length := by
    simp only [List.length_append]
    push_cast
    ring
  rw [if_neg (by omega), if_neg (by omega), if_neg (by omega)]
  have ht : ((bs.length : Nat) : Int).toNat = bs.length := by omega
  rw [ht, listSlice_at]

theorem readFloat_enc (n : Int) (pre post B : List Nat) (q : Int)
    (hB : B = pre ++ encF32 n ++ post) (hq : q = (pre.length : Int))
    (hrep : reprP 24 n) (hrange : bitLen n.natAbs ≤ 128) :
    Tap.readFloat ⟨B, q⟩ = (some n, ⟨B, q + 4⟩) := by
  subst hB
  subst hq
  have hlen : (encF32 n).length = 4 := toBytesLE_length 4 _
  unfold Tap.readFloat
  simp only []
  have hl : ((pre ++ encF32 n ++ post).length : Int) =
      (pre.length : Int) + 4 + post.length := by
    simp only [List.length_append, hlen]
    push_cast
    ring
  rw [if_neg (by omega), if_neg (by omega)]
  have hslice : listSlice (pre ++ encF32 n ++ post) (pre.length : Int) 4 = encF32 n := by
    have h := listSlice_at pre (encF32 n) post
    rw [hlen] at h
    exact h
  rw [hslice]
  unfold decF32 encF32
  rw [fromBytesLE_toBytesLE 4 _ (by
    have h := encFloatBits_lt 23 8 127 n (by norm_num)
    have he : (2 : Nat) ^ (23 + 8 + 1) = 2 ^ (8 * 4) := by norm_num
    omega)]
  rw [decFloatBits_enc 23 8 127 n (by norm_num) (by norm_num) (by norm_num) hrep
    (by norm_num; omega)]

theorem readDouble_enc (n : Int) (pre post B : List Nat) (q : Int)
    (hB : B = pre ++ encF64 n ++ post) (hq : q = (pre.length : Int))
    (hrep : reprP 53 n) (hrange : bitLen n.natAbs ≤ 1024) :
    Tap.readDouble ⟨B, q⟩ = (some n, ⟨B, q + 8⟩) := by
  subst hB
  subst hq
  have hlen : (encF64 n).length = 8 := toBytesLE_length 8 _
  unfold Tap.readDouble
  simp only []
  have hl : ((pre ++ encF64 n ++ post).length : Int) =
      (pre.length : Int) + 8 + post.length := by
    simp only [List.length_append, hlen]
    push_cast
    ring
  rw [if_neg (by omega), if_neg (by omega)]
  have hslice : listSlice (pre ++ encF64 n ++ post) (pre.length : Int) 8 = encF64 n := by
    have h := listSlice_at pre (encF64 n) post
    rw [hlen] at h
    exact h
  rw [hslice]
  unfold decF64 encF64
  rw [fromBytesLE_toBytesLE 8 _ (by
    have h := encFloatBits_lt 52 11 1023 n (by norm_num)
    have he : (2 : Nat) ^ (52 + 11 + 1) = 2 ^ (8 * 8) := by norm_num
    omega)]
  rw [decFloatBits_enc 52 11 1023 n (by norm_num) (by norm_num) (by norm_num) hrep
    (by norm_num; omega)]

theorem readBytes_enc (bs pre post B : List Nat) (q : Int)
    (hB : B = pre ++ (lebBytes (zigJs ((bs.length : Nat) : Int)) ++ bs) ++ post)
    (hq : q = (pre.length : Int))
    (hz : zigExact ((bs.length : Nat) : Int) = true) :
    Tap.readBytes ⟨B, q⟩ =
      .ok (some bs, ⟨B,
        q + ((lebBytes (zigJs ((bs.length : Nat) : Int))).length : Int) + bs.length⟩) := by
  subst hB
  subst hq
  have hassoc : pre ++ (lebBytes (zigJs ((bs.length : Nat) : Int)) ++ bs) ++ post =
      pre ++ lebBytes (zigJs ((bs.length : Nat) : Int)) ++ (bs ++ post) := by
    simp
  unfold Tap.readBytes
  simp only []
  rw [hassoc, readLong_zigJs ((bs.length : Nat) : Int) pre (bs ++ post) hz]
  simp only []
  rw [readFixed_enc bs (pre ++ lebBytes (zigJs ((bs.length : Nat) : Int))) post
    (pre ++ lebBytes (zigJs ((bs.length : Nat) : Int)) ++ (bs ++ post))
    ((pre.length : Int) + ((lebBytes (zigJs ((bs.length : Nat) : Int))).length : Int))
    ((bs.length : Nat) : Int)
    (by simp) (by simp only [List.length_append]; push_cast; ring) rfl]

theorem readString_enc (s : Str) (pre post B : List Nat) (q : Int)
    (hB : B = pre ++ (lebBytes (zigJs ((utf8Len s : Nat) : Int)) ++ utf8Enc s) ++ post)
    (hq : q = (pre.length : Int))
    (hok : strOk s)
    (hz : zigExact ((utf8Len s : Nat) : Int) = true) :
    Tap.readString ⟨B, q⟩ =
      .ok (some s, ⟨B,
        q + ((lebBytes (zigJs ((utf8Len s : Nat) : Int))).length : Int) + (utf8Len s : Int)⟩) := by
  subst hB
  subst hq
  have hassoc : pre ++ (lebBytes (zigJs ((utf8Len s : Nat) : Int)) ++ utf8Enc s) ++ post =
      pre ++ lebBytes (zigJs ((utf8Len s : Nat) : Int)) ++ (utf8Enc s ++ post) := by
    simp
  unfold Tap.readString
  simp only []
  rw [hassoc, readLong_zigJs ((utf8Len s : Nat) : Int) pre (utf8Enc s ++ post) hz]
  simp only []
  have hulen : (utf8Enc s).length = utf8Len s := rfl
  have hl : ((pre ++ lebBytes (zigJs ((utf8Len s : Nat) : Int)) ++ (utf8Enc s ++ post)).length
      : Int) = (pre.length : Int) +
        ((lebBytes (zigJs ((utf8Len s : Nat) : Int))).length : Int) +
        (utf8Len s : Int) + post.length := by
    simp only [List.length_append, hulen]
    push_cast
    ring
  rw [if_neg (by omega)]
  have hcond : 0 ≤ (pre.length : Int) +
      ((lebBytes (zigJs ((utf8Len s : Nat) : Int))).length : Int) ∧
      (0 : Int) ≤ ((utf8Len s : Nat) : Int) := by
    constructor <;> omega
  rw [if_pos hcond]
  have ht : (((utf8Len s : Nat) : Int)).toNat = utf8Len s := by omega
  rw [ht]
  have hpre2 : (pre.length : Int) +
      ((lebBytes (zigJs ((utf8Len s : Nat) : Int))).length : Int) =
      (((pre ++ lebBytes (zigJs ((utf8Len s : Nat) : Int))).length : Nat) : Int) := by
    simp only [List.length_append]
    push_cast
    ring
  have hassoc2 : pre ++ lebBytes (zigJs ((utf8Len s : Nat) : Int)) ++ (utf8Enc s ++ post) =
      (pre ++ lebBytes (zigJs ((utf8Len s : Nat) : Int))) ++ utf8Enc s ++ post := by
    simp
  have hslice : listSlice
      (pre ++ lebBytes (zigJs ((utf8Len s : Nat) : Int)) ++ (utf8Enc s ++ post))
      ((pre.length : Int) + ((lebBytes (zigJs ((utf8Len s : Nat) : Int))).length : Int))
      (utf8Len s) = utf8Enc s := by
    rw [hpre2, hassoc2]
    have h := listSlice_at (pre ++ lebBytes (zigJs ((utf8Len s : Nat) : Int))) (utf8Enc s) post
    rw [hulen] at h
    exact h
  rw [hslice, utf8Dec_enc s hok]

/-! `Array.prototype.indexOf` on a contained element. -/

theorem jsIndexOf_mem : ∀ (l : List Str) (x : Str), l.contains x = true →
    ∃ i : Nat, jsIndexOf x l = (i : Int) ∧ i < l.length ∧ l.get? i = some x := by
  intro l
  induction l with
  | nil => intro x h; simp at h
  | cons y rest ih =>
    intro x h
    by_cases hxy : y = x
    · refine ⟨0, ?_, by simp, by simp [hxy]⟩
      simp only [jsIndexOf, List.findIdx?_cons]
      rw [if_pos (by simp [hxy])]
    · have hrest : rest.contains x = true := by
        simp only [List.contains_cons, Bool.or_eq_true, beq_iff_eq] at h
        rcases h with h1 | h2
        · exact absurd h1.symm hxy
        · exact h2
      obtain ⟨i, hi, hlen, hget⟩ := ih x hrest
      have hf : List.findIdx? (fun s => decide (s = x)) rest = some i := by
        cases hf2 : List.findIdx? (fun s => decide (s = x)) rest with
        | none =>
          simp only [jsIndexOf, hf2] at hi
          exact absurd hi (by omega)
        | some j =>
          simp only [jsIndexOf, hf2] at hi
          have hj : j = i := by omega
          rw [hj]
      refine ⟨i + 1, ?_, by simp only [List.length_cons]; omega, by simpa using hget⟩
      simp only [jsIndexOf, List.findIdx?_cons]
      rw [if_neg (by simp [hxy]), List.findIdx?_succ, hf]
      rfl

/-! ## Claim theorems: concrete evaluations -/

/-- C6: `Tap.writeLong` emits exactly the reference zig-zag varint bytes
for each listed value — 0 → 00, -1 → 01, 1 → 02, -2 → 03, 2 → 04,
-64 → 7f, 64 → 80 01, 8192 → 80 80 01, -8193 → 81 80 01 — with the
continuation bit in the MSB of each byte, and `Tap.readLong` applied to
those bytes returns the original value; encoding 1234 yields bytes a4 13
and decodes back to 1234. -/
theorem c6_zigzag_reference_encodings :
    (((freshTap 3).writeLong 0).buf.take 1 = [0x00] ∧ (Tap.mk [0x00] 0).readLong.1 = 0) ∧
    (((freshTap 3).writeLong (-1)).buf.take 1 = [0x01] ∧ (Tap.mk [0x01] 0).readLong.1 = -1) ∧
    (((freshTap 3).writeLong 1).buf.take 1 = [0x02] ∧ (Tap.mk [0x02] 0).readLong.1 = 1) ∧
    (((freshTap 3).writeLong (-2)).buf.take 1 = [0x03] ∧ (Tap.mk [0x03] 0).readLong.1 = -2) ∧
    (((freshTap 3).writeLong 2).buf.take 1 = [0x04] ∧ (Tap.mk [0x04] 0).readLong.1 = 2) ∧
    (((freshTap 3).writeLong (-64)).buf.take 1 = [0x7f] ∧ (Tap.mk [0x7f] 0).readLong.1 = -64) ∧
    (((freshTap 3).writeLong 64).buf.take 2 = [0x80, 0x01] ∧
      (Tap.mk [0x80, 0x01] 0).readLong.1 = 64) ∧
    (((freshTap 3).writeLong 8192).buf.take 3 = [0x80, 0x80, 0x01] ∧
      (Tap.mk [0x80, 0x80, 0x01] 0).readLong.1 = 8192) ∧
    (((freshTap 3).writeLong (-8193)).buf.take 3 = [0x81, 0x80, 0x01] ∧
      (Tap.mk [0x81, 0x80, 0x01] 0).readLong.1 = -8193) ∧
    (((freshTap 3).writeLong 1234).buf.take 2 = [0xa4, 0x13] ∧
      (Tap.mk [0xa4, 0x13] 0).readLong.1 = 1234) := by
  decide

/-- C5: the claim says a fixed/enum/record/error schema whose JSON carries
an explicit non-empty `namespace` gets fullname `namespace + "." + name`.
The `Name` class indeed computes that (second conjunct), but line 47 of
`makeAvscObject` reads
`jsonData.namespace === undefined ? jsonData.namespace : names.defaultNamespace`,
which discards the declared namespace and substitutes the registry default
(`undefined` at top level): parsing the claim's own example yields fullname
`MyFixed`, not `org.apache.hadoop.avro.MyFixed`. -/
theorem c5_explicit_namespace_discarded :
    parseSchema 40 (Json.jobj [(strLit "type", .jstr (strLit "fixed")),
        (strLit "name", .jstr (strLit "MyFixed")),
        (strLit "namespace", .jstr (strLit "org.apache.hadoop.avro")),
        (strLit "size", .jnum 16)]) =
      .ok (.sFixed (strLit "MyFixed") 16,
        { names := [(strLit "MyFixed", .ndFixed 16)], defaultNamespace := none }) ∧
    mkFullname (some (strLit "MyFixed")) (some (strLit "org.apache.hadoop.avro")) none =
      .ok (strLit "org.apache.hadoop.avro.MyFixed") ∧
    strLit "MyFixed" ≠ strLit "org.apache.hadoop.avro.MyFixed" := by
  exact ⟨rfl, rfl, by decide⟩

/-- C8: the claim says `Names.addName` raises on reserved type names such
as `record` or `int`.  The test `toAdd.fullname in constants.VALID_TYPES`
uses the JavaScript `in` operator on an ARRAY, which tests property keys
("0".."16", "length"), never the type names: registering `record` or `int`
succeeds and binds them.  The already-bound test works (third conjunct);
ironically the fullname "0" IS rejected as reserved (fourth). -/
theorem c8_reserved_name_check_never_fires :
    addName (some (strLit "record")) none (.ndFixed 1) ⟨[], none⟩ =
      .ok (strLit "record", ⟨[(strLit "record", .ndFixed 1)], none⟩) ∧
    addName (some (strLit "int")) none (.ndFixed 1) ⟨[], none⟩ =
      .ok (strLit "int", ⟨[(strLit "int", .ndFixed 1)], none⟩) ∧
    addName (some (strLit "record")) none (.ndFixed 2)
        ⟨[(strLit "record", .ndFixed 1)], none⟩ = .error "name already in use" ∧
    addName (some (strLit "0")) none (.ndFixed 1) ⟨[], none⟩ = .error "reserved type name" := by
  exact ⟨rfl, rfl, rfl, rfl⟩

/-- C2 counterexample: for the union `["int", "long"]` and datum `5`, the
first branch (index 0, `int`) validates, yet `writeUnion` emits branch
index 1 (`long`): the branch-selection loop has no break, so the LAST
validating branch wins.  The emitted index byte is `zig 1 = 2`; the claim's
stated behaviour would emit `zig 0 = 0`. -/
theorem c2_counterexample :
    validate [] 8 .sInt (.vnum 5) = true ∧
    writeData [] 8 (.sUnion false [.sInt, .sLong]) (.vnum 5) (freshTap 8) =
      .ok ⟨[2, 10, 0, 0, 0, 0, 0, 0], 2⟩ ∧
    zig 1 = 2 ∧ zig 0 = 0 := by
  decide

/-- C3: the claim says a negative block count's absolute value is the item
count, the following long being the block byte size.  `DatumReader.readMap`
instead stores the byte-size long into `blockCount` itself, so the byte
size is used as the entry count: on a map-of-long block declaring 2 entries
(count -2, byte size 6, entries a=1 and b=2, then the 0 terminator) the
decoder reads 6 entries, inventing phantom empty-keyed entries from the
bytes after the block, and overruns the terminator (final position 17, not
9). -/
theorem c3_map_negative_count_reads_bytesize_entries :
    (Tap.mk [3, 12, 2, 97, 2, 2, 98, 4, 0] 0).readLong.1 = -2 ∧
    (Tap.mk [3, 12, 2, 97, 2, 2, 98, 4, 0] 0).readLong.2.readLong.1 = 6 ∧
    readData [] 60 (.sMap .sLong) (.sMap .sLong)
        (Tap.mk ([3, 12, 2, 97, 2, 2, 98, 4, 0] ++ List.replicate 11 0) 0) =
      .ok (.vobj [(strLit "a", .vnum 1), (strLit "b", .vnum 2), ([], .vnum 0)],
        Tap.mk ([3, 12, 2, 97, 2, 2, 98, 4, 0] ++ List.replicate 11 0) 17) := by
  exact ⟨by decide, by decide, rfl⟩

/-- C9 counterexample: the buffer `[0x03]` decodes the varint length `-2`;
`skipBytes` then sets `pos := 1 + (-2) = -1`, underflowing into negative
space, and `readBytes` throws a `RangeError` from `Buffer.alloc(-2)` rather
than returning empty with `isValid() == false`. -/
theorem c9_counterexample :
    (Tap.mk [3] 0).readLong.1 = -2 ∧
    (Tap.mk [3] 0).skipBytes = ⟨[3], -1⟩ ∧
    (Tap.mk [3] 0).readBytes = .error "RangeError: Buffer.alloc size is out of range" := by
  decide

/-- C9 (amended): with a nonnegative length and position, `readFixed` never
faults: it advances `pos` by `len` and returns `undefined` exactly when the
new position passes the end of the buffer, the overflow being detectable by
`isValid()` afterwards.  But when the decoded length is negative,
`readBytes` throws a `RangeError` (from `Buffer.alloc`), and `skipBytes`
adds the negative length to `pos`, which may underflow below zero. -/
theorem c9_overflow_silent_but_negative_length_faults (t : Tap) (len : Int)
    (h0 : 0 ≤ len) (h1 : 0 ≤ t.pos) :
    t.readFixed len =
      .ok (if (t.buf.length : Int) < t.pos + len then none
           else some (listSlice t.buf t.pos len.toNat),
        { buf := t.buf, pos := t.pos + len }) ∧
    (Tap.isValid { buf := t.buf, pos := t.pos + len } = false ↔
      (t.buf.length : Int) < t.pos + len) ∧
    (∀ u : Tap, u.readLong.1 < 0 → u.readLong.2.pos + u.readLong.1 ≤ (u.buf.length : Int) →
      u.readBytes = .error "RangeError: Buffer.alloc size is out of range") ∧
    (∀ u : Tap, u.skipBytes.pos = u.readLong.2.pos + u.readLong.1) := by
  refine ⟨?_, ?_, ?_, fun u => rfl⟩
  · simp only [Tap.readFixed]
    split
    · rfl
    · rw [if_neg (by omega), if_neg (by omega)]
  · simp [Tap.isValid]
  · intro u hneg hle
    simp only [Tap.readBytes, Tap.readFixed]
    rw [if_neg (by rw [readLong_buf]; omega), if_pos hneg]

/-- C9 witness: for the cursor `⟨[1, 2, 3], 1⟩` and length 5 the overflow
read yields `undefined` without faulting. -/
theorem c9_witness :
    ∃ r, (Tap.mk [1, 2, 3] 1).readFixed 5 = .ok r :=
  ⟨_, (c9_overflow_silent_but_negative_length_faults (Tap.mk [1, 2, 3] 1) 5
    (by decide) (by decide)).1⟩

/-- C7 counterexample: for the record `R` with one field `f` of type `null`
and the empty object, the claim's rule validates the missing key as the
null sentinel (`validateRecordSpec` accepts), but the source validates
`undefined`, which matches no branch of `_valid`: `validate` rejects. -/
theorem c7_counterexample :
    validate [] 3 (.sRecord false (strLit "R") [SField.mk (strLit "f") .sNull false .jnull])
      (.vobj []) = false ∧
    validateRecordSpec [] 3 [SField.mk (strLit "f") .sNull false .jnull] (.vobj []) = true := by
  decide

/-- C10: a `DatumReader` built without a reader schema reads with the
writer schema in its place, and (whenever the writer schema is not an
unresolvable reference) `matchSchemas` accepts the writer schema against
itself, so no schema-resolution mismatch can arise from the absent reader
schema. -/
theorem c10_missing_reader_schema_defaults_to_writer (env : SEnv) (fuel : Nat) (w : Schema)
    (t : Tap) (h : ∀ n, resolveS env w ≠ .sRef n) :
    datumReaderRead env fuel w none t = datumReaderRead env fuel w (some w) t ∧
    matchSchemas env w w = true := by
  refine ⟨rfl, ?_⟩
  unfold matchSchemas
  cases hu : resolveS env w <;>
    simp [hu, isPrim, isUnionKind, typeName]
  exact absurd hu (h _)

/-- C10 witness: reading an `int` with no reader schema equals reading it
with the writer schema as the reader schema. -/
theorem c10_witness :
    datumReaderRead [] 5 .sInt none (Tap.mk [6] 0) =
      datumReaderRead [] 5 .sInt (some .sInt) (Tap.mk [6] 0) :=
  (c10_missing_reader_schema_defaults_to_writer [] 5 .sInt (Tap.mk [6] 0)
    (fun _ hn => Schema.noConfusion hn)).1

/-- C2 (amended): `writeUnion` writes the index of the LAST branch that
validates the datum (the selection loop overwrites its index variable
without breaking), then encodes per that branch; when no branch validates
it fails with the `AvroTypeError`.  `lastValidPick` is exactly that
selection: a successful pick names a validating branch at its index with
every later branch failing to validate, and an empty pick means every
branch fails. -/
theorem c2_union_write_last_match (env : SEnv) (fuel : Nat) (eu : Bool) (bs : List Schema)
    (v : Value) (t : Tap) :
    (∀ i b, lastValidPick env fuel v bs = some (i, b) →
      ∃ h : i < bs.length, bs.get ⟨i, h⟩ = b ∧ validate env fuel b v = true ∧
        ∀ j (hj : j < bs.length), i < j →
          validate env fuel (bs.get ⟨j, hj⟩) v = false) ∧
    (lastValidPick env fuel v bs = none ↔ ∀ b ∈ bs, validate env fuel b v = false) ∧
    (writeData env (fuel + 1) (.sUnion eu bs) v t =
      match lastValidPick env fuel v bs with
      | some (i, b) => writeData env fuel b v (t.writeLong (i : Int))
      | none => .error "AvroTypeError: datum matches no union branch") :=
  ⟨lastValidPick_some_spec env fuel v bs, lastValidPick_none_iff env fuel v bs, rfl⟩

/-- C7 (amended): validation of a record (or error) value succeeds, at some
depth budget, exactly when the value is a mapping whose every declared
field name is PRESENT as a key whose value validates against the field's
type, with no keys beyond the declared field names.  A missing key is
`undefined` in the source, which no branch of `_valid` accepts — it is not
validated as the null sentinel the claim describes (`c7_counterexample`). -/
theorem c7_record_validate_requires_present_keys (env : SEnv) (e : Bool) (n : Str)
    (fields : List SField) (kvs : List (Str × Value)) :
    (∃ fuel, validate env fuel (.sRecord e n fields) (.vobj kvs) = true) ↔
      ((∀ f ∈ fields, ∃ w, kvLookup f.fname kvs = some w ∧
          ∃ g, validate env g f.ftype w = true) ∧
       (∀ kv ∈ kvs, ∃ f ∈ fields, f.fname = kv.1)) := by
  constructor
  · rintro ⟨fuel, h⟩
    cases fuel with
    | zero => simp [validate] at h
    | succ fuel =>
      simp only [validate, resolveS] at h
      rw [Bool.and_eq_true] at h
      obtain ⟨h1, h2⟩ := h
      refine ⟨validFields_forall env fields fuel kvs h1, ?_⟩
      intro kv hkv
      have := List.all_eq_true.mp h2 kv hkv
      rcases List.any_eq_true.mp this with ⟨f, hf, heq⟩
      exact ⟨f, hf, of_decide_eq_true heq⟩
  · rintro ⟨h1, h2⟩
    obtain ⟨fuel, hfields⟩ := validFields_exists env fields kvs h1
    refine ⟨fuel + 1, ?_⟩
    simp only [validate, resolveS]
    rw [Bool.and_eq_true]
    refine ⟨hfields, ?_⟩
    refine List.all_eq_true.mpr fun kv hkv => ?_
    rcases h2 kv hkv with ⟨f, hf, heq⟩
    exact List.any_eq_true.mpr ⟨f, hf, decide_eq_true heq⟩

/-- C4: `DatumReader.readRecord` matches the claimed resolution algorithm:
writer fields with a same-named reader field are decoded and stored, other
writer fields are skipped with `skipData`, and afterwards unpopulated
reader fields are materialised from their defaults through
`readDefaultValue` (error when one has none).  The source guards the
default pass by an entry-count comparison; under distinct reader field
names that guard fires exactly when some reader field is unpopulated, so
the guarded code equals the unguarded specification `readRecordSpec`. -/
theorem c4_record_resolution_matches_spec (env : SEnv) (fuel : Nat) (e1 e2 : Bool)
    (n1 n2 : Str) (wfields rfields : List SField) (t : Tap)
    (hnr : (rfields.map SField.fname).Nodup)
    (hfuel : rfields.length ≤ fuel)
    (hmatch : matchSchemas env (.sRecord e1 n1 wfields) (.sRecord e2 n2 rfields) = true) :
    readData env (fuel + 1) (.sRecord e1 n1 wfields) (.sRecord e2 n2 rfields) t =
      match readRecordSpec env fuel wfields rfields t with
      | .ok (kvs, t1) => .ok (.vobj kvs, t1)
      | .error err => .error err := by
  simp only [readData, resolveS_record, readRecordSpec]
  rw [hmatch]
  simp only [isUnionKind]
  rw [if_neg (by simp), if_neg (by simp)]
  cases hrr : readRecFieldsR env fuel wfields rfields t [] with
  | error e => rfl
  | ok p =>
    obtain ⟨acc, t1⟩ := p
    simp only []
    obtain ⟨hnd, hmem⟩ := readRecFieldsR_keys env wfields fuel rfields t [] acc t1 hrr
    have hndacc : (acc.map Prod.fst).Nodup := hnd (by simp)
    by_cases hguard : rfields.length > (acc.map Prod.fst).dedup.length
    · rw [if_pos hguard]
      cases hdef : readRecDefaults env fuel wfields rfields acc <;> rfl
    · rw [if_neg hguard]
      have hdedup : (acc.map Prod.fst).dedup = acc.map Prod.fst :=
        List.dedup_eq_self.mpr hndacc
      rw [hdedup] at hguard
      have hsub : ∀ x ∈ acc.map Prod.fst, x ∈ rfields.map SField.fname := by
        intro x hx
        rcases hmem x hx with hnil | ⟨_, ⟨rf, hrf, hrfn⟩⟩
        · simp at hnil
        · exact List.mem_map.mpr ⟨rf, hrf, hrfn⟩
      have hfin : (acc.map Prod.fst).toFinset = (rfields.map SField.fname).toFinset := by
        apply Finset.eq_of_subset_of_card_le
        · intro x hx
          exact List.mem_toFinset.mpr (hsub x (List.mem_toFinset.mp hx))
        · rw [List.toFinset_card_of_nodup hndacc, List.toFinset_card_of_nodup hnr]
          simpa using hguard
      have hall : ∀ f ∈ rfields, ∃ wf ∈ wfields, wf.fname = f.fname := by
        intro f hf
        have hin : f.fname ∈ acc.map Prod.fst := by
          have : f.fname ∈ (acc.map Prod.fst).toFinset := by
            rw [hfin]
            exact List.mem_toFinset.mpr (List.mem_map.mpr ⟨f, hf, rfl⟩)
          exact List.mem_toFinset.mp this
        rcases hmem _ hin with hnil | ⟨⟨wf, hwf, hwfn⟩, _⟩
        · simp at hnil
        · exact ⟨wf, hwf, hwfn⟩
      rw [readRecDefaults_all_present env rfields fuel wfields acc hall hfuel]

/-- C4 witness: a one-field record read against itself at a concrete
cursor. -/
theorem c4_witness :
    readData [] 4 (.sRecord false (strLit "T") [SField.mk (strLit "A") .sInt false .jnull])
        (.sRecord false (strLit "T") [SField.mk (strLit "A") .sInt false .jnull])
        (Tap.mk [2] 0) =
      match readRecordSpec [] 3 [SField.mk (strLit "A") .sInt false .jnull]
          [SField.mk (strLit "A") .sInt false .jnull] (Tap.mk [2] 0) with
      | .ok (kvs, t1) => .ok (.vobj kvs, t1)
      | .error err => .error err :=
  c4_record_resolution_matches_spec [] 3 false false (strLit "T") (strLit "T")
    [SField.mk (strLit "A") .sInt false .jnull] [SField.mk (strLit "A") .sInt false .jnull]
    (Tap.mk [2] 0) (by decide) (by decide) (by decide)
